import Mathlib

/-!
# BTP section builder (`btp/section.go`)

A shallow embedding of the network section and network type section
constructors of `btp/section.go`, together with the properties of their
derived fields (update number, message hashes, Merkle roots, section hashes),
of the BTP section digest (bytes, hash, filter, memoized values) and of
`Flush` and `MessageList` over a store that is a map per bucket.

Conventions of the embedding:

* a Go `[]byte` is a `ByteString` (a list of bytes);
* a Go `int64` is an `Int`; every `int64` operation of the source is spelled
  out on the 64-bit pattern of the value (`toUint64`, `ofUint64`), so
  overflow wraps exactly as in Go;
* an interface of package `module` is a structure of functions;
* a `module.BytesList` (`Len()`, `Get(i)`) handed to `MerkleRoot` is the list
  `[Get 0, ..., Get (Len-1)]`;
* the process-wide codec and module registry, `crypto.SHA3Sum256` and the
  constant `nidFilterBytes` are explicit parameters;
* a method that stores a value in its receiver returns the value and the
  receiver afterwards.
-/

namespace Btp

/-- A Go byte slice. -/
abbrev ByteString := List UInt8

/-- A Go `error` value. -/
abbrev Error := String

/-! ## 64-bit signed arithmetic -/

/-- The 64-bit pattern (twos complement) of an integer. -/
def toUint64 (x : Int) : Nat := (x % 2 ^ 64).toNat

/-- The signed value of a 64-bit pattern. -/
def ofUint64 (n : Nat) : Int :=
  if n % 2 ^ 64 < 2 ^ 63 then ((n % 2 ^ 64 : Nat) : Int) else ((n % 2 ^ 64 : Nat) : Int) - 2 ^ 64

/-- Reduction of a mathematical integer to the `int64` it wraps to. -/
def wrapInt64 (x : Int) : Int := ofUint64 (toUint64 x)

/-- Membership in the `int64` range. -/
def isInt64 (x : Int) : Prop := -(2 : Int) ^ 63 ≤ x ∧ x < 2 ^ 63

instance (x : Int) : Decidable (isInt64 x) := by
  unfold isInt64; infer_instance

/-- Go `a - b` on `int64`. -/
def int64Sub (a b : Int) : Int := wrapInt64 (a - b)

/-- Go `a << k` on `int64`. -/
def int64Shl (a : Int) (k : Nat) : Int := ofUint64 (toUint64 a <<< k)

/-- Go `a >> k` on `int64` (arithmetic shift). -/
def int64Shr (a : Int) (k : Nat) : Int := a >>> k

/-- Go `a | b` on `int64`. -/
def int64Or (a b : Int) : Int := ofUint64 (toUint64 a ||| toUint64 b)

/-- Go `a & b` on `int64`. -/
def int64And (a b : Int) : Int := ofUint64 (toUint64 a &&& toUint64 b)

/-- Go `int64(len(s))`: a length is a non-negative `int`, the conversion keeps its value. -/
def int64OfLen (n : Nat) : Int := (n : Int)

/-! ## Collaborators of package `module`, `codec` and `ntm` -/

/-- The interface `module.BTPProofContext`, as far as the section builder uses it. -/
structure BTPProofContext where
  Hash : ByteString
  Bytes : ByteString

/-- The interface `module.NetworkTypeModule`, as far as the section builder uses it.
`MerkleRoot` receives the items of the `module.BytesList` it is given. -/
structure NetworkTypeModule where
  UID : String
  Hash : ByteString → ByteString
  MerkleRoot : List ByteString → ByteString
  NewProofContextFromBytes : ByteString → Except Error BTPProofContext

/-- The items a `module.BytesList` (`Len()`, `Get(i)`) presents to its reader. -/
def bytesListItems (len : Nat) (get : Nat → ByteString) : List ByteString :=
  (List.range len).map get

/-- A value handed to the codec: integers, byte strings and positional lists. -/
inductive Item where
  | int (v : Int)
  | bytes (b : ByteString)
  | list (xs : List Item)

/-- The codec of package `codec` (`codec.MustMarshalToBytes`, `codec.NewEncoderBytes`):
the canonical encoding is a parameter of the development. -/
structure Codec where
  MarshalToBytes : Item → ByteString

/-- How a section constructor can fail to return a section. -/
inductive Failure where
  /-- The registry has no module for the UID (raised by `ntm.ForUID`). -/
  | UnknownNetworkType (uid : String)
  /-- An `error` value returned by the constructor. -/
  | returned (err : Error)
  deriving DecidableEq

/-- The module registry of package `ntm`: the modules registered at start-up, by UID. -/
abbrev Registry := List (String × NetworkTypeModule)

/-- Modelled from the spec: `ntm.ForUID` is not part of the sources at hand. The registry is
"a process-wide mapping UID → Module, populated at startup", and "unknown UID is fatal to
section construction" (the error kind *UnknownNetworkType*: "UID not registered. Fatal to
block production; surfaced to caller"). The Go function returns the module alone, so the
failure is not an `error` value of the caller: it aborts the caller. -/
def ForUID (reg : Registry) (uid : String) : Except Failure NetworkTypeModule :=
  match reg.lookup uid with
  | some mod => .ok mod
  | none => .error (.UnknownNetworkType uid)

/-! ## Inputs -/

/-- The per-network state read by `newNetworkSection`. -/
structure Network where
  NextMessageSN : Int
  NextProofContextChanged : Bool
  LastNetworkSectionHash : ByteString

/-- The messages a network emitted in the block, in emission order. -/
structure networkEntry where
  messages : List ByteString

/-- The per-network-type state read by `newNetworkTypeSection`. -/
structure NetworkType where
  UID : String
  NextProofContext : ByteString

/-! ## hashesCat -/

/-- Modelled from the spec: the type `hashesCat` is not part of the sources at hand. It is
"a single contiguous byte buffer holding N fixed-width hashes back-to-back, with `Len()`,
`Get(i) → bytes`, and `Append(h)`. Fixed width is set by the first append." The source at
hand reads its field `Bytes` (`flushMessages`). -/
structure hashesCat where
  Bytes : ByteString
  hashLen : Option Nat

/-- Modelled from the spec: a fresh, empty store (the argument is a capacity hint). -/
def makeHashesCat (_count : Nat) : hashesCat := { Bytes := [], hashLen := none }

/-- Modelled from the spec: `Append(h)` puts `h` at the end of the buffer. "Fixed width is
set by the first append"; hashes of two widths "never mix within one section", which is
enforced "at the first `Append`": once the width is set, a hash of another width is not
taken. -/
def hashesCat.Append (c : hashesCat) (h : ByteString) : hashesCat :=
  match c.hashLen with
  | none => { Bytes := c.Bytes ++ h, hashLen := some h.length }
  | some w => if h.length = w then { Bytes := c.Bytes ++ h, hashLen := some w } else c

/-- Modelled from the spec: `Len()` is the number of fixed-width hashes in the buffer
(zero while no width is set; a zero width gives zero). -/
def hashesCat.Len (c : hashesCat) : Nat :=
  match c.hashLen with
  | none => 0
  | some w => c.Bytes.length / w

/-- Modelled from the spec: `Get(i)` is the `i`-th fixed-width slice of the buffer. -/
def hashesCat.Get (c : hashesCat) (i : Nat) : ByteString :=
  match c.hashLen with
  | none => []
  | some w => (c.Bytes.drop (i * w)).take w

/-- The store as the `module.BytesList` handed to `MerkleRoot`. -/
def hashesCat.items (c : hashesCat) : List ByteString := bytesListItems c.Len c.Get

/-- The loop of `newNetworkSection` over the messages: the hash of each message, in order,
is appended to the store. -/
def appendAll (mod : NetworkTypeModule) (c : hashesCat) (msgs : List ByteString) : hashesCat :=
  msgs.foldl (fun hc msg => hc.Append (mod.Hash msg)) c

/-! ## Network section -/

/-- The struct `networkSection`. -/
structure networkSection where
  networkID : Int
  updateNumber : Int
  prevHash : ByteString
  messages : List ByteString
  messageHashes : hashesCat
  messagesRoot : ByteString
  mod : NetworkTypeModule
  hash : ByteString

/-- The struct `networkSectionFormat`, the hash preimage of a network section. -/
structure networkSectionFormat where
  NetworkID : Int
  UpdateNumber : Int
  PrevHash : ByteString
  MessageCount : Int
  MessagesRoot : ByteString

/-- The codec sees a struct as the positional list of its exported fields. -/
def networkSectionFormat.toItem (f : networkSectionFormat) : Item :=
  .list [.int f.NetworkID, .int f.UpdateNumber, .bytes f.PrevHash, .int f.MessageCount,
    .bytes f.MessagesRoot]

/-- The method `networkSection.networkSectionFormat`. -/
def networkSection.networkSectionFormat (ns : networkSection) : Btp.networkSectionFormat :=
  { NetworkID := ns.networkID
    UpdateNumber := ns.updateNumber
    PrevHash := ns.prevHash
    MessageCount := int64OfLen ns.messageHashes.Len
    MessagesRoot := ns.messagesRoot }

/-- The function `newNetworkSection`. -/
def newNetworkSection (codec : Codec) (nid : Int) (nw : Network) (ne : networkEntry)
    (mod : NetworkTypeModule) : networkSection :=
  let updateNumber := int64Shl (int64Sub nw.NextMessageSN (int64OfLen ne.messages.length)) 1
  let updateNumber := if nw.NextProofContextChanged then int64Or updateNumber 1 else updateNumber
  let messageHashes := appendAll mod (makeHashesCat ne.messages.length) ne.messages
  let ns : networkSection :=
    { networkID := nid
      updateNumber := updateNumber
      prevHash := nw.LastNetworkSectionHash
      messages := ne.messages
      messageHashes := messageHashes
      messagesRoot := mod.MerkleRoot messageHashes.items
      mod := mod
      hash := [] }
  { ns with hash := mod.Hash (codec.MarshalToBytes ns.networkSectionFormat.toItem) }

def networkSection.NetworkID (ns : networkSection) : Int := ns.networkID

def networkSection.UpdateNumber (ns : networkSection) : Int := ns.updateNumber

def networkSection.FirstMessageSN (ns : networkSection) : Int := int64Shr ns.updateNumber 1

def networkSection.NextProofContextChanged (ns : networkSection) : Bool :=
  int64And ns.updateNumber 1 != 0

def networkSection.PrevHash (ns : networkSection) : ByteString := ns.prevHash

def networkSection.MessageCount (ns : networkSection) : Int := int64OfLen ns.messageHashes.Len

def networkSection.MessagesRoot (ns : networkSection) : ByteString := ns.messagesRoot

def networkSection.Hash (ns : networkSection) : ByteString := ns.hash

def networkSection.NetworkSectionHash (ns : networkSection) : ByteString := ns.hash

/-! ## Network type section -/

/-- The type `networkSectionSlice`. -/
abbrev networkSectionSlice := List networkSection

/-- Modelled from the spec: the `module.BytesList` methods of `networkSectionSlice` are not
part of the sources at hand. `MerkleRoot` is taken over the "network section hashes in given
order". -/
def networkSectionSlice.Len (s : networkSectionSlice) : Nat := s.length

/-- Modelled from the spec: item `i` of the slice as a `module.BytesList` is the hash of the
`i`-th network section. -/
def networkSectionSlice.Get (s : networkSectionSlice) (i : Nat) : ByteString :=
  match s.get? i with
  | some ns => ns.Hash
  | none => []

/-- The slice as the `module.BytesList` handed to `MerkleRoot`. -/
def networkSectionSlice.items (s : networkSectionSlice) : List ByteString :=
  bytesListItems (networkSectionSlice.Len s) (networkSectionSlice.Get s)

/-- The struct `networkTypeSection`. -/
structure networkTypeSection where
  networkTypeID : Int
  nextProofContext : BTPProofContext
  nextProofContextHash : ByteString
  networkSections : networkSectionSlice
  networkSectionsRoot : ByteString
  networkDigests : Option (List networkSection)
  mod : NetworkTypeModule
  hash : ByteString

/-- The struct `networkTypeSectionFormat`, the hash preimage of a network type section. -/
structure networkTypeSectionFormat where
  NextProofContextHash : ByteString
  NetworkSectionsRoot : ByteString

/-- The codec sees a struct as the positional list of its exported fields. -/
def networkTypeSectionFormat.toItem (f : networkTypeSectionFormat) : Item :=
  .list [.bytes f.NextProofContextHash, .bytes f.NetworkSectionsRoot]

/-- The method `networkTypeSection.networkTypeSectionFormat`. -/
def networkTypeSection.networkTypeSectionFormat (nts : networkTypeSection) :
    Btp.networkTypeSectionFormat :=
  { NextProofContextHash := nts.nextProofContext.Hash
    NetworkSectionsRoot := nts.networkSectionsRoot }

/-- The function `newNetworkTypeSection`. -/
def newNetworkTypeSection (codec : Codec) (reg : Registry) (ntid : Int) (nt : NetworkType)
    (nsSlice : networkSectionSlice) : Except Failure networkTypeSection :=
  match ForUID reg nt.UID with
  | .error f => .error f
  | .ok mod =>
    match mod.NewProofContextFromBytes nt.NextProofContext with
    | .error err => .error (.returned err)
    | .ok npc =>
      let nts : networkTypeSection :=
        { networkTypeID := ntid
          nextProofContext := npc
          nextProofContextHash := []
          networkSections := nsSlice
          networkSectionsRoot := mod.MerkleRoot (networkSectionSlice.items nsSlice)
          networkDigests := none
          mod := mod
          hash := [] }
      .ok { nts with hash := mod.Hash (codec.MarshalToBytes nts.networkTypeSectionFormat.toItem) }

def networkTypeSection.NetworkTypeID (nts : networkTypeSection) : Int := nts.networkTypeID

def networkTypeSection.Hash (nts : networkTypeSection) : ByteString := nts.hash

def networkTypeSection.NetworkSectionsRoot (nts : networkTypeSection) : ByteString :=
  nts.networkSectionsRoot

def networkTypeSection.NextProofContext (nts : networkTypeSection) : BTPProofContext :=
  nts.nextProofContext

def networkTypeSection.NetworkSections (nts : networkTypeSection) : List networkSection :=
  nts.networkSections

def networkTypeSection.NetworkTypeSectionHash (nts : networkTypeSection) : ByteString := nts.hash

/-! ## Sample collaborators used to evaluate the constructors -/

/-- A sample codec: tags and lengths in front of the contents. -/
def sampleEncode : Item → ByteString
  | .int v => [0, UInt8.ofNat (toUint64 v % 256)]
  | .bytes b => 1 :: UInt8.ofNat b.length :: b
  | .list xs => 2 :: UInt8.ofNat xs.length :: sampleEncodeList xs
where
  /-- The items of a list, one after the other. -/
  sampleEncodeList : List Item → ByteString
    | [] => []
    | x :: xs => sampleEncode x ++ sampleEncodeList xs

def sampleCodec : Codec := { MarshalToBytes := sampleEncode }

/-- A sample module with 2-byte hashes. -/
def sampleModule : NetworkTypeModule :=
  { UID := "icon"
    Hash := fun b => [UInt8.ofNat b.length, b.foldl (fun a x => a + x) 0]
    MerkleRoot := fun hs => UInt8.ofNat hs.length :: hs.flatten
    NewProofContextFromBytes := fun b =>
      if b = [] then .error "empty proof context" else .ok { Hash := b.reverse, Bytes := b } }

/-- A sample module whose hashes have the length of their input. -/
def identityModule : NetworkTypeModule :=
  { sampleModule with UID := "raw", Hash := fun b => b }

def sampleRegistry : Registry := [("icon", sampleModule), ("raw", identityModule)]

/-! ## Digest encoding -/

/-- The type `networkTypeSectionSlice`. -/
abbrev networkTypeSectionSlice := List networkTypeSection

/-- Modelled from the spec: the interface `codec.Encoder` is not part of the sources at hand.
In the canonical encoding "lists are length-tagged and items are positional"; an encoder
writing one list is the items written to it so far. The encoders of the source write to a
byte buffer in memory; the errors they return are dropped by the source (`_ =`) and are not
modelled. -/
structure Encoder where
  items : List Item

/-- The encoder `codec.NewEncoderBytes` returns: nothing written yet. -/
def NewEncoderBytes : Encoder := { items := [] }

/-- `e.EncodeMulti(xs...)`: the items, one after the other. -/
def Encoder.EncodeMulti (e : Encoder) (xs : List Item) : Encoder := { items := e.items ++ xs }

/-- `e.EncodeListOf(xs...)`: one list holding the items. -/
def Encoder.EncodeListOf (e : Encoder) (xs : List Item) : Encoder :=
  { items := e.items ++ [.list xs] }

/-- `e2, _ := e.EncodeList()` followed by the writes `body` makes to `e2`: one list holding
what was written to the inner encoder. -/
def Encoder.EncodeList (e : Encoder) (body : Encoder → Encoder) : Encoder :=
  { items := e.items ++ [.list (body { items := [] }).items] }

/-- `e.Close()`: the encoding of what was written reaches the byte buffer. -/
def Encoder.Close (codec : Codec) (e : Encoder) : ByteString :=
  (e.items.map codec.MarshalToBytes).flatten

/-- The method `networkSection.encodeDigest`. -/
def networkSection.encodeDigest (ns : networkSection) (e : Encoder) : Encoder :=
  e.EncodeListOf [.int ns.NetworkID, .bytes ns.NetworkSectionHash, .bytes ns.MessagesRoot]

/-- The method `networkTypeSection.encodeDigest`. -/
def networkTypeSection.encodeDigest (nts : networkTypeSection) (e : Encoder) : Encoder :=
  e.EncodeList fun e2 =>
    let e2 := e2.EncodeMulti [.int nts.NetworkTypeID, .bytes nts.NetworkTypeSectionHash]
    nts.networkSections.foldl (fun e3 ns => ns.encodeDigest e3) e2

/-! ## Bit-set filter -/

/-- Modelled from the spec: `module.BitSetFilter` is not part of the sources at hand. It is a
"fixed-width buffer of `nidFilterBytes` bytes (a system-wide constant), indexed by network ID
(bit `i` = network `i` produced a section this block)". The buffer is kept bit by bit. -/
structure BitSetFilter where
  bits : List Bool

/-- Modelled from the spec: `module.MakeBitSetFilter(n)` is a buffer of `n` zero bytes. -/
def MakeBitSetFilter (size : Nat) : BitSetFilter := { bits := List.replicate (8 * size) false }

/-- Modelled from the spec: `f.Set(idx)` sets the bit at index `idx`. An index outside the
buffer is "a configuration error" the spec says no more about: no result is modelled for
it (`none`). -/
def BitSetFilter.Set (f : BitSetFilter) (idx : Int) : Option BitSetFilter :=
  if 0 ≤ idx ∧ idx < f.bits.length then some { bits := f.bits.set idx.toNat true } else none

/-- Modelled from the spec: bit `idx` of the buffer. -/
def BitSetFilter.Test (f : BitSetFilter) (idx : Int) : Bool :=
  decide (0 ≤ idx) && f.bits.getD idx.toNat false

/-- The loop of `networkTypeSection.updateFilter` over the network sections. The filter is
filled in place: the result is the buffer as the loop leaves it, and whether every `Set` had
a result; the loop ends at the first `Set` that has none. -/
def updateFilterLoop : List networkSection → BitSetFilter → BitSetFilter × Bool
  | [], f => (f, true)
  | ns :: rest, f =>
    match f.Set ns.NetworkID with
    | none => (f, false)
    | some g => updateFilterLoop rest g

/-- The method `networkTypeSection.updateFilter`. -/
def networkTypeSection.updateFilter (nts : networkTypeSection) (f : BitSetFilter) :
    BitSetFilter × Bool :=
  updateFilterLoop nts.networkSections f

/-- The loop of `btpSectionDigest.NetworkSectionFilter` over the network type sections: the
buffer as the loop leaves it, and whether every `Set` had a result. -/
def networkSectionFilterLoop : List networkTypeSection → BitSetFilter → BitSetFilter × Bool
  | [], f => (f, true)
  | nts :: rest, f =>
    match nts.updateFilter f with
    | (g, false) => (g, false)
    | (g, true) => networkSectionFilterLoop rest g

/-! ## BTP section and its digest -/

/-- The struct `btpSectionDigest`. The field `bs` points back to the owning `btpSection`, of
which the digest reads `networkTypeSections` only; an unset (`nil`) field is `none`. -/
structure btpSectionDigest where
  bs : networkTypeSectionSlice
  bytes : Option ByteString
  hash : Option ByteString
  networkTypeDigests : Option (List networkTypeSection)
  filter : Option BitSetFilter

/-- The struct `btpSection`. -/
structure btpSection where
  networkTypeSections : networkTypeSectionSlice
  digest : btpSectionDigest

/-- The function `newBTPSection`. -/
def newBTPSection (ntsSlice : networkTypeSectionSlice) : btpSection :=
  { networkTypeSections := ntsSlice
    digest :=
      { bs := ntsSlice
        bytes := none
        hash := none
        networkTypeDigests := none
        filter := none } }

def btpSection.Digest (bs : btpSection) : btpSectionDigest := bs.digest

def btpSection.NetworkTypeSections (bs : btpSection) : List networkTypeSection :=
  bs.networkTypeSections

/-- The bytes `btpSectionDigest.Bytes` encodes when none are stored yet. -/
def btpSectionDigest.encodeBytes (codec : Codec) (bsd : btpSectionDigest) : ByteString :=
  Encoder.Close codec
    (NewEncoderBytes.EncodeList fun e2 => bsd.bs.foldl (fun e3 nts => nts.encodeDigest e3) e2)

/-- The method `btpSectionDigest.Bytes`: the value returned and the digest afterwards. -/
def btpSectionDigest.Bytes (codec : Codec) (bsd : btpSectionDigest) :
    ByteString × btpSectionDigest :=
  match bsd.bytes with
  | some b => (b, bsd)
  | none => (bsd.encodeBytes codec, { bsd with bytes := some (bsd.encodeBytes codec) })

/-- The method `btpSectionDigest.Hash`; `sha3` is `crypto.SHA3Sum256`. -/
def btpSectionDigest.Hash (codec : Codec) (sha3 : ByteString → ByteString)
    (bsd : btpSectionDigest) : ByteString × btpSectionDigest :=
  match bsd.hash with
  | some h => (h, bsd)
  | none =>
    let r := bsd.Bytes codec
    (sha3 r.1, { r.2 with hash := some (sha3 r.1) })

/-- The method `btpSectionDigest.NetworkTypeDigests`. -/
def btpSectionDigest.NetworkTypeDigests (bsd : btpSectionDigest) :
    List networkTypeSection × btpSectionDigest :=
  match bsd.networkTypeDigests with
  | some ds => (ds, bsd)
  | none =>
    let ds := bsd.bs.foldl (fun acc ntd => acc ++ [ntd]) []
    (ds, { bsd with networkTypeDigests := some ds })

/-- The method `btpSectionDigest.NetworkSectionFilter`; `nidFilterBytes` is the constant of
that name. The field `filter` is assigned the new buffer before the loop, and the loop fills
that buffer in place: when a `Set` has no result the call ends without a value (`none`) and
the digest keeps the buffer as it is at that moment. -/
def btpSectionDigest.NetworkSectionFilter (nidFilterBytes : Nat) (bsd : btpSectionDigest) :
    Option BitSetFilter × btpSectionDigest :=
  match bsd.filter with
  | some f => (some f, bsd)
  | none =>
    match networkSectionFilterLoop bsd.bs (MakeBitSetFilter nidFilterBytes) with
    | (f, true) => (some f, { bsd with filter := some f })
    | (f, false) => (none, { bsd with filter := some f })

/-- The digests a BTP section built from `ntsSlice` can hold: the one `newBTPSection` sets
up, and the ones left by calls of the memoizing methods. -/
inductive DigestOf (codec : Codec) (sha3 : ByteString → ByteString) (nidFilterBytes : Nat)
    (ntsSlice : networkTypeSectionSlice) : btpSectionDigest → Prop where
  | fresh : DigestOf codec sha3 nidFilterBytes ntsSlice (newBTPSection ntsSlice).Digest
  | afterBytes {bsd : btpSectionDigest} :
      DigestOf codec sha3 nidFilterBytes ntsSlice bsd →
      DigestOf codec sha3 nidFilterBytes ntsSlice (bsd.Bytes codec).2
  | afterHash {bsd : btpSectionDigest} :
      DigestOf codec sha3 nidFilterBytes ntsSlice bsd →
      DigestOf codec sha3 nidFilterBytes ntsSlice (bsd.Hash codec sha3).2
  | afterNetworkTypeDigests {bsd : btpSectionDigest} :
      DigestOf codec sha3 nidFilterBytes ntsSlice bsd →
      DigestOf codec sha3 nidFilterBytes ntsSlice bsd.NetworkTypeDigests.2
  | afterNetworkSectionFilter {bsd : btpSectionDigest} :
      DigestOf codec sha3 nidFilterBytes ntsSlice bsd →
      DigestOf codec sha3 nidFilterBytes ntsSlice (bsd.NetworkSectionFilter nidFilterBytes).2

/-! ## Persistence -/

/-- Modelled from the spec: the bucket identifiers of package `db` are not part of the
sources at hand. The section writes to `db.BytesByHash`, `db.ListByMerkleRootFor(uid)` and
`db.BytesByHashFor(uid)`; the spec lays them out as `BytesByHash`, `ListByMerkleRoot_<UID>`
and `BytesByHash_<UID>`, "typed by UID so different cryptographic families live in separate
keyspaces". -/
inductive BucketID where
  | BytesByHash
  | ListByMerkleRootFor (uid : String)
  | BytesByHashFor (uid : String)
  deriving DecidableEq

/-- One `Set(key, value)` on a bucket. -/
structure Write where
  bucket : BucketID
  key : ByteString
  value : ByteString
  deriving DecidableEq

/-- The contents of a store: a map per bucket. -/
abbrev Store := BucketID → ByteString → Option ByteString

/-- Modelled from the spec: the interfaces `db.Database` and `db.Bucket` are not part of the
sources at hand; the core "only sees a bucket-addressable byte store". The store is a map
per bucket. `writes` records the `Set` calls that were carried out, oldest first. An
operation fails when the matching error field names an error for it. -/
structure Database where
  buckets : Store
  writes : List Write
  openError : BucketID → Option Error
  setError : BucketID → ByteString → ByteString → Option Error
  getError : BucketID → ByteString → Option Error

/-- A store in which every operation succeeds. -/
def mapDatabase (s : Store) (log : List Write) : Database :=
  { buckets := s
    writes := log
    openError := fun _ => none
    setError := fun _ _ _ => none
    getError := fun _ _ => none }

/-- The store after one write. -/
def Store.put (s : Store) (w : Write) : Store :=
  fun b k => if b = w.bucket ∧ k = w.key then some w.value else s b k

/-- The store after the writes, oldest first. -/
def Store.putAll (s : Store) (ws : List Write) : Store := ws.foldl Store.put s

/-- `dbase.GetBucket(id)`. -/
def Database.GetBucket (db : Database) (id : BucketID) : Except Error BucketID :=
  match db.openError id with
  | some err => .error err
  | none => .ok id

/-- `bk.Set(key, value)` on an open bucket: the database afterwards and the error. -/
def Database.Set (db : Database) (bk : BucketID) (key value : ByteString) :
    Database × Option Error :=
  match db.setError bk key value with
  | some err => (db, some err)
  | none =>
    ({ db with
        buckets := db.buckets.put { bucket := bk, key := key, value := value }
        writes := db.writes ++ [{ bucket := bk, key := key, value := value }] }, none)

/-- `bk.Get(key)` on an open bucket; a key that is not there gives no value and no error. -/
def Database.Get (db : Database) (bk : BucketID) (key : ByteString) :
    Except Error (Option ByteString) :=
  match db.getError bk key with
  | some err => .error err
  | none => .ok (db.buckets bk key)

/-- How a call ends: it returns an `error` (`none` for `nil`), or it calls a method of a
bucket that is `nil`, which aborts it. -/
inductive Outcome where
  | returned (err : Option Error)
  | nilBucket
  deriving DecidableEq

/-- The loop of `networkSection.flushMessages` over the messages, from index `i` on. The
bucket is the one the unchecked `GetBucket` gave: `none` when that call failed. -/
def flushMessageLoop (hc : hashesCat) (bk : Option BucketID) :
    Nat → List ByteString → Database → Database × Outcome
  | _, [], db => (db, .returned none)
  | i, msg :: rest, db =>
    match bk with
    | none => (db, .nilBucket)
    | some b =>
      match db.Set b (hc.Get i) msg with
      | (db1, some err) => (db1, .returned (some err))
      | (db1, none) => flushMessageLoop hc bk (i + 1) rest db1

/-- The method `networkSection.flushMessages`. -/
def networkSection.flushMessages (ns : networkSection) (db : Database) : Database × Outcome :=
  match db.GetBucket (.ListByMerkleRootFor ns.mod.UID) with
  | .error err => (db, .returned (some err))
  | .ok bk =>
    match db.Set bk ns.messagesRoot ns.messageHashes.Bytes with
    | (db1, some err) => (db1, .returned (some err))
    | (db1, none) =>
      flushMessageLoop ns.messageHashes (db1.GetBucket (.BytesByHashFor ns.mod.UID)).toOption
        0 ns.messages db1

/-- The loop of `networkTypeSection.flushMessages` over the network sections. -/
def flushNetworkSections : List networkSection → Database → Database × Outcome
  | [], db => (db, .returned none)
  | ns :: rest, db =>
    match ns.flushMessages db with
    | (db1, .returned none) => flushNetworkSections rest db1
    | (db1, out) => (db1, out)

/-- The method `networkTypeSection.flushMessages`. -/
def networkTypeSection.flushMessages (nts : networkTypeSection) (db : Database) :
    Database × Outcome :=
  flushNetworkSections nts.networkSections db

/-- The loop of `btpSectionDigest.Flush` over the network type sections. -/
def flushNetworkTypeSections : List networkTypeSection → Database → Database × Outcome
  | [], db => (db, .returned none)
  | nts :: rest, db =>
    match nts.flushMessages db with
    | (db1, .returned none) => flushNetworkTypeSections rest db1
    | (db1, out) => (db1, out)

/-- What `btpSectionDigest.Flush` leaves: the database, the digest and how the call ended. -/
structure FlushResult where
  db : Database
  digest : btpSectionDigest
  outcome : Outcome

/-- The method `btpSectionDigest.Flush`. -/
def btpSectionDigest.Flush (codec : Codec) (sha3 : ByteString → ByteString)
    (bsd : btpSectionDigest) (db : Database) : FlushResult :=
  match db.GetBucket .BytesByHash with
  | .error err => { db := db, digest := bsd, outcome := .returned (some err) }
  | .ok bk =>
    let h := bsd.Hash codec sha3
    let b := h.2.Bytes codec
    match db.Set bk h.1 b.1 with
    | (db1, some err) => { db := db1, digest := b.2, outcome := .returned (some err) }
    | (db1, none) =>
      let r := flushNetworkTypeSections b.2.bs db1
      { db := r.1, digest := b.2, outcome := r.2 }

/-- Modelled from the spec: `newMessageList(bs, dbase, mod)` is not part of the sources at
hand. The message list holds the hash list read by `messagesRoot` (no value when the key is
not in the bucket) and the module; each payload is read later by its hash. -/
structure messageList where
  messageHashes : Option ByteString
  mod : NetworkTypeModule

/-- The method `networkSection.MessageList`. -/
def networkSection.MessageList (ns : networkSection) (db : Database)
    (mod : NetworkTypeModule) : Except Error messageList :=
  match db.GetBucket (.ListByMerkleRootFor mod.UID) with
  | .error err => .error err
  | .ok bk =>
    match db.Get bk ns.messagesRoot with
    | .error err => .error err
    | .ok bs => .ok { messageHashes := bs, mod := ns.mod }

/-- The writes section 4.6 of the spec lists for one network section: the hash list under
the Merkle root, then each message under its hash. -/
def specWritesOfSection (ns : networkSection) : List Write :=
  { bucket := .ListByMerkleRootFor ns.mod.UID
    key := ns.messagesRoot
    value := ns.messageHashes.Bytes } ::
  (List.range ns.messages.length).zipWith
    (fun i msg =>
      { bucket := .BytesByHashFor ns.mod.UID
        key := ns.messageHashes.Get i
        value := msg }) ns.messages

/-- The writes section 4.6 of the spec lists for a BTP section whose digest has the given
hash and bytes: the digest first, then the network sections of each type section in order. -/
def specWrites (digestHash digestBytes : ByteString) (ntsSlice : networkTypeSectionSlice) :
    List Write :=
  { bucket := .BytesByHash, key := digestHash, value := digestBytes } ::
  (ntsSlice.map fun nts => (nts.networkSections.map specWritesOfSection).flatten).flatten

/-! ## The digest as the spec lists it -/

/-- The per-network digest of the spec: `[networkID, networkSectionHash, messagesRoot]`. -/
def specNetworkDigest (ns : networkSection) : Item :=
  .list [.int ns.NetworkID, .bytes ns.NetworkSectionHash, .bytes ns.MessagesRoot]

/-- The per-type list of the spec: `[networkTypeID, networkTypeSectionHash]` followed by the
per-network digests in stored order. -/
def specNetworkTypeDigest (nts : networkTypeSection) : Item :=
  .list (.int nts.NetworkTypeID :: .bytes nts.NetworkTypeSectionHash ::
    nts.networkSections.map specNetworkDigest)

/-- The digest of the spec: the outer list of the per-type lists in stored order. -/
def specDigest (ntsSlice : networkTypeSectionSlice) : Item :=
  .list (ntsSlice.map specNetworkTypeDigest)

/-- The stored values of a digest are the ones its methods compute: a field that is set
holds the value the method stores on its first call (for the filter, the buffer as the loop
leaves it). -/
def btpSectionDigest.Coherent (codec : Codec) (sha3 : ByteString → ByteString)
    (nidFilterBytes : Nat) (ntsSlice : networkTypeSectionSlice) (bsd : btpSectionDigest) :
    Prop :=
  bsd.bs = ntsSlice ∧
  (bsd.bytes = none ∨ bsd.bytes = some ((newBTPSection ntsSlice).Digest.encodeBytes codec)) ∧
  (bsd.hash = none ∨
    bsd.hash = some (sha3 ((newBTPSection ntsSlice).Digest.encodeBytes codec))) ∧
  (bsd.networkTypeDigests = none ∨ bsd.networkTypeDigests = some ntsSlice) ∧
  (bsd.filter = none ∨
    bsd.filter = some (networkSectionFilterLoop ntsSlice (MakeBitSetFilter nidFilterBytes)).1)

/-- The network section was built by `newNetworkSection` with a module whose hashes all
have the same non-zero width. -/
def builtWithUniformHashes (codec : Codec) (ns : networkSection) : Prop :=
  ∃ (nid : Int) (nw : Network) (ne : networkEntry) (mod : NetworkTypeModule) (w : Nat),
    0 < w ∧ (∀ m, (mod.Hash m).length = w) ∧ ns = newNetworkSection codec nid nw ne mod

/-- No two of the writes put different values under one key of one bucket. -/
def writesAgree (ws : List Write) : Prop :=
  ∀ w1 ∈ ws, ∀ w2 ∈ ws, w1.bucket = w2.bucket → w1.key = w2.key → w1.value = w2.value

instance (ws : List Write) : Decidable (writesAgree ws) := by
  unfold writesAgree; infer_instance

/-! ## Searching the slices, decisions, roots under another module -/

/-- The loop of `sort.Search(n, f)` of the Go library, a binary search over `[i, j)`; the
first argument bounds the number of rounds. -/
def sortSearchLoop (f : Nat → Bool) : Nat → Nat → Nat → Nat
  | 0, i, _ => i
  | rounds + 1, i, j =>
    if i < j then
      if f ((i + j) / 2) then sortSearchLoop f rounds i ((i + j) / 2)
      else sortSearchLoop f rounds ((i + j) / 2 + 1) j
    else i

/-- `sort.Search(n, f)`: the smallest index in `[0, n)` at which `f` holds, `n` if there is
none, for an `f` that stays true once it is true. `n` rounds are enough. -/
def sortSearch (n : Nat) (f : Nat → Bool) : Nat := sortSearchLoop f n 0 n

/-- Modelled from the spec: the `Search` methods of the slices are not part of the sources
at hand. "`NetworkTypeSectionFor(id)` is a binary search" over "the sorted sequence of type
sections", and "NotFound on read paths" is "returned as a nullable result": the binary
search for the first element whose key is at least `id`, which is the result if its key is
`id`; `none` is the `nil` interface. -/
def searchByKey {α : Type} (key : α → Int) (l : List α) (id : Int) : Option α :=
  match l.get? (sortSearch l.length fun k =>
      match l.get? k with
      | some y => decide (id ≤ key y)
      | none => true) with
  | some x => if key x = id then some x else none
  | none => none

/-- Modelled from the spec: the method `networkTypeSectionSlice.Search`, the binary search by
`networkTypeID`. -/
def networkTypeSectionSlice.Search (l : networkTypeSectionSlice) (ntid : Int) :
    Option networkTypeSection :=
  searchByKey networkTypeSection.NetworkTypeID l ntid

/-- Modelled from the spec: the method `networkSectionSlice.Search`, the binary search by
`networkID`. -/
def networkSectionSlice.Search (l : networkSectionSlice) (nid : Int) : Option networkSection :=
  searchByKey networkSection.NetworkID l nid

/-- The method `btpSection.NetworkTypeSectionFor`. -/
def btpSection.NetworkTypeSectionFor (bs : btpSection) (ntid : Int) :
    Option networkTypeSection :=
  networkTypeSectionSlice.Search bs.networkTypeSections ntid

/-- A run-time panic of Go. -/
inductive Panic where
  /-- The type assertion `x.(T)` on an interface value `x` that is `nil`. -/
  | nilInterfaceConversion
  deriving DecidableEq

/-- The method `btpSectionDigest.NetworkTypeDigestFor`: the result of `Search` goes through
the type assertion `.(*networkTypeSection)`, which panics on the `nil` interface. -/
def btpSectionDigest.NetworkTypeDigestFor (bsd : btpSectionDigest) (ntid : Int) :
    Except Panic (Option networkTypeSection) :=
  match networkTypeSectionSlice.Search bsd.bs ntid with
  | some nts => .ok (some nts)
  | none => .error .nilInterfaceConversion

/-- The method `networkTypeSection.NetworkDigestFor`: the type assertion is guarded by
`ns != nil`. -/
def networkTypeSection.NetworkDigestFor (nts : networkTypeSection) (nid : Int) :
    Except Panic (Option networkSection) :=
  match networkSectionSlice.Search nts.networkSections nid with
  | some ns => .ok (some ns)
  | none => .ok none

/-- The method `networkTypeSection.NetworkSectionFor`. -/
def networkTypeSection.NetworkSectionFor (nts : networkTypeSection) (nid : Int) :
    Option networkSection :=
  networkSectionSlice.Search nts.networkSections nid

/-- The method `networkTypeSection.NetworkSectionsRootWithMod`: the value returned and the
section afterwards. `nts.mod == mod` compares the two modules. -/
def networkTypeSection.NetworkSectionsRootWithMod [DecidableEq NetworkTypeModule]
    (nts : networkTypeSection) (mod : NetworkTypeModule) : ByteString × networkTypeSection :=
  if nts.mod = mod then (nts.networkSectionsRoot, nts)
  else (mod.MerkleRoot (networkSectionSlice.items nts.networkSections), nts)

/-- The constant `srcNetworkUID`. -/
def srcNetworkUID : String := "icon"

/-- The struct `networkTypeSectionDecision`; an unset (`nil`) `bytes` or `hash` is `none`. -/
structure networkTypeSectionDecision where
  SrcNetworkID : ByteString
  DstType : Int
  Height : Int
  Round : Int
  NetworkTypeSectionHash : ByteString
  mod : NetworkTypeModule
  bytes : Option ByteString
  hash : Option ByteString

/-- The codec sees a struct as the positional list of its exported fields. -/
def networkTypeSectionDecision.toItem (d : networkTypeSectionDecision) : Item :=
  .list [.bytes d.SrcNetworkID, .int d.DstType, .int d.Height, .int d.Round,
    .bytes d.NetworkTypeSectionHash]

/-- The method `networkTypeSectionDecision.Bytes`: the value returned and the decision
afterwards. -/
def networkTypeSectionDecision.Bytes (codec : Codec) (d : networkTypeSectionDecision) :
    ByteString × networkTypeSectionDecision :=
  match d.bytes with
  | some b => (b, d)
  | none => (codec.MarshalToBytes d.toItem, { d with bytes := some (codec.MarshalToBytes d.toItem) })

/-- The method `networkTypeSectionDecision.Hash`. -/
def networkTypeSectionDecision.Hash (codec : Codec) (d : networkTypeSectionDecision) :
    ByteString × networkTypeSectionDecision :=
  match d.hash with
  | some h => (h, d)
  | none =>
    let r := d.Bytes codec
    (d.mod.Hash r.1, { r.2 with hash := some (d.mod.Hash r.1) })

/-- The method `networkTypeSection.NewDecision`; `[]byte(srcNetworkUID)` is the UTF-8
encoding of the string. -/
def networkTypeSection.NewDecision (nts : networkTypeSection) (height : Int) (round : Int) :
    networkTypeSectionDecision :=
  { SrcNetworkID := srcNetworkUID.toUTF8.data.toList
    DstType := nts.networkTypeID
    Height := height
    Round := round
    NetworkTypeSectionHash := nts.hash
    mod := nts.mod
    bytes := none
    hash := none }

/-- `db2` is `db1` after the writes `ws`: they were logged and put into the store, and
nothing else changed. -/
def Database.After (db1 : Database) (ws : List Write) (db2 : Database) : Prop :=
  db2.writes = db1.writes ++ ws ∧ db2.buckets = db1.buckets.putAll ws ∧
    db2.openError = db1.openError ∧ db2.setError = db1.setError ∧ db2.getError = db1.getError

/-! ## The builder -/

/-- Modelled from the spec: the code that builds the sections of a block and calls the
constructors is not part of the sources at hand. "Network sections within a type, and type
sections within the root, are sorted by identifier ascending — this sort is the single
source of truth that makes hashes reproducible on any replica", and the input of the
type section construction is a "sorted NetworkSection sequence": the builder sorts the
network sections it is fed by network ID, ascending, and hands them to
`newNetworkTypeSection`. -/
def buildNetworkTypeSection (codec : Codec) (reg : Registry) (ntid : Int) (nt : NetworkType)
    (fed : List networkSection) : Except Failure networkTypeSection :=
  newNetworkTypeSection codec reg ntid nt
    (fed.insertionSort fun a b => a.NetworkID ≤ b.NetworkID)

/-- Modelled from the spec: the builder sorts the type sections it is fed by network type
ID, ascending ("type sections within the root are sorted by identifier ascending"), and
hands them to `newBTPSection`. -/
def buildBTPSection (fed : List networkTypeSection) : btpSection :=
  newBTPSection (fed.insertionSort fun a b => a.NetworkTypeID ≤ b.NetworkTypeID)

/-! ## Sample sections -/

/-- SHA3-256 stands outside the development; a sample stand-in for evaluation. -/
def sampleSHA3 : ByteString → ByteString := fun b => [0x53, UInt8.ofNat b.length]

def sampleSection3 : networkSection :=
  newNetworkSection sampleCodec 3 ⟨1, false, []⟩ ⟨[[0xAA]]⟩ sampleModule

def sampleSection7 : networkSection :=
  newNetworkSection sampleCodec 7 ⟨1, false, []⟩ ⟨[[0xAA]]⟩ sampleModule

def sampleSection9 : networkSection :=
  newNetworkSection sampleCodec 9 ⟨2, true, []⟩ ⟨[[1], [2]]⟩ sampleModule

/-- A section whose two messages have the same sample hash. -/
def collidingSection : networkSection :=
  newNetworkSection sampleCodec 7 ⟨2, false, []⟩ ⟨[[1, 2], [2, 1]]⟩ sampleModule

/-- A section without messages. -/
def emptySection : networkSection :=
  newNetworkSection sampleCodec 5 ⟨0, false, []⟩ ⟨[]⟩ sampleModule

/-- The type section the sample registry builds for the UID over the given network sections;
the empty section stands in if the constructor fails. -/
def sampleTypeSection (uid : String) (ntid : Int) (nsSlice : networkSectionSlice) :
    networkTypeSection :=
  match newNetworkTypeSection sampleCodec sampleRegistry ntid ⟨uid, [5]⟩ nsSlice with
  | .ok nts => nts
  | .error _ =>
    { networkTypeID := ntid
      nextProofContext := ⟨[], []⟩
      nextProofContextHash := []
      networkSections := []
      networkSectionsRoot := []
      networkDigests := none
      mod := sampleModule
      hash := [] }

/-- The empty store. -/
def emptyStore : Store := fun _ _ => none

/-- A section of the module whose hashes have the length of their input, with messages of
different lengths. -/
def unevenSection : networkSection :=
  newNetworkSection sampleCodec 7 ⟨2, false, []⟩ ⟨[[1], [2, 3]]⟩ identityModule

/-- A store in which opening the bucket `BytesByHashFor("icon")` fails and every other
operation succeeds. -/
def failingDatabase : Database :=
  { buckets := emptyStore
    writes := []
    openError := fun b => if b = .BytesByHashFor "icon" then some "open failed" else none
    setError := fun _ _ _ => none
    getError := fun _ _ => none }

end Btp

/-!
# Auto-call lock (`common/mutex.go`)

The locks are followed as one goroutine sees them. A callback, a Go `func()`, is the list of
the calls it makes on the lock it was scheduled on, under a label; a run records the calls
of the underlying locker and of the callbacks in order. `Unlock` calls callbacks that may
call `Unlock` again, so the functions that run callbacks take a bound on the depth of calls
and report when it is used up.
-/

namespace Common

/-- What a run around a lock records. -/
inductive Event where
  /-- `Lock()` of the underlying locker returned. -/
  | lock
  /-- `Unlock()` of the underlying locker returned. -/
  | unlock
  /-- The callback with the label was called; `held` tells whether the underlying locker
  was held at that moment. -/
  | call (label : Nat) (held : Bool)
  deriving DecidableEq

/-- How a run ends without returning. -/
inductive RunError where
  /-- `Lock()` of a locker that is held: the goroutine waits for itself. -/
  | deadlock
  /-- `Unlock()` of a locker that is not held: a fatal error of `sync.Mutex`. -/
  | unlockOfUnlocked
  /-- The bound on the depth of calls is used up. -/
  | outOfFuel
  deriving DecidableEq

/-- A `sync.Mutex` (a `sync.Locker`) as one goroutine sees it, with the record of the run,
oldest event first. -/
structure Locker where
  held : Bool
  events : List Event
  deriving DecidableEq

/-- `l.Lock()`. -/
def Locker.Lock (l : Locker) : Except RunError Locker :=
  if l.held then .error .deadlock
  else .ok { held := true, events := l.events ++ [.lock] }

/-- `l.Unlock()`. -/
def Locker.Unlock (l : Locker) : Except RunError Locker :=
  if l.held then .ok { held := false, events := l.events ++ [.unlock] }
  else .error .unlockOfUnlocked

/-- The record gets one more event. -/
def Locker.note (l : Locker) (e : Event) : Locker := { l with events := l.events ++ [e] }

/-- A call a callback makes on the lock it was scheduled on; a scheduled callback is given
by its label and the calls it makes. -/
inductive Op where
  | CallBeforeUnlock (label : Nat) (body : List Op)
  | CallAfterUnlock (label : Nat) (body : List Op)
  | Lock
  | Unlock

/-- A callback, a Go `func()`: its label and the calls it makes on the lock. -/
structure Callback where
  label : Nat
  body : List Op

/-- A callback that leaves the lock alone. -/
def plain (label : Nat) : Callback := { label := label, body := [] }

/-! ## Mutex -/

/-- The struct `Mutex`. -/
structure Mutex where
  mutex : Locker
  bcbs : List Callback
  acbs : List Callback

/-- The method `Mutex.Lock`. -/
def Mutex.Lock (m : Mutex) : Except RunError Mutex :=
  match m.mutex.Lock with
  | .ok l => .ok { m with mutex := l }
  | .error e => .error e

/-- The method `Mutex.CallBeforeUnlock`. -/
def Mutex.CallBeforeUnlock (m : Mutex) (f : Callback) : Mutex :=
  { m with bcbs := m.bcbs ++ [f] }

/-- The method `Mutex.CallAfterUnlock`. -/
def Mutex.CallAfterUnlock (m : Mutex) (f : Callback) : Mutex :=
  { m with acbs := m.acbs ++ [f] }

mutual

/-- The call `f()` of a callback scheduled on the mutex. -/
def Mutex.call : Nat → Callback → Mutex → Except RunError Mutex
  | 0, _, _ => .error .outOfFuel
  | fuel + 1, f, m =>
    f.body.foldlM (fun m1 op => Mutex.runOp fuel op m1)
      { m with mutex := m.mutex.note (.call f.label m.mutex.held) }

/-- One call a callback makes on the mutex. -/
def Mutex.runOp : Nat → Op → Mutex → Except RunError Mutex
  | 0, _, _ => .error .outOfFuel
  | _ + 1, .CallBeforeUnlock label body, m => .ok (m.CallBeforeUnlock ⟨label, body⟩)
  | _ + 1, .CallAfterUnlock label body, m => .ok (m.CallAfterUnlock ⟨label, body⟩)
  | _ + 1, .Lock, m => m.Lock
  | fuel + 1, .Unlock, m => Mutex.Unlock fuel m

/-- The loop `for i := 0; i < len(m.bcbs); i++ { m.bcbs[i]() }` of `Mutex.Unlock`, from
index `i` on. -/
def Mutex.runBefore : Nat → Nat → Mutex → Except RunError Mutex
  | 0, _, _ => .error .outOfFuel
  | fuel + 1, i, m =>
    match m.bcbs.get? i with
    | none => .ok m
    | some f =>
      match Mutex.call fuel f m with
      | .ok m1 => Mutex.runBefore fuel (i + 1) m1
      | .error e => .error e

/-- The method `Mutex.Unlock`. -/
def Mutex.Unlock : Nat → Mutex → Except RunError Mutex
  | 0, _ => .error .outOfFuel
  | fuel + 1, m =>
    match Mutex.runBefore fuel 0 m with
    | .error e => .error e
    | .ok m1 =>
      match m1.mutex.Unlock with
      | .error e => .error e
      | .ok l =>
        m1.acbs.foldlM (fun m2 cb => Mutex.call fuel cb m2)
          { mutex := l, bcbs := [], acbs := [] }

end

/-! ## AutoCallLocker -/

/-- The struct `AutoCallLocker`. -/
structure AutoCallLocker where
  locker : Locker
  bcbs : List Callback
  acbs : List Callback

/-- The method `AutoCallLocker.CallBeforeUnlock`. -/
def AutoCallLocker.CallBeforeUnlock (m : AutoCallLocker) (f : Callback) : AutoCallLocker :=
  { m with bcbs := m.bcbs ++ [f] }

/-- The method `AutoCallLocker.CallAfterUnlock`. -/
def AutoCallLocker.CallAfterUnlock (m : AutoCallLocker) (f : Callback) : AutoCallLocker :=
  { m with acbs := m.acbs ++ [f] }

/-- The function `LockForAutoCall`. -/
def LockForAutoCall (locker : Locker) : Except RunError AutoCallLocker :=
  match locker.Lock with
  | .ok l => .ok { locker := l, bcbs := [], acbs := [] }
  | .error e => .error e

mutual

/-- The call `f()` of a callback scheduled on the locker. -/
def AutoCallLocker.call : Nat → Callback → AutoCallLocker → Except RunError AutoCallLocker
  | 0, _, _ => .error .outOfFuel
  | fuel + 1, f, m =>
    f.body.foldlM (fun m1 op => AutoCallLocker.runOp fuel op m1)
      { m with locker := m.locker.note (.call f.label m.locker.held) }

/-- One call a callback makes on the locker; `Lock` is `Lock()` of the underlying locker. -/
def AutoCallLocker.runOp : Nat → Op → AutoCallLocker → Except RunError AutoCallLocker
  | 0, _, _ => .error .outOfFuel
  | _ + 1, .CallBeforeUnlock label body, m => .ok (m.CallBeforeUnlock ⟨label, body⟩)
  | _ + 1, .CallAfterUnlock label body, m => .ok (m.CallAfterUnlock ⟨label, body⟩)
  | _ + 1, .Lock, m =>
    match m.locker.Lock with
    | .ok l => .ok { m with locker := l }
    | .error e => .error e
  | fuel + 1, .Unlock, m => AutoCallLocker.Unlock fuel m

/-- The loop `for i := 0; i < len(m.bcbs); i++ { m.bcbs[i]() }` of `AutoCallLocker.Unlock`,
from index `i` on. -/
def AutoCallLocker.runBefore : Nat → Nat → AutoCallLocker → Except RunError AutoCallLocker
  | 0, _, _ => .error .outOfFuel
  | fuel + 1, i, m =>
    match m.bcbs.get? i with
    | none => .ok m
    | some f =>
      match AutoCallLocker.call fuel f m with
      | .ok m1 => AutoCallLocker.runBefore fuel (i + 1) m1
      | .error e => .error e

/-- The method `AutoCallLocker.Unlock`. -/
def AutoCallLocker.Unlock : Nat → AutoCallLocker → Except RunError AutoCallLocker
  | 0, _ => .error .outOfFuel
  | fuel + 1, m =>
    match AutoCallLocker.runBefore fuel 0 m with
    | .error e => .error e
    | .ok m1 =>
      match m1.locker.Unlock with
      | .error e => .error e
      | .ok l =>
        m1.acbs.foldlM (fun m2 cb => AutoCallLocker.call fuel cb m2)
          { locker := l, bcbs := [], acbs := [] }

end

/-! ## AutoLock -/

/-- The struct `AutoLock`. -/
structure AutoLock where
  locker : Locker
  locked : Bool
  deriving DecidableEq

/-- The function `NewAutoLock`. -/
def NewAutoLock (l : Locker) : Except RunError AutoLock :=
  match l.Lock with
  | .ok l1 => .ok { locker := l1, locked := true }
  | .error e => .error e

/-- The method `AutoLock.Unlock`. -/
def AutoLock.Unlock (l : AutoLock) : Except RunError AutoLock :=
  if l.locked then
    match l.locker.Unlock with
    | .ok l1 => .ok { locker := l1, locked := false }
    | .error e => .error e
  else .ok l

/-- The method `AutoLock.Lock`. -/
def AutoLock.Lock (l : AutoLock) : Except RunError AutoLock :=
  match l.locker.Lock with
  | .ok l1 => .ok { locker := l1, locked := true }
  | .error e => .error e

/-- A locker nobody holds, with an empty record. -/
def freeLocker : Locker := { held := false, events := [] }

/-! ## Schedules -/

/-- The zero value `Mutex{}` around a locker. -/
def Mutex.zero (l : Locker) : Mutex := { mutex := l, bcbs := [], acbs := [] }

/-- The calls made on a lock while it is held, in order: `(true, a)` is `CallBeforeUnlock`
and `(false, a)` is `CallAfterUnlock` of the callback with the label `a` that leaves the
lock alone. -/
abbrev Schedule := List (Bool × Nat)

/-- The labels given to `CallBeforeUnlock`, in the order of the calls. -/
def Schedule.befores (s : Schedule) : List Nat := (s.filter (fun p => p.1)).map Prod.snd

/-- The labels given to `CallAfterUnlock`, in the order of the calls. -/
def Schedule.afters (s : Schedule) : List Nat := (s.filter (fun p => !p.1)).map Prod.snd

/-- The calls of the schedule made on a mutex. -/
def Mutex.schedule (m : Mutex) (s : Schedule) : Mutex :=
  s.foldl (fun m1 p => if p.1 then m1.CallBeforeUnlock (plain p.2)
    else m1.CallAfterUnlock (plain p.2)) m

/-- The calls of the schedule made on an auto-call locker. -/
def AutoCallLocker.schedule (m : AutoCallLocker) (s : Schedule) : AutoCallLocker :=
  s.foldl (fun m1 p => if p.1 then m1.CallBeforeUnlock (plain p.2)
    else m1.CallAfterUnlock (plain p.2)) m

/-- The calls of the schedule as the body of a callback. -/
def Schedule.ops (s : Schedule) : List Op :=
  s.map (fun p => if p.1 then Op.CallBeforeUnlock p.2 [] else Op.CallAfterUnlock p.2 [])

/-- The record of the callbacks with the labels being called in order, the locker held or
not. -/
def calls (held : Bool) (labels : List Nat) : List Event :=
  labels.map (fun a => Event.call a held)

/-- The labels of the callbacks a record shows as called, in order. -/
def ranLabels (events : List Event) : List Nat :=
  events.filterMap (fun e => match e with
    | .call a _ => some a
    | _ => none)

/-- The record of a mutex gets more events. -/
def Mutex.noted (m : Mutex) (es : List Event) : Mutex :=
  { m with mutex := { m.mutex with events := m.mutex.events ++ es } }

/-- The record of an auto-call locker gets more events. -/
def AutoCallLocker.noted (m : AutoCallLocker) (es : List Event) : AutoCallLocker :=
  { m with locker := { m.locker with events := m.locker.events ++ es } }


/-- The method `AutoLock.Unlock` called `n` times, one call after the other. -/
def AutoLock.UnlockTimes : Nat → AutoLock → Except RunError AutoLock
  | 0, a => .ok a
  | n + 1, a =>
    match a.Unlock with
    | .ok a1 => AutoLock.UnlockTimes n a1
    | .error e => .error e

/-! ## Runs of calls from outside a callback -/

/-- The auto-call locker with the fields of the mutex. -/
def Mutex.toAutoCallLocker (m : Mutex) : AutoCallLocker :=
  { locker := m.mutex, bcbs := m.bcbs, acbs := m.acbs }

/-- The calls made on a mutex one after the other. -/
def Mutex.run (fuel : Nat) (m : Mutex) (ops : List Op) : Except RunError Mutex :=
  ops.foldlM (fun m1 op => Mutex.runOp fuel op m1) m

/-- The calls made on an auto-call locker one after the other. -/
def AutoCallLocker.run (fuel : Nat) (m : AutoCallLocker) (ops : List Op) :
    Except RunError AutoCallLocker :=
  ops.foldlM (fun m1 op => AutoCallLocker.runOp fuel op m1) m

/-- A call on an auto-lock. -/
inductive AutoLockCall where
  | Lock
  | Unlock
  deriving DecidableEq

/-- The calls made on an auto-lock one after the other. -/
def AutoLock.run (a : AutoLock) (cs : List AutoLockCall) : Except RunError AutoLock :=
  cs.foldlM (fun a1 c => match c with
    | .Lock => a1.Lock
    | .Unlock => a1.Unlock) a

/-- Whether every `Lock` of the calls comes while the auto-lock is not locked, `locked`
telling whether it is locked before the first call. -/
def lockOnlyWhenFree : Bool → List AutoLockCall → Bool
  | _, [] => true
  | locked, .Lock :: rest => !locked && lockOnlyWhenFree true rest
  | _, .Unlock :: rest => lockOnlyWhenFree false rest

end Common

/-!
# Stage state (`icon/iiss/icstage/state.go`)

`State` keeps the indices of the validators in a map and writes objects to a trie. Of the
packages `trie`, `containerdb`, `icobject` and `math/big` the state uses a few operations
only; they are not part of the sources at hand and are taken as plain data: the trie as a
map from keys to objects with a record of its writes, in which a write can fail; a key as
the key family and the number appended to it; the vote mask, a `big.Int` that starts at
zero and only ever gets bits set, as a natural number.
-/

namespace Icstage

/-- The type `error`, by its message. -/
abbrev Error := String

/-- The type `common.Address`, by its bytes; the state only compares addresses. The
arguments of type `module.Address` are taken to hold a `*common.Address`, as the type
assertions of the state expect. -/
structure Address where
  bytes : List UInt8
  deriving DecidableEq

/-- The keys the state builds for block produces and validators:
`BlockProduceKey.Append(offset).Build()` and `ValidatorKey.Append(offset).Build()`. -/
inductive Key where
  | BlockProduce (offset : Int)
  | Validator (offset : Int)
  deriving DecidableEq

/-- The fields of the object `BlockProduce` that `AddBlockProduce` sets. -/
structure BlockProduce where
  ProposerIndex : Int
  VoteCount : Int
  VoteMask : Nat
  deriving DecidableEq

/-- The objects written: `icobject.New(TypeBlockProduce, obj)` and
`icobject.New(TypeValidator, obj)`, the latter with its field `Address`. -/
inductive Object where
  | BlockProduce (obj : Icstage.BlockProduce)
  | Validator (address : Address)
  deriving DecidableEq

/-- The trie of the state, a `trie.MutableForObject`, of which the state calls `Set`: the
object at each key, the `Set` calls carried out, oldest first, and the calls that fail. -/
structure Trie where
  entries : Key → Option Object
  writes : List (Key × Object)
  setError : Key → Object → Option Error

/-- `trie.Set(key, obj)`: the trie afterwards and the error. -/
def Trie.Set (t : Trie) (key : Key) (obj : Object) : Trie × Option Error :=
  match t.setError key obj with
  | some err => (t, some err)
  | none =>
    ({ t with
        entries := fun k => if k = key then some obj else t.entries k
        writes := t.writes ++ [(key, obj)] }, none)

/-- A Go `map[common.Address]int` by its entries, in the order the keys were first
assigned. -/
abbrev AddressMap := List (Address × Int)

/-- The lookup `idx, ok := m[a]`: `none` when `ok` is false. -/
def AddressMap.get? : AddressMap → Address → Option Int
  | [], _ => none
  | (k, v) :: rest, a => if k = a then some v else AddressMap.get? rest a

/-- The assignment `m[a] = idx`. -/
def AddressMap.set : AddressMap → Address → Int → AddressMap
  | [], a, idx => [(a, idx)]
  | (k, v) :: rest, a, idx =>
    if k = a then (k, idx) :: rest else (k, v) :: AddressMap.set rest a idx

/-- The length `len(m)`. -/
def AddressMap.len (m : AddressMap) : Int := (m.length : Int)

/-- `x.SetBit(x, i, 1)` of `math/big` on a number that is not negative; a negative index
panics (`none`). -/
def SetBit (x : Nat) (i : Int) : Option Nat :=
  if i < 0 then none else some (x ||| 1 <<< i.toNat)

/-- The struct `State`. -/
structure State where
  validators : AddressMap
  trie : Trie

/-- How a call ends: it returns an `error` (`none` for `nil`), or it panics. -/
inductive Outcome where
  | returned (err : Option Error)
  | panic
  deriving DecidableEq

/-- The method `State.addValidator`: the state afterwards and the error. -/
def State.addValidator (s : State) (offset : Int) (validator : Address) :
    State × Option Error :=
  match s.trie.Set (.Validator offset) (.Validator validator) with
  | (t, err) => ({ s with trie := t }, err)

/-- The lines `AddBlockProduce` has for the proposer and again for each voter: the index the
map has for the address, and for an address that is not in the map the length of the map,
which is put into the map and added as a validator. The state afterwards, and the index or
the error of `addValidator`. -/
def State.indexFor (s : State) (a : Address) : State × Except Error Int :=
  match s.validators.get? a with
  | some idx => (s, .ok idx)
  | none =>
    match State.addValidator { s with validators := s.validators.set a s.validators.len }
      s.validators.len a with
    | (s1, some err) => (s1, .error err)
    | (s1, none) => (s1, .ok s.validators.len)

/-- The loop of `AddBlockProduce` over the voters: the state afterwards, and the vote mask
or how the call ends inside the loop. -/
def State.voteLoop : List Address → State → Nat → State × Except Outcome Nat
  | [], s, voteMask => (s, .ok voteMask)
  | v :: rest, s, voteMask =>
    match s.indexFor v with
    | (s1, .error err) => (s1, .error (.returned (some err)))
    | (s1, .ok idx) =>
      match SetBit voteMask idx with
      | none => (s1, .error .panic)
      | some voteMask1 => State.voteLoop rest s1 voteMask1

/-- The method `State.AddBlockProduce`: the state afterwards and how the call ends. -/
def State.AddBlockProduce (s : State) (offset : Int) (proposer : Address)
    (voters : List Address) : State × Outcome :=
  match s.indexFor proposer with
  | (s1, .error err) => (s1, .returned (some err))
  | (s1, .ok proposerIndex) =>
    match State.voteLoop voters s1 0 with
    | (s2, .error out) => (s2, out)
    | (s2, .ok voteMask) =>
      match s2.trie.Set (.BlockProduce offset)
        (.BlockProduce
          { ProposerIndex := proposerIndex
            VoteCount := (voters.length : Int)
            VoteMask := voteMask }) with
      | (t, err) => ({ s2 with trie := t }, .returned err)

/-- The function `NewState`, given the trie it sets up. -/
def NewState (trie : Trie) : State := { validators := [], trie := trie }

/-- The arguments of one call of `AddBlockProduce`. -/
structure BlockVotes where
  offset : Int
  proposer : Address
  voters : List Address

/-- Calls of `AddBlockProduce` one after the other, up to the first that does not return
`nil`. -/
def State.addAll : State → List BlockVotes → State × Outcome
  | s, [] => (s, .returned none)
  | s, c :: rest =>
    match s.AddBlockProduce c.offset c.proposer c.voters with
    | (s1, .returned none) => State.addAll s1 rest
    | (s1, out) => (s1, out)

/-- The addresses of the calls in the order `AddBlockProduce` meets them: of each call the
proposer, then the voters. -/
def appearances (calls : List BlockVotes) : List Address :=
  calls.flatMap fun c => c.proposer :: c.voters

/-- The addresses of a list without repetition, each at the place of its first
appearance, after the ones in `seen`. -/
def firstAppearances (seen : List Address) (l : List Address) : List Address :=
  l.foldl (fun acc a => if a ∈ acc then acc else acc ++ [a]) seen

/-- The map that gives the addresses of a list the numbers from `n` on, in order. -/
def indexedFrom : Nat → List Address → AddressMap
  | _, [] => []
  | n, a :: rest => (a, (n : Int)) :: indexedFrom (n + 1) rest

/-- A trie with nothing in it in which every write succeeds. -/
def emptyTrie : Trie := { entries := fun _ => none, writes := [], setError := fun _ _ => none }

/-- Two calls: a proposer with three votes of two voters, then a new proposer with one
vote. -/
def sampleCalls : List BlockVotes :=
  [{ offset := 10, proposer := ⟨[1]⟩, voters := [⟨[2]⟩, ⟨[1]⟩, ⟨[2]⟩] },
   { offset := 11, proposer := ⟨[3]⟩, voters := [⟨[2]⟩] }]

end Icstage

namespace Btp

/-! ## 64-bit arithmetic lemmas -/

theorem toUint64_eq (x : Int) : ((toUint64 x : Nat) : Int) = x % 2 ^ 64 := by
  unfold toUint64
  omega

theorem toUint64_lt (x : Int) : toUint64 x < 2 ^ 64 := by
  unfold toUint64
  omega

theorem ofUint64_eq (n : Nat) : ofUint64 n = ((n : Int) + 2 ^ 63) % 2 ^ 64 - 2 ^ 63 := by
  unfold ofUint64
  split <;> omega

theorem wrapInt64_eq (x : Int) : wrapInt64 x = (x + 2 ^ 63) % 2 ^ 64 - 2 ^ 63 := by
  unfold wrapInt64
  rw [ofUint64_eq, toUint64_eq]
  omega

theorem wrapInt64_of_isInt64 {x : Int} (h : isInt64 x) : wrapInt64 x = x := by
  rw [wrapInt64_eq]
  unfold isInt64 at h
  omega

theorem isInt64_wrapInt64 (x : Int) : isInt64 (wrapInt64 x) := by
  rw [wrapInt64_eq]
  unfold isInt64
  omega

theorem int64Shl_one (a : Int) : int64Shl a 1 = wrapInt64 (2 * a) := by
  unfold int64Shl
  rw [wrapInt64_eq, ofUint64_eq, Nat.shiftLeft_eq]
  have h := toUint64_eq a
  push_cast
  omega

theorem int64Or_one_of_even {x : Int} (hx : isInt64 x) (he : x % 2 = 0) :
    int64Or x 1 = x + 1 := by
  unfold int64Or
  have h1 : toUint64 1 = 1 := by decide
  have h := toUint64_eq x
  have hlt := toUint64_lt x
  have hk : toUint64 x = 2 ^ 1 * (toUint64 x / 2) := by omega
  rw [h1, hk, ← Nat.mul_add_lt_is_or (by decide) (toUint64 x / 2), ofUint64_eq]
  unfold isInt64 at hx
  push_cast
  omega

theorem int64Or_zero {x : Int} (hx : isInt64 x) : int64Or x 0 = x := by
  unfold int64Or
  have h0 : toUint64 0 = 0 := by decide
  rw [h0, Nat.or_zero]
  exact wrapInt64_of_isInt64 hx

theorem int64And_one (x : Int) : int64And x 1 = x % 2 := by
  unfold int64And
  have h1 : toUint64 1 = 1 := by decide
  have h := toUint64_eq x
  rw [h1, Nat.and_one_is_mod, ofUint64_eq]
  push_cast
  omega

theorem int64Shr_one (x : Int) : int64Shr x 1 = x / 2 := by
  unfold int64Shr
  rw [Int.shiftRight_eq_div_pow]
  norm_num


/-! ## hashesCat lemmas -/

theorem appendAll_Bytes (mod : NetworkTypeModule) (msgs : List ByteString) (c : hashesCat)
    (w : Nat) (hw : ∀ m, (mod.Hash m).length = w)
    (hc : c.hashLen = none ∨ c.hashLen = some w) :
    (appendAll mod c msgs).Bytes = c.Bytes ++ (msgs.map mod.Hash).flatten := by
  induction msgs generalizing c with
  | nil => simp [appendAll]
  | cons m ms ih =>
    have hA : (c.Append (mod.Hash m)).Bytes = c.Bytes ++ mod.Hash m ∧
        (c.Append (mod.Hash m)).hashLen = some w := by
      rcases hc with hc | hc
      · simp [hashesCat.Append, hc, hw m]
      · simp [hashesCat.Append, hc, hw m]
    have h := ih (c.Append (mod.Hash m)) (Or.inr hA.2)
    simp only [appendAll, List.foldl_cons] at h ⊢
    rw [h, hA.1]
    simp

theorem appendAll_hashLen_some (mod : NetworkTypeModule) (msgs : List ByteString) (c : hashesCat)
    (w : Nat) (hc : c.hashLen = some w) : (appendAll mod c msgs).hashLen = some w := by
  induction msgs generalizing c with
  | nil => simpa [appendAll] using hc
  | cons m ms ih =>
    have h := ih (c.Append (mod.Hash m)) (by
      simp only [hashesCat.Append, hc]
      split <;> simp [hc])
    simpa [appendAll] using h

theorem appendAll_hashLen_fresh (mod : NetworkTypeModule) (m : ByteString)
    (ms : List ByteString) (n : Nat) :
    (appendAll mod (makeHashesCat n) (m :: ms)).hashLen = some (mod.Hash m).length := by
  have h := appendAll_hashLen_some mod ms ((makeHashesCat n).Append (mod.Hash m))
    (mod.Hash m).length (by simp [hashesCat.Append, makeHashesCat])
  simpa [appendAll] using h

theorem flatten_length_uniform (hs : List ByteString) (w : Nat)
    (hw : ∀ h ∈ hs, h.length = w) : hs.flatten.length = hs.length * w := by
  induction hs with
  | nil => simp
  | cons h t ih =>
    have ht := ih (fun x hx => hw x (List.mem_cons_of_mem _ hx))
    have hh := hw h (List.mem_cons_self _ _)
    simp only [List.flatten_cons, List.length_append, List.length_cons, ht, hh]
    ring

theorem slice_uniform (hs : List ByteString) (w : Nat) (hw : ∀ h ∈ hs, h.length = w)
    (i : Nat) (hi : i < hs.length) :
    (hs.flatten.drop (i * w)).take w = hs[i] := by
  induction hs generalizing i with
  | nil => simp at hi
  | cons h t ih =>
    have hh := hw h (List.mem_cons_self _ _)
    cases i with
    | zero =>
      simp only [Nat.zero_mul, List.drop_zero, List.flatten_cons, List.getElem_cons_zero]
      rw [List.take_append_of_le_length (by omega)]
      exact List.take_of_length_le (by omega)
    | succ j =>
      have hj : j < t.length := by simpa using hi
      have e : (j + 1) * w = h.length + j * w := by rw [hh]; ring
      simp only [List.flatten_cons, List.getElem_cons_succ]
      rw [e, ← List.drop_drop, List.drop_left]
      exact ih (fun x hx => hw x (List.mem_cons_of_mem _ hx)) j hj

theorem items_uniform (hs : List ByteString) (w : Nat) (hpos : 0 < w)
    (hw : ∀ h ∈ hs, h.length = w) (c : hashesCat) (hB : c.Bytes = hs.flatten)
    (hL : c.hashLen = some w) : c.Len = hs.length ∧ c.items = hs := by
  have hlen : c.Len = hs.length := by
    simp only [hashesCat.Len, hL, hB, flatten_length_uniform hs w hw]
    exact Nat.mul_div_cancel _ hpos
  refine ⟨hlen, ?_⟩
  unfold hashesCat.items bytesListItems
  rw [hlen]
  apply List.ext_getElem
  · simp
  · intro i h1 h2
    simp only [List.getElem_map, List.getElem_range, hashesCat.Get, hL, hB]
    exact slice_uniform hs w hw i h2

/-- With hashes of one non-zero width, the store built from the messages holds exactly the
message hashes, in order. -/
theorem appendAll_uniform (mod : NetworkTypeModule) (msgs : List ByteString) (w n : Nat)
    (hpos : 0 < w) (hw : ∀ m, (mod.Hash m).length = w) :
    (appendAll mod (makeHashesCat n) msgs).Len = msgs.length ∧
      (appendAll mod (makeHashesCat n) msgs).items = msgs.map mod.Hash := by
  cases msgs with
  | nil => simp [appendAll, makeHashesCat, hashesCat.Len, hashesCat.items, bytesListItems]
  | cons m ms =>
    have hB := appendAll_Bytes mod (m :: ms) (makeHashesCat n) w hw (Or.inl rfl)
    have hL := appendAll_hashLen_fresh mod m ms n
    rw [hw m] at hL
    have hB2 : (appendAll mod (makeHashesCat n) (m :: ms)).Bytes
        = ((m :: ms).map mod.Hash).flatten := by
      rw [hB]; simp [makeHashesCat]
    have h := items_uniform ((m :: ms).map mod.Hash) w hpos
      (by intro h hh; obtain ⟨x, _, rfl⟩ := List.mem_map.mp hh; exact hw x) _ hB2 hL
    simpa using h

/-! ## Shared facts about `newNetworkSection` -/

theorem updateNumber_closed_form (codec : Codec) (nid : Int) (nw : Network) (ne : networkEntry)
    (mod : NetworkTypeModule) :
    (newNetworkSection codec nid nw ne mod).updateNumber =
      wrapInt64 (2 * (nw.NextMessageSN - (ne.messages.length : Int))) +
        (if nw.NextProofContextChanged then 1 else 0) := by
  have hs : int64Shl (int64Sub nw.NextMessageSN (int64OfLen ne.messages.length)) 1 =
      wrapInt64 (2 * (nw.NextMessageSN - (ne.messages.length : Int))) := by
    rw [int64Shl_one]
    unfold int64Sub int64OfLen
    rw [wrapInt64_eq, wrapInt64_eq, wrapInt64_eq]
    omega
  have hr := isInt64_wrapInt64 (2 * (nw.NextMessageSN - (ne.messages.length : Int)))
  have he : wrapInt64 (2 * (nw.NextMessageSN - (ne.messages.length : Int))) % 2 = 0 := by
    rw [wrapInt64_eq]; omega
  show (if nw.NextProofContextChanged then
      int64Or (int64Shl (int64Sub nw.NextMessageSN (int64OfLen ne.messages.length)) 1) 1
    else int64Shl (int64Sub nw.NextMessageSN (int64OfLen ne.messages.length)) 1) = _
  rw [hs]
  cases nw.NextProofContextChanged with
  | false => simp
  | true => simpa using int64Or_one_of_even hr he

theorem firstMessageSN_of_small (codec : Codec) (nid : Int) (nw : Network) (ne : networkEntry)
    (mod : NetworkTypeModule)
    (hlo : -(2 : Int) ^ 62 ≤ nw.NextMessageSN - (ne.messages.length : Int))
    (hhi : nw.NextMessageSN - (ne.messages.length : Int) < 2 ^ 62) :
    (newNetworkSection codec nid nw ne mod).FirstMessageSN =
      nw.NextMessageSN - (ne.messages.length : Int) := by
  unfold networkSection.FirstMessageSN
  rw [int64Shr_one, updateNumber_closed_form, wrapInt64_eq]
  split <;> omega

theorem networkSectionSlice_items (s : networkSectionSlice) :
    networkSectionSlice.items s = s.map networkSection.Hash := by
  unfold networkSectionSlice.items bytesListItems networkSectionSlice.Len
  apply List.ext_getElem
  · simp
  · intro i h1 h2
    have hi : i < s.length := by simpa using h2
    simp [networkSectionSlice.Get, List.getElem?_eq_getElem hi]

theorem sampleModule_hash_length (m : ByteString) : (sampleModule.Hash m).length = 2 := rfl

/-! ## Network section: update number, accessors, hash -/

/-- C1: for every network, entry and module, `UpdateNumber()` of the section built by
`newNetworkSection` is `((NextMessageSN - len(messages)) << 1) | b` in 64-bit signed
arithmetic, with `b = 1` when `NextProofContextChanged` and `b = 0` otherwise; this is the
integer `2 * (NextMessageSN - len(messages)) + b` wrapped to 64 bits, and one message with
`NextMessageSN = 1` gives `0` without the flag and `1` with it. -/
theorem newNetworkSection_updateNumber (codec : Codec) (nid : Int) (nw : Network)
    (ne : networkEntry) (mod : NetworkTypeModule) :
    (newNetworkSection codec nid nw ne mod).UpdateNumber =
        int64Or (int64Shl (int64Sub nw.NextMessageSN (int64OfLen ne.messages.length)) 1)
          (if nw.NextProofContextChanged then 1 else 0) ∧
      (newNetworkSection codec nid nw ne mod).UpdateNumber =
        wrapInt64 (2 * (nw.NextMessageSN - (ne.messages.length : Int)) +
          (if nw.NextProofContextChanged then 1 else 0)) ∧
      (ne.messages.length = 1 → nw.NextMessageSN = 1 →
        (newNetworkSection codec nid nw ne mod).UpdateNumber =
          (if nw.NextProofContextChanged then 1 else 0)) := by
  have hcf := updateNumber_closed_form codec nid nw ne mod
  have hr := isInt64_wrapInt64 (2 * (nw.NextMessageSN - (ne.messages.length : Int)))
  have he : wrapInt64 (2 * (nw.NextMessageSN - (ne.messages.length : Int))) % 2 = 0 := by
    rw [wrapInt64_eq]; omega
  have hs : int64Shl (int64Sub nw.NextMessageSN (int64OfLen ne.messages.length)) 1 =
      wrapInt64 (2 * (nw.NextMessageSN - (ne.messages.length : Int))) := by
    rw [int64Shl_one]
    unfold int64Sub int64OfLen
    rw [wrapInt64_eq, wrapInt64_eq, wrapInt64_eq]
    omega
  unfold networkSection.UpdateNumber
  refine ⟨?_, ?_, ?_⟩
  · rw [hcf, hs]
    cases nw.NextProofContextChanged with
    | false => simpa using (int64Or_zero hr).symm
    | true => simpa using (int64Or_one_of_even hr he).symm
  · rw [hcf]
    have e := wrapInt64_eq (2 * (nw.NextMessageSN - (ne.messages.length : Int)))
    unfold isInt64 at hr
    cases nw.NextProofContextChanged with
    | false => simp
    | true =>
      simp only [if_true]
      rw [wrapInt64_eq] at he hr ⊢
      rw [wrapInt64_eq]
      omega
  · intro h1 hsn
    rw [hcf, h1, hsn]
    have z : wrapInt64 (2 * ((1 : Int) - ((1 : Nat) : Int))) = 0 := by decide
    rw [z]
    simp

/-- Evaluation of C1 on the single message `0xAA` with `NextMessageSN = 1`. -/
theorem newNetworkSection_updateNumber_witness :
    (newNetworkSection sampleCodec 7 ⟨1, false, []⟩ ⟨[[0xAA]]⟩ sampleModule).UpdateNumber = 0 ∧
      (newNetworkSection sampleCodec 7 ⟨1, true, []⟩ ⟨[[0xAA]]⟩ sampleModule).UpdateNumber = 1 :=
  ⟨(newNetworkSection_updateNumber sampleCodec 7 ⟨1, false, []⟩ ⟨[[0xAA]]⟩ sampleModule).2.2
      rfl rfl,
    (newNetworkSection_updateNumber sampleCodec 7 ⟨1, true, []⟩ ⟨[[0xAA]]⟩ sampleModule).2.2
      rfl rfl⟩

/-- C2 fails as stated: with `NextMessageSN = 2^62` and no message, a valid input, the shift
overflows and `FirstMessageSN()` is `-2^62`, not `2^62`. -/
theorem firstMessageSN_counterexample :
    isInt64 (2 ^ 62) ∧ ((([] : List ByteString).length : Int) ≤ 2 ^ 62) ∧
      (newNetworkSection sampleCodec 7 ⟨2 ^ 62, false, []⟩ ⟨[]⟩ sampleModule).FirstMessageSN =
        -(2 ^ 62) ∧
      (newNetworkSection sampleCodec 7 ⟨2 ^ 62, false, []⟩ ⟨[]⟩ sampleModule).FirstMessageSN ≠
        2 ^ 62 - ((([] : List ByteString).length : Nat) : Int) := by
  decide

/-- C2 (amended): for every input with `NextMessageSN >= len(messages)` and
`NextMessageSN - len(messages) < 2^62`, `FirstMessageSN()` of the section built by
`newNetworkSection` equals `NextMessageSN - len(messages)`. -/
theorem newNetworkSection_firstMessageSN (codec : Codec) (nid : Int) (nw : Network)
    (ne : networkEntry) (mod : NetworkTypeModule)
    (hvalid : (ne.messages.length : Int) ≤ nw.NextMessageSN)
    (hfit : nw.NextMessageSN - (ne.messages.length : Int) < 2 ^ 62) :
    (newNetworkSection codec nid nw ne mod).FirstMessageSN =
      nw.NextMessageSN - (ne.messages.length : Int) :=
  firstMessageSN_of_small codec nid nw ne mod (by omega) hfit

/-- Evaluation of C2 (amended): three messages ending at sequence number 10 start at 7. -/
theorem newNetworkSection_firstMessageSN_witness :
    (newNetworkSection sampleCodec 7 ⟨10, true, []⟩ ⟨[[1], [2], [3]]⟩ sampleModule).FirstMessageSN
      = 10 - ((([[1], [2], [3]] : List ByteString).length : Nat) : Int) :=
  newNetworkSection_firstMessageSN sampleCodec 7 ⟨10, true, []⟩ ⟨[[1], [2], [3]]⟩ sampleModule
    (by decide) (by decide)

/-- C3: for every input, `NextProofContextChanged()` of the section built by
`newNetworkSection` is `UpdateNumber() & 1 != 0` and is the `NextProofContextChanged` flag
of the input network. -/
theorem newNetworkSection_nextProofContextChanged (codec : Codec) (nid : Int) (nw : Network)
    (ne : networkEntry) (mod : NetworkTypeModule) :
    (newNetworkSection codec nid nw ne mod).NextProofContextChanged =
        (int64And (newNetworkSection codec nid nw ne mod).UpdateNumber 1 != 0) ∧
      (newNetworkSection codec nid nw ne mod).NextProofContextChanged =
        nw.NextProofContextChanged := by
  refine ⟨rfl, ?_⟩
  unfold networkSection.NextProofContextChanged
  rw [int64And_one, updateNumber_closed_form, wrapInt64_eq]
  cases nw.NextProofContextChanged with
  | false =>
    have h : ((2 * (nw.NextMessageSN - (ne.messages.length : Int)) + 2 ^ 63) % 2 ^ 64 - 2 ^ 63 +
        (if false = true then 1 else 0)) % 2 = 0 := by
      simp only [Bool.false_eq_true, if_false]; omega
    rw [h]; rfl
  | true =>
    have h : ((2 * (nw.NextMessageSN - (ne.messages.length : Int)) + 2 ^ 63) % 2 ^ 64 - 2 ^ 63 +
        (if true = true then 1 else 0)) % 2 = 1 := by
      simp only [if_true]; omega
    rw [h]; rfl

/-- C4: the hash of every network section built by `newNetworkSection` is the module hash of
the encoding of the ordered tuple `[networkID, updateNumber, prevHash, messageCount,
messagesRoot]`, where `prevHash` is `LastNetworkSectionHash` of the input network and
`messageCount` is the number of stored message hashes. -/
theorem newNetworkSection_hash (codec : Codec) (nid : Int) (nw : Network) (ne : networkEntry)
    (mod : NetworkTypeModule) :
    (newNetworkSection codec nid nw ne mod).Hash =
        mod.Hash (codec.MarshalToBytes (.list [
          .int (newNetworkSection codec nid nw ne mod).NetworkID,
          .int (newNetworkSection codec nid nw ne mod).UpdateNumber,
          .bytes (newNetworkSection codec nid nw ne mod).PrevHash,
          .int (newNetworkSection codec nid nw ne mod).MessageCount,
          .bytes (newNetworkSection codec nid nw ne mod).MessagesRoot])) ∧
      (newNetworkSection codec nid nw ne mod).NetworkID = nid ∧
      (newNetworkSection codec nid nw ne mod).PrevHash = nw.LastNetworkSectionHash ∧
      (newNetworkSection codec nid nw ne mod).MessageCount =
        ((newNetworkSection codec nid nw ne mod).messageHashes.Len : Int) :=
  ⟨rfl, rfl, rfl, rfl⟩

/-! ## Network section: message hashes -/

/-- C5: for every message list and every module, `MessagesRoot()` of the section built by
`newNetworkSection` is the module `MerkleRoot` of `[Hash(m_0), ..., Hash(m_{n-1})]` in
message order. A module is one whose hashes all have the same width, not zero: `MerkleRoot`
takes a "sequence of fixed-width hashes", and within one section "all hashes have equal
length, determined by the type module". -/
theorem newNetworkSection_messagesRoot (codec : Codec) (nid : Int) (nw : Network)
    (ne : networkEntry) (mod : NetworkTypeModule) (w : Nat) (hpos : 0 < w)
    (hwidth : ∀ m, (mod.Hash m).length = w) :
    (newNetworkSection codec nid nw ne mod).MessagesRoot =
      mod.MerkleRoot (ne.messages.map mod.Hash) := by
  have h := (appendAll_uniform mod ne.messages w ne.messages.length hpos hwidth).2
  show mod.MerkleRoot (appendAll mod (makeHashesCat ne.messages.length) ne.messages).items = _
  rw [h]

/-- Evaluation of C5: the single message `0xAA` of scenario S2. -/
theorem newNetworkSection_messagesRoot_witness :
    (newNetworkSection sampleCodec 7 ⟨1, false, []⟩ ⟨[[0xAA]]⟩ sampleModule).MessagesRoot =
      sampleModule.MerkleRoot [sampleModule.Hash [0xAA]] :=
  newNetworkSection_messagesRoot sampleCodec 7 ⟨1, false, []⟩ ⟨[[0xAA]]⟩ sampleModule 2
    (by decide) sampleModule_hash_length

/-- C6: for every network section built by `newNetworkSection` with a module whose hashes
all have the same non-zero width, `MessageCount()` equals `len(messages)` and equals the
number of hashes held in `messageHashes`, which are the message hashes in order. -/
theorem newNetworkSection_messageCount (codec : Codec) (nid : Int) (nw : Network)
    (ne : networkEntry) (mod : NetworkTypeModule) (w : Nat) (hpos : 0 < w)
    (hwidth : ∀ m, (mod.Hash m).length = w) :
    (newNetworkSection codec nid nw ne mod).MessageCount = (ne.messages.length : Int) ∧
      (newNetworkSection codec nid nw ne mod).MessageCount =
        ((newNetworkSection codec nid nw ne mod).messages.length : Int) ∧
      (newNetworkSection codec nid nw ne mod).messageHashes.Len = ne.messages.length ∧
      (newNetworkSection codec nid nw ne mod).messageHashes.items.length = ne.messages.length ∧
      (newNetworkSection codec nid nw ne mod).messageHashes.items = ne.messages.map mod.Hash := by
  have h := appendAll_uniform mod ne.messages w ne.messages.length hpos hwidth
  have hLen : (newNetworkSection codec nid nw ne mod).messageHashes.Len = ne.messages.length :=
    h.1
  have hItems : (newNetworkSection codec nid nw ne mod).messageHashes.items =
      ne.messages.map mod.Hash := h.2
  have hCount : (newNetworkSection codec nid nw ne mod).MessageCount =
      (ne.messages.length : Int) := by
    unfold networkSection.MessageCount int64OfLen
    rw [hLen]
  refine ⟨hCount, hCount, hLen, ?_, hItems⟩
  rw [hItems, List.length_map]

/-- Evaluation of C6: three messages hashed by the sample module. -/
theorem newNetworkSection_messageCount_witness :
    (newNetworkSection sampleCodec 7 ⟨10, true, []⟩ ⟨[[1], [2, 2], []]⟩ sampleModule).MessageCount
      = 3 :=
  (newNetworkSection_messageCount sampleCodec 7 ⟨10, true, []⟩ ⟨[[1], [2, 2], []]⟩ sampleModule 2
    (by decide) sampleModule_hash_length).1

/-- C7 fails as stated: with `NextMessageSN = 0` and one message, `newNetworkSection` does
not fail; it returns a section with update number `-2` and first message number `-1`. -/
theorem invariantViolation_counterexample :
    ((0 : Int) < (([[0xAA]] : List ByteString).length : Int)) ∧
      ∃ ns : networkSection,
        newNetworkSection sampleCodec 7 ⟨0, false, []⟩ ⟨[[0xAA]]⟩ sampleModule = ns ∧
        ns.UpdateNumber = -2 ∧ ns.FirstMessageSN = -1 ∧ ns.MessageCount = 1 ∧
        ns.MessagesRoot = sampleModule.MerkleRoot [sampleModule.Hash [0xAA]] :=
  ⟨by decide, _, rfl, by decide, by decide, by decide, by decide⟩

/-- C7 (amended): `newNetworkSection` does not compare `NextMessageSN` with
`len(messages)`. For every input with `NextMessageSN < len(messages)` (and a difference of at
least `-2^62`) it returns a section, holding the given messages, whose `FirstMessageSN()` is
the negative number `NextMessageSN - len(messages)`. -/
theorem newNetworkSection_unchecked (codec : Codec) (nid : Int) (nw : Network)
    (ne : networkEntry) (mod : NetworkTypeModule)
    (hviol : nw.NextMessageSN < (ne.messages.length : Int))
    (hfit : -(2 : Int) ^ 62 ≤ nw.NextMessageSN - (ne.messages.length : Int)) :
    ∃ ns : networkSection, newNetworkSection codec nid nw ne mod = ns ∧
      ns.messages = ne.messages ∧
      ns.FirstMessageSN = nw.NextMessageSN - (ne.messages.length : Int) ∧
      ns.FirstMessageSN < 0 := by
  have h := firstMessageSN_of_small codec nid nw ne mod hfit (by omega)
  refine ⟨_, rfl, rfl, h, ?_⟩
  rw [h]
  omega

/-- Evaluation of C7 (amended): one message with `NextMessageSN = 0`. -/
theorem newNetworkSection_unchecked_witness :
    ∃ ns : networkSection,
      newNetworkSection sampleCodec 7 ⟨0, false, []⟩ ⟨[[0xAA]]⟩ sampleModule = ns ∧
      ns.messages = [[0xAA]] ∧
      ns.FirstMessageSN = 0 - ((([[0xAA]] : List ByteString).length : Nat) : Int) ∧
      ns.FirstMessageSN < 0 :=
  newNetworkSection_unchecked sampleCodec 7 ⟨0, false, []⟩ ⟨[[0xAA]]⟩ sampleModule
    (by decide) (by decide)

/-! ## Network type section -/

/-- C8: for every network type section that `newNetworkTypeSection` builds successfully,
`NetworkSectionsRoot()` is the `MerkleRoot` of the module of the type over the network
section hashes in the given order, and `Hash()` is that module's `Hash` of the encoding of
`[nextProofContext.Hash(), NetworkSectionsRoot()]`. -/
theorem newNetworkTypeSection_root_and_hash (codec : Codec) (reg : Registry) (ntid : Int)
    (nt : NetworkType) (nsSlice : networkSectionSlice) (nts : networkTypeSection)
    (hok : newNetworkTypeSection codec reg ntid nt nsSlice = .ok nts) :
    ∃ mod : NetworkTypeModule, reg.lookup nt.UID = some mod ∧
      mod.NewProofContextFromBytes nt.NextProofContext = .ok nts.NextProofContext ∧
      nts.NetworkSections = nsSlice ∧
      nts.NetworkSectionsRoot = mod.MerkleRoot (nsSlice.map networkSection.Hash) ∧
      nts.Hash = mod.Hash (codec.MarshalToBytes
        (.list [.bytes nts.NextProofContext.Hash, .bytes nts.NetworkSectionsRoot])) := by
  unfold newNetworkTypeSection ForUID at hok
  cases hl : reg.lookup nt.UID with
  | none => simp [hl] at hok
  | some mod =>
    cases hp : mod.NewProofContextFromBytes nt.NextProofContext with
    | error e => simp [hl, hp] at hok
    | ok npc =>
      simp only [hl, hp, Except.ok.injEq] at hok
      subst hok
      refine ⟨mod, rfl, hp, rfl, ?_, rfl⟩
      show mod.MerkleRoot (networkSectionSlice.items nsSlice) = _
      rw [networkSectionSlice_items]

/-- Evaluation of C8: a type section over two sample network sections. -/
theorem newNetworkTypeSection_root_and_hash_witness :
    ∃ nts, newNetworkTypeSection sampleCodec sampleRegistry 1 ⟨"icon", [5]⟩
        [newNetworkSection sampleCodec 3 ⟨1, false, []⟩ ⟨[[0xAA]]⟩ sampleModule,
          newNetworkSection sampleCodec 9 ⟨2, true, []⟩ ⟨[[1], [2]]⟩ sampleModule] = .ok nts ∧
      ∃ mod : NetworkTypeModule, sampleRegistry.lookup "icon" = some mod ∧
        mod.NewProofContextFromBytes [5] = .ok nts.NextProofContext ∧
        nts.NetworkSections =
          [newNetworkSection sampleCodec 3 ⟨1, false, []⟩ ⟨[[0xAA]]⟩ sampleModule,
            newNetworkSection sampleCodec 9 ⟨2, true, []⟩ ⟨[[1], [2]]⟩ sampleModule] ∧
        nts.NetworkSectionsRoot = mod.MerkleRoot
          ([newNetworkSection sampleCodec 3 ⟨1, false, []⟩ ⟨[[0xAA]]⟩ sampleModule,
            newNetworkSection sampleCodec 9 ⟨2, true, []⟩ ⟨[[1], [2]]⟩ sampleModule].map
              networkSection.Hash) ∧
        nts.Hash = mod.Hash (sampleCodec.MarshalToBytes
          (.list [.bytes nts.NextProofContext.Hash, .bytes nts.NetworkSectionsRoot])) :=
  ⟨_, rfl, newNetworkTypeSection_root_and_hash sampleCodec sampleRegistry 1 ⟨"icon", [5]⟩ _ _ rfl⟩

/-- C9: for a registered UID, `newNetworkTypeSection` returns an error and no section if and
only if `NewProofContextFromBytes` of the module rejects `NetworkType.NextProofContext`, and
the error returned is the error of the module; otherwise it returns a section. -/
theorem newNetworkTypeSection_error_iff (codec : Codec) (reg : Registry) (ntid : Int)
    (nt : NetworkType) (nsSlice : networkSectionSlice) (mod : NetworkTypeModule)
    (hreg : reg.lookup nt.UID = some mod) :
    ((∃ f, newNetworkTypeSection codec reg ntid nt nsSlice = .error f) ↔
        ∃ err, mod.NewProofContextFromBytes nt.NextProofContext = .error err) ∧
      (∀ f, newNetworkTypeSection codec reg ntid nt nsSlice = .error f ↔
        ∃ err, f = .returned err ∧
          mod.NewProofContextFromBytes nt.NextProofContext = .error err) ∧
      ((∃ nts, newNetworkTypeSection codec reg ntid nt nsSlice = .ok nts) ↔
        ∃ npc, mod.NewProofContextFromBytes nt.NextProofContext = .ok npc) := by
  unfold newNetworkTypeSection ForUID
  simp only [hreg]
  cases hp : mod.NewProofContextFromBytes nt.NextProofContext with
  | error e =>
    refine ⟨⟨fun _ => ⟨e, rfl⟩, fun _ => ⟨_, rfl⟩⟩, ?_, ⟨?_, ?_⟩⟩
    · intro f
      constructor
      · intro h
        refine ⟨e, ?_, rfl⟩
        simp only [Except.error.injEq] at h
        exact h.symm
      · rintro ⟨err, rfl, h⟩
        simp only [Except.error.injEq] at h
        rw [h]
    · rintro ⟨nts, h⟩
      simp at h
    · rintro ⟨npc, h⟩
      simp at h
  | ok npc =>
    refine ⟨⟨?_, ?_⟩, ?_, ⟨fun _ => ⟨npc, rfl⟩, fun _ => ⟨_, rfl⟩⟩⟩
    · rintro ⟨f, h⟩
      simp at h
    · rintro ⟨err, h⟩
      simp at h
    · intro f
      constructor
      · intro h
        simp at h
      · rintro ⟨err, _, h⟩
        simp at h

/-- Evaluation of C9: the sample module rejects an empty proof context. -/
theorem newNetworkTypeSection_error_iff_witness :
    newNetworkTypeSection sampleCodec sampleRegistry 1 ⟨"icon", []⟩ [] =
      .error (.returned "empty proof context") :=
  ((newNetworkTypeSection_error_iff sampleCodec sampleRegistry 1 ⟨"icon", []⟩ [] sampleModule
    rfl).2.1 (.returned "empty proof context")).mpr ⟨_, rfl, rfl⟩

/-- C10: for every `NetworkType` whose UID is not registered in the module registry,
`newNetworkTypeSection` fails with the UnknownNetworkType failure of the registry lookup,
which reaches the caller, and produces no section. -/
theorem newNetworkTypeSection_unknown_uid (codec : Codec) (reg : Registry) (ntid : Int)
    (nt : NetworkType) (nsSlice : networkSectionSlice)
    (hunreg : reg.lookup nt.UID = none) :
    newNetworkTypeSection codec reg ntid nt nsSlice = .error (.UnknownNetworkType nt.UID) ∧
      ∀ nts, newNetworkTypeSection codec reg ntid nt nsSlice ≠ .ok nts := by
  have h : newNetworkTypeSection codec reg ntid nt nsSlice =
      .error (.UnknownNetworkType nt.UID) := by
    unfold newNetworkTypeSection ForUID
    simp only [hunreg]
  refine ⟨h, ?_⟩
  intro nts hn
  rw [h] at hn
  simp at hn

/-- Evaluation of C10: the UID `"eth"` is not in the sample registry. -/
theorem newNetworkTypeSection_unknown_uid_witness :
    newNetworkTypeSection sampleCodec sampleRegistry 1 ⟨"eth", [5]⟩ [] =
      .error (.UnknownNetworkType "eth") :=
  (newNetworkTypeSection_unknown_uid sampleCodec sampleRegistry 1 ⟨"eth", [5]⟩ [] rfl).1


/-! ## Digest: encoding and memoized values -/

theorem foldl_networkSection_encodeDigest (nss : List networkSection) (e : Encoder) :
    nss.foldl (fun e3 ns => ns.encodeDigest e3) e =
      { items := e.items ++ nss.map specNetworkDigest } := by
  induction nss generalizing e with
  | nil => simp
  | cons ns rest ih =>
    rw [List.foldl_cons, ih]
    simp [networkSection.encodeDigest, Encoder.EncodeListOf, specNetworkDigest]

theorem networkTypeSection_encodeDigest (nts : networkTypeSection) (e : Encoder) :
    nts.encodeDigest e = { items := e.items ++ [specNetworkTypeDigest nts] } := by
  unfold networkTypeSection.encodeDigest Encoder.EncodeList
  simp only [foldl_networkSection_encodeDigest]
  simp [Encoder.EncodeMulti, specNetworkTypeDigest]

theorem foldl_networkTypeSection_encodeDigest (ntss : List networkTypeSection) (e : Encoder) :
    ntss.foldl (fun e3 nts => nts.encodeDigest e3) e =
      { items := e.items ++ ntss.map specNetworkTypeDigest } := by
  induction ntss generalizing e with
  | nil => simp
  | cons nts rest ih =>
    rw [List.foldl_cons, ih, networkTypeSection_encodeDigest]
    simp

theorem encodeBytes_eq (codec : Codec) (bsd : btpSectionDigest) :
    bsd.encodeBytes codec = codec.MarshalToBytes (specDigest bsd.bs) := by
  unfold btpSectionDigest.encodeBytes Encoder.EncodeList Encoder.Close NewEncoderBytes
  simp only [foldl_networkTypeSection_encodeDigest]
  simp [specDigest]

theorem foldl_append_singleton {α : Type} (xs acc : List α) :
    xs.foldl (fun a x => a ++ [x]) acc = acc ++ xs := by
  induction xs generalizing acc with
  | nil => simp
  | cons x rest ih => rw [List.foldl_cons, ih]; simp

theorem Bytes_some (codec : Codec) (bsd : btpSectionDigest) (b : ByteString)
    (h : bsd.bytes = some b) : bsd.Bytes codec = (b, bsd) := by
  unfold btpSectionDigest.Bytes
  rw [h]

theorem Bytes_none (codec : Codec) (bsd : btpSectionDigest) (h : bsd.bytes = none) :
    bsd.Bytes codec =
      (bsd.encodeBytes codec, { bsd with bytes := some (bsd.encodeBytes codec) }) := by
  unfold btpSectionDigest.Bytes
  rw [h]

theorem Hash_some (codec : Codec) (sha3 : ByteString → ByteString) (bsd : btpSectionDigest)
    (x : ByteString) (h : bsd.hash = some x) : bsd.Hash codec sha3 = (x, bsd) := by
  unfold btpSectionDigest.Hash
  rw [h]

theorem Hash_none (codec : Codec) (sha3 : ByteString → ByteString) (bsd : btpSectionDigest)
    (h : bsd.hash = none) :
    bsd.Hash codec sha3 =
      (sha3 (bsd.Bytes codec).1, { (bsd.Bytes codec).2 with hash := some (sha3 (bsd.Bytes codec).1) }) := by
  unfold btpSectionDigest.Hash
  rw [h]

theorem NetworkTypeDigests_some (bsd : btpSectionDigest) (ds : List networkTypeSection)
    (h : bsd.networkTypeDigests = some ds) : bsd.NetworkTypeDigests = (ds, bsd) := by
  unfold btpSectionDigest.NetworkTypeDigests
  rw [h]

theorem NetworkTypeDigests_none (bsd : btpSectionDigest) (h : bsd.networkTypeDigests = none) :
    bsd.NetworkTypeDigests = (bsd.bs, { bsd with networkTypeDigests := some bsd.bs }) := by
  unfold btpSectionDigest.NetworkTypeDigests
  rw [h]
  simp [foldl_append_singleton]

theorem NetworkSectionFilter_some (n : Nat) (bsd : btpSectionDigest) (f : BitSetFilter)
    (h : bsd.filter = some f) : bsd.NetworkSectionFilter n = (some f, bsd) := by
  unfold btpSectionDigest.NetworkSectionFilter
  rw [h]

theorem NetworkSectionFilter_none_some (n : Nat) (bsd : btpSectionDigest) (f : BitSetFilter)
    (h : bsd.filter = none)
    (hf : networkSectionFilterLoop bsd.bs (MakeBitSetFilter n) = (f, true)) :
    bsd.NetworkSectionFilter n = (some f, { bsd with filter := some f }) := by
  unfold btpSectionDigest.NetworkSectionFilter
  rw [h]
  simp only [hf]

theorem NetworkSectionFilter_none_none (n : Nat) (bsd : btpSectionDigest) (f : BitSetFilter)
    (h : bsd.filter = none)
    (hf : networkSectionFilterLoop bsd.bs (MakeBitSetFilter n) = (f, false)) :
    bsd.NetworkSectionFilter n = (none, { bsd with filter := some f }) := by
  unfold btpSectionDigest.NetworkSectionFilter
  rw [h]
  simp only [hf]

theorem coherent_Bytes (codec : Codec) (sha3 : ByteString → ByteString) (n : Nat)
    (ntss : networkTypeSectionSlice) (bsd : btpSectionDigest)
    (h : bsd.Coherent codec sha3 n ntss) :
    (bsd.Bytes codec).1 = codec.MarshalToBytes (specDigest ntss) ∧
      (bsd.Bytes codec).2.Coherent codec sha3 n ntss := by
  obtain ⟨hbs, hb, hh, hd, hf⟩ := h
  cases hbytes : bsd.bytes with
  | some b =>
    rw [Bytes_some codec bsd b hbytes]
    refine ⟨?_, hbs, hb, hh, hd, hf⟩
    rw [hbytes] at hb
    rcases hb with hb | hb
    · cases hb
    · simp only [Option.some.injEq] at hb
      show b = _
      rw [hb, encodeBytes_eq]; rfl
  | none =>
    rw [Bytes_none codec bsd hbytes]
    refine ⟨?_, hbs, Or.inr ?_, hh, hd, hf⟩
    · show bsd.encodeBytes codec = _
      rw [encodeBytes_eq, hbs]
    · show some (bsd.encodeBytes codec) = _
      rw [encodeBytes_eq, encodeBytes_eq, hbs]; rfl

theorem coherent_Hash (codec : Codec) (sha3 : ByteString → ByteString) (n : Nat)
    (ntss : networkTypeSectionSlice) (bsd : btpSectionDigest)
    (h : bsd.Coherent codec sha3 n ntss) :
    (bsd.Hash codec sha3).1 = sha3 (codec.MarshalToBytes (specDigest ntss)) ∧
      (bsd.Hash codec sha3).2.Coherent codec sha3 n ntss := by
  have hB := coherent_Bytes codec sha3 n ntss bsd h
  obtain ⟨hbs, hb, hh, hd, hf⟩ := h
  cases hhash : bsd.hash with
  | some x =>
    rw [Hash_some codec sha3 bsd x hhash]
    refine ⟨?_, hbs, hb, hh, hd, hf⟩
    rw [hhash] at hh
    rcases hh with hh | hh
    · cases hh
    · simp only [Option.some.injEq] at hh
      show x = _
      rw [hh, encodeBytes_eq]; rfl
  | none =>
    rw [Hash_none codec sha3 bsd hhash]
    obtain ⟨hv, hbs2, hb2, -, hd2, hf2⟩ := hB
    refine ⟨?_, hbs2, hb2, Or.inr ?_, hd2, hf2⟩
    · show sha3 (bsd.Bytes codec).1 = _
      rw [hv]
    · show some (sha3 (bsd.Bytes codec).1) = _
      rw [hv, encodeBytes_eq]; rfl

theorem coherent_NetworkTypeDigests (codec : Codec) (sha3 : ByteString → ByteString) (n : Nat)
    (ntss : networkTypeSectionSlice) (bsd : btpSectionDigest)
    (h : bsd.Coherent codec sha3 n ntss) :
    bsd.NetworkTypeDigests.1 = ntss ∧ bsd.NetworkTypeDigests.2.Coherent codec sha3 n ntss := by
  obtain ⟨hbs, hb, hh, hd, hf⟩ := h
  cases hntd : bsd.networkTypeDigests with
  | some ds =>
    rw [NetworkTypeDigests_some bsd ds hntd]
    refine ⟨?_, hbs, hb, hh, hd, hf⟩
    rw [hntd] at hd
    rcases hd with hd | hd
    · cases hd
    · simpa using hd
  | none =>
    rw [NetworkTypeDigests_none bsd hntd]
    exact ⟨hbs, hbs, hb, hh, Or.inr (by rw [hbs]), hf⟩

theorem coherent_NetworkSectionFilter (codec : Codec) (sha3 : ByteString → ByteString)
    (n : Nat) (ntss : networkTypeSectionSlice) (bsd : btpSectionDigest)
    (h : bsd.Coherent codec sha3 n ntss) :
    ((networkSectionFilterLoop ntss (MakeBitSetFilter n)).2 = true →
        (bsd.NetworkSectionFilter n).1
          = some (networkSectionFilterLoop ntss (MakeBitSetFilter n)).1) ∧
      (bsd.NetworkSectionFilter n).2.Coherent codec sha3 n ntss := by
  obtain ⟨hbs, hb, hh, hd, hf⟩ := h
  cases hfil : bsd.filter with
  | some f =>
    rw [NetworkSectionFilter_some n bsd f hfil]
    refine ⟨fun _ => ?_, hbs, hb, hh, hd, hf⟩
    rw [hfil] at hf
    rcases hf with hf | hf
    · cases hf
    · exact hf
  | none =>
    cases hloop : networkSectionFilterLoop bsd.bs (MakeBitSetFilter n) with
    | mk f ok =>
      cases ok with
      | true =>
        rw [NetworkSectionFilter_none_some n bsd f hfil hloop]
        rw [hbs] at hloop
        exact ⟨fun _ => by rw [hloop], hbs, hb, hh, hd, Or.inr (by rw [hloop])⟩
      | false =>
        rw [NetworkSectionFilter_none_none n bsd f hfil hloop]
        rw [hbs] at hloop
        refine ⟨fun hok => ?_, hbs, hb, hh, hd, Or.inr (by rw [hloop])⟩
        rw [hloop] at hok
        cases hok

theorem coherent_fresh (codec : Codec) (sha3 : ByteString → ByteString) (n : Nat)
    (ntss : networkTypeSectionSlice) :
    (newBTPSection ntss).Digest.Coherent codec sha3 n ntss :=
  ⟨rfl, Or.inl rfl, Or.inl rfl, Or.inl rfl, Or.inl rfl⟩

theorem coherent_of_digestOf (codec : Codec) (sha3 : ByteString → ByteString) (n : Nat)
    (ntss : networkTypeSectionSlice) (bsd : btpSectionDigest)
    (h : DigestOf codec sha3 n ntss bsd) : bsd.Coherent codec sha3 n ntss := by
  induction h with
  | fresh => exact coherent_fresh codec sha3 n ntss
  | afterBytes _ ih => exact (coherent_Bytes codec sha3 n ntss _ ih).2
  | afterHash _ ih => exact (coherent_Hash codec sha3 n ntss _ ih).2
  | afterNetworkTypeDigests _ ih => exact (coherent_NetworkTypeDigests codec sha3 n ntss _ ih).2
  | afterNetworkSectionFilter _ ih =>
    exact (coherent_NetworkSectionFilter codec sha3 n ntss _ ih).2

/-! ## Bit-set filter lemmas -/

theorem MakeBitSetFilter_length (n : Nat) : (MakeBitSetFilter n).bits.length = 8 * n := by
  simp [MakeBitSetFilter]

theorem MakeBitSetFilter_Test (n : Nat) (i : Int) : (MakeBitSetFilter n).Test i = false := by
  simp only [BitSetFilter.Test, MakeBitSetFilter, List.getD_eq_getElem?_getD]
  by_cases h : i.toNat < 8 * n
  · simp [List.getElem?_replicate, h]
  · simp [List.getElem?_replicate, h]

theorem Set_spec (f g : BitSetFilter) (j : Int) (h : f.Set j = some g) :
    g.bits.length = f.bits.length ∧ (0 ≤ j ∧ j < f.bits.length) ∧
      ∀ i : Int, g.Test i = true ↔ (i = j ∨ f.Test i = true) := by
  unfold BitSetFilter.Set at h
  split at h
  · rename_i hr
    simp only [Option.some.injEq] at h
    subst h
    refine ⟨by simp, hr, ?_⟩
    intro i
    simp only [BitSetFilter.Test, List.getD_eq_getElem?_getD, List.getElem?_set,
      Bool.and_eq_true, decide_eq_true_eq]
    by_cases hij : i = j
    · subst hij
      have hlt : i.toNat < f.bits.length := by omega
      simp [hlt, hr.1]
    · by_cases hi : 0 ≤ i
      · have hne : j.toNat ≠ i.toNat := by omega
        simp [hne, hij, hi]
      · simp [hi, hij]
  · cases h

theorem Set_succeeds (f : BitSetFilter) (j : Int) (h0 : 0 ≤ j) (h1 : j < f.bits.length) :
    ∃ g, f.Set j = some g := by
  unfold BitSetFilter.Set
  rw [if_pos ⟨h0, h1⟩]
  exact ⟨_, rfl⟩

theorem updateFilterLoop_spec (nss : List networkSection) (f g : BitSetFilter)
    (h : updateFilterLoop nss f = (g, true)) :
    g.bits.length = f.bits.length ∧
      ∀ i : Int, g.Test i = true ↔ ((∃ ns ∈ nss, ns.NetworkID = i) ∨ f.Test i = true) := by
  induction nss generalizing f with
  | nil =>
    simp only [updateFilterLoop, Prod.mk.injEq, and_true] at h
    subst h
    simp
  | cons ns rest ih =>
    simp only [updateFilterLoop] at h
    cases hs : f.Set ns.NetworkID with
    | none => simp [hs] at h
    | some f1 =>
      simp only [hs] at h
      obtain ⟨hl1, -, ht1⟩ := Set_spec f f1 _ hs
      obtain ⟨hl2, ht2⟩ := ih f1 h
      refine ⟨by rw [hl2, hl1], ?_⟩
      intro i
      rw [ht2 i, ht1 i]
      constructor
      · rintro (⟨x, hx, hxi⟩ | hi | hf)
        · exact Or.inl ⟨x, List.mem_cons_of_mem _ hx, hxi⟩
        · exact Or.inl ⟨ns, List.mem_cons_self _ _, hi.symm⟩
        · exact Or.inr hf
      · rintro (⟨x, hx, hxi⟩ | hf)
        · rcases List.mem_cons.mp hx with rfl | hx
          · exact Or.inr (Or.inl hxi.symm)
          · exact Or.inl ⟨x, hx, hxi⟩
        · exact Or.inr (Or.inr hf)

theorem updateFilterLoop_succeeds (nss : List networkSection) (f : BitSetFilter)
    (h : ∀ ns ∈ nss, 0 ≤ ns.NetworkID ∧ ns.NetworkID < f.bits.length) :
    ∃ g, updateFilterLoop nss f = (g, true) := by
  induction nss generalizing f with
  | nil => exact ⟨f, rfl⟩
  | cons ns rest ih =>
    obtain ⟨h0, h1⟩ := h ns (List.mem_cons_self _ _)
    obtain ⟨f1, hs⟩ := Set_succeeds f ns.NetworkID h0 h1
    obtain ⟨hl, -, -⟩ := Set_spec f f1 _ hs
    obtain ⟨g, hg⟩ := ih f1 (fun x hx => by rw [hl]; exact h x (List.mem_cons_of_mem _ hx))
    exact ⟨g, by simp only [updateFilterLoop, hs, hg]⟩

theorem networkSectionFilterLoop_spec (ntss : List networkTypeSection) (f g : BitSetFilter)
    (h : networkSectionFilterLoop ntss f = (g, true)) :
    g.bits.length = f.bits.length ∧
      ∀ i : Int, g.Test i = true ↔
        ((∃ nts ∈ ntss, ∃ ns ∈ nts.networkSections, ns.NetworkID = i) ∨ f.Test i = true) := by
  induction ntss generalizing f with
  | nil =>
    simp only [networkSectionFilterLoop, Prod.mk.injEq, and_true] at h
    subst h
    simp
  | cons nts rest ih =>
    simp only [networkSectionFilterLoop] at h
    cases hs : nts.updateFilter f with
    | mk f1 ok =>
      cases ok with
      | false => simp [hs] at h
      | true =>
        simp only [hs] at h
        obtain ⟨hl1, ht1⟩ := updateFilterLoop_spec nts.networkSections f f1 hs
        obtain ⟨hl2, ht2⟩ := ih f1 h
        refine ⟨by rw [hl2, hl1], ?_⟩
        intro i
        rw [ht2 i, ht1 i]
        constructor
        · rintro (⟨x, hx, hxi⟩ | hi | hf)
          · exact Or.inl ⟨x, List.mem_cons_of_mem _ hx, hxi⟩
          · exact Or.inl ⟨nts, List.mem_cons_self _ _, hi⟩
          · exact Or.inr hf
        · rintro (⟨x, hx, hxi⟩ | hf)
          · rcases List.mem_cons.mp hx with rfl | hx
            · exact Or.inr (Or.inl hxi)
            · exact Or.inl ⟨x, hx, hxi⟩
          · exact Or.inr (Or.inr hf)

theorem networkSectionFilterLoop_succeeds (ntss : List networkTypeSection) (f : BitSetFilter)
    (h : ∀ nts ∈ ntss, ∀ ns ∈ nts.networkSections,
      0 ≤ ns.NetworkID ∧ ns.NetworkID < f.bits.length) :
    ∃ g, networkSectionFilterLoop ntss f = (g, true) := by
  induction ntss generalizing f with
  | nil => exact ⟨f, rfl⟩
  | cons nts rest ih =>
    obtain ⟨f1, hs⟩ := updateFilterLoop_succeeds nts.networkSections f
      (h nts (List.mem_cons_self _ _))
    obtain ⟨hl, -⟩ := updateFilterLoop_spec nts.networkSections f f1 hs
    obtain ⟨g, hg⟩ := ih f1
      (fun x hx ns hns => by rw [hl]; exact h x (List.mem_cons_of_mem _ hx) ns hns)
    refine ⟨g, ?_⟩
    have hs2 : nts.updateFilter f = (f1, true) := hs
    simp only [networkSectionFilterLoop, hs2, hg]

theorem networkSectionFilterLoop_no_sections (ntss : List networkTypeSection)
    (f : BitSetFilter) (h : ∀ nts ∈ ntss, nts.networkSections = []) :
    networkSectionFilterLoop ntss f = (f, true) := by
  induction ntss with
  | nil => rfl
  | cons nts rest ih =>
    have h1 : nts.updateFilter f = (f, true) := by
      unfold networkTypeSection.updateFilter
      rw [h nts (List.mem_cons_self _ _)]
      rfl
    simp only [networkSectionFilterLoop, h1]
    exact ih (fun x hx => h x (List.mem_cons_of_mem _ hx))

/-! ## Digest: bytes, hash, filter, repeated calls -/

/-- C11: for every BTP section, `Digest().Bytes()` is the encoding of an outer list with one
inner list per network type section in stored order, each inner list being
`[networkTypeID, networkTypeSectionHash]` followed by one triple
`[networkID, networkSectionHash, messagesRoot]` per network section in stored order; with
zero type sections it is the encoded empty list. -/
theorem digest_Bytes_encoding (codec : Codec) (sha3 : ByteString → ByteString) (n : Nat)
    (ntss : networkTypeSectionSlice) (bsd : btpSectionDigest)
    (h : DigestOf codec sha3 n ntss bsd) :
    (bsd.Bytes codec).1 =
        codec.MarshalToBytes (.list (ntss.map fun nts =>
          .list (.int nts.NetworkTypeID :: .bytes nts.NetworkTypeSectionHash ::
            nts.NetworkSections.map fun ns =>
              .list [.int ns.NetworkID, .bytes ns.NetworkSectionHash, .bytes ns.MessagesRoot]))) ∧
      (ntss = [] → (bsd.Bytes codec).1 = codec.MarshalToBytes (.list [])) := by
  have hb := (coherent_Bytes codec sha3 n ntss bsd (coherent_of_digestOf codec sha3 n ntss bsd h)).1
  refine ⟨hb, ?_⟩
  intro he
  rw [hb, he]
  rfl

/-- Evaluation of C11: one type section over the sample network sections 3 and 9, and the
BTP section without type sections. -/
theorem digest_Bytes_encoding_witness :
    ((newBTPSection [sampleTypeSection "icon" 1 [sampleSection3, sampleSection9]]).Digest.Bytes
        sampleCodec).1 =
      sampleCodec.MarshalToBytes (.list [.list [.int 1,
        .bytes (sampleTypeSection "icon" 1 [sampleSection3, sampleSection9]).hash,
        .list [.int 3, .bytes sampleSection3.hash, .bytes sampleSection3.messagesRoot],
        .list [.int 9, .bytes sampleSection9.hash, .bytes sampleSection9.messagesRoot]]]) ∧
    ((newBTPSection []).Digest.Bytes sampleCodec).1 = sampleCodec.MarshalToBytes (.list []) :=
  ⟨(digest_Bytes_encoding sampleCodec sampleSHA3 2
      [sampleTypeSection "icon" 1 [sampleSection3, sampleSection9]] _ DigestOf.fresh).1,
    (digest_Bytes_encoding sampleCodec sampleSHA3 2 [] _ DigestOf.fresh).2 rfl⟩

/-- C12: for every BTP section, whatever modules its network types use, `Digest().Hash()`
is SHA3-256 of `Digest().Bytes()`. -/
theorem digest_Hash_sha3 (codec : Codec) (sha3 : ByteString → ByteString) (n : Nat)
    (ntss : networkTypeSectionSlice) (bsd : btpSectionDigest)
    (h : DigestOf codec sha3 n ntss bsd) :
    (bsd.Hash codec sha3).1 = sha3 (bsd.Bytes codec).1 := by
  have hc := coherent_of_digestOf codec sha3 n ntss bsd h
  rw [(coherent_Hash codec sha3 n ntss bsd hc).1, (coherent_Bytes codec sha3 n ntss bsd hc).1]

/-- Evaluation of C12: type sections of the modules `"icon"` and `"raw"`, after `Bytes()`
was called once. -/
theorem digest_Hash_sha3_witness :
    (((newBTPSection [sampleTypeSection "icon" 1 [sampleSection3],
        sampleTypeSection "raw" 2 [sampleSection9]]).Digest.Bytes sampleCodec).2.Hash
          sampleCodec sampleSHA3).1 =
      sampleSHA3 ((((newBTPSection [sampleTypeSection "icon" 1 [sampleSection3],
        sampleTypeSection "raw" 2 [sampleSection9]]).Digest.Bytes sampleCodec).2.Bytes
          sampleCodec).1) :=
  digest_Hash_sha3 sampleCodec sampleSHA3 2 _ _ (DigestOf.afterBytes DigestOf.fresh)

/-! ## Sort determinism -/

theorem insertionSort_eq_of_perm {α : Type} (key : α → Int) (l1 l2 : List α)
    (hperm : l1.Perm l2) (hnd : (l1.map key).Nodup) :
    l1.insertionSort (fun a b => key a ≤ key b) = l2.insertionSort (fun a b => key a ≤ key b) := by
  haveI : IsTotal α (fun a b => key a ≤ key b) := ⟨fun a b => le_total (key a) (key b)⟩
  haveI : IsTrans α (fun a b => key a ≤ key b) := ⟨fun a b c hab hbc => le_trans hab hbc⟩
  haveI : IsAntisymm α (fun a b => key a < key b) :=
    ⟨fun a b hab hba => absurd hab (not_lt.mpr (le_of_lt hba))⟩
  have strict : ∀ l : List α, l.Perm l1 → l.Sorted (fun a b => key a ≤ key b) →
      l.Sorted (fun a b => key a < key b) := by
    intro l hl hs
    have hnd2 : (l.map key).Nodup := (hl.map key).nodup_iff.mpr hnd
    have hne : l.Pairwise (fun a b => key a ≠ key b) := by
      rw [List.Nodup, List.pairwise_map] at hnd2
      exact hnd2
    exact (List.Pairwise.and hs hne).imp (fun h => lt_of_le_of_ne h.1 h.2)
  have p1 := List.perm_insertionSort (fun a b => key a ≤ key b) l1
  have p2 := List.perm_insertionSort (fun a b => key a ≤ key b) l2
  exact List.eq_of_perm_of_sorted (p1.trans (hperm.trans p2.symm))
    (strict _ p1 (List.sorted_insertionSort _ l1))
    (strict _ (p2.trans hperm.symm) (List.sorted_insertionSort _ l2))

theorem newNetworkTypeSection_keeps (codec : Codec) (reg : Registry) (ntid : Int)
    (nt : NetworkType) (s : networkSectionSlice) (nts : networkTypeSection)
    (hok : newNetworkTypeSection codec reg ntid nt s = .ok nts) : nts.NetworkSections = s := by
  unfold newNetworkTypeSection at hok
  cases hf : ForUID reg nt.UID with
  | error e => simp [hf] at hok
  | ok mod =>
    cases hp : mod.NewProofContextFromBytes nt.NextProofContext with
    | error e => simp [hf, hp] at hok
    | ok npc =>
      simp only [hf, hp, Except.ok.injEq] at hok
      subst hok
      rfl

/-- C13: two builds fed the same network sections in different orders give the same
result. The builder sorts what it is fed by identifier, the identifiers being unique within
their level: fed the same network sections in any two orders it builds the same type
section (or fails alike), whose `NetworkSections()` are the sections fed, in ascending order
of network ID, `newNetworkTypeSection` keeping the order it is handed; and fed the same type
sections in any two orders it builds BTP sections with the same `NetworkTypeSections()`,
in ascending order of network type ID, and the same `Digest().Bytes()` and
`Digest().Hash()`. So the type sections built from the same network sections in two orders
have the same hash and give the same digest bytes and digest hash. -/
theorem build_sort_determinism (codec : Codec) (sha3 : ByteString → ByteString)
    (reg : Registry) (ntid : Int) (nt : NetworkType) :
    (∀ s1 s2 : List networkSection, s1.Perm s2 →
      (s1.map networkSection.NetworkID).Nodup →
      buildNetworkTypeSection codec reg ntid nt s1
        = buildNetworkTypeSection codec reg ntid nt s2) ∧
    (∀ (s : List networkSection) (nts : networkTypeSection),
      buildNetworkTypeSection codec reg ntid nt s = .ok nts →
      nts.NetworkSections.Perm s ∧
        nts.NetworkSections.Sorted (fun a b => a.NetworkID ≤ b.NetworkID)) ∧
    (∀ (s : networkSectionSlice) (nts : networkTypeSection),
      newNetworkTypeSection codec reg ntid nt s = .ok nts → nts.NetworkSections = s) ∧
    (∀ t1 t2 : List networkTypeSection, t1.Perm t2 →
      (t1.map networkTypeSection.NetworkTypeID).Nodup →
      (buildBTPSection t1).NetworkTypeSections = (buildBTPSection t2).NetworkTypeSections ∧
      ((buildBTPSection t1).Digest.Bytes codec).1
        = ((buildBTPSection t2).Digest.Bytes codec).1 ∧
      ((buildBTPSection t1).Digest.Hash codec sha3).1
        = ((buildBTPSection t2).Digest.Hash codec sha3).1) ∧
    (∀ t : List networkTypeSection,
      (buildBTPSection t).NetworkTypeSections.Perm t ∧
        (buildBTPSection t).NetworkTypeSections.Sorted
          (fun a b => a.NetworkTypeID ≤ b.NetworkTypeID)) ∧
    (∀ (s1 s2 : List networkSection) (nts1 nts2 : networkTypeSection), s1.Perm s2 →
      (s1.map networkSection.NetworkID).Nodup →
      buildNetworkTypeSection codec reg ntid nt s1 = .ok nts1 →
      buildNetworkTypeSection codec reg ntid nt s2 = .ok nts2 →
      nts1.NetworkSections = nts2.NetworkSections ∧ nts1.Hash = nts2.Hash ∧
      ((buildBTPSection [nts1]).Digest.Bytes codec).1
        = ((buildBTPSection [nts2]).Digest.Bytes codec).1 ∧
      ((buildBTPSection [nts1]).Digest.Hash codec sha3).1
        = ((buildBTPSection [nts2]).Digest.Hash codec sha3).1) := by
  haveI : IsTotal networkSection (fun a b => a.NetworkID ≤ b.NetworkID) :=
    ⟨fun a b => le_total a.NetworkID b.NetworkID⟩
  haveI : IsTrans networkSection (fun a b => a.NetworkID ≤ b.NetworkID) :=
    ⟨fun a b c hab hbc => le_trans hab hbc⟩
  haveI : IsTotal networkTypeSection (fun a b => a.NetworkTypeID ≤ b.NetworkTypeID) :=
    ⟨fun a b => le_total a.NetworkTypeID b.NetworkTypeID⟩
  haveI : IsTrans networkTypeSection (fun a b => a.NetworkTypeID ≤ b.NetworkTypeID) :=
    ⟨fun a b c hab hbc => le_trans hab hbc⟩
  refine ⟨?_, ?_, ?_, ?_, ?_, ?_⟩
  · intro s1 s2 hperm hnd
    unfold buildNetworkTypeSection
    rw [insertionSort_eq_of_perm networkSection.NetworkID s1 s2 hperm hnd]
  · intro s nts hok
    unfold buildNetworkTypeSection at hok
    rw [newNetworkTypeSection_keeps codec reg ntid nt _ nts hok]
    exact ⟨List.perm_insertionSort _ s, List.sorted_insertionSort _ s⟩
  · exact newNetworkTypeSection_keeps codec reg ntid nt
  · intro t1 t2 hperm hnd
    unfold buildBTPSection
    rw [insertionSort_eq_of_perm networkTypeSection.NetworkTypeID t1 t2 hperm hnd]
    exact ⟨rfl, rfl, rfl⟩
  · intro t
    exact ⟨List.perm_insertionSort _ t, List.sorted_insertionSort _ t⟩
  · intro s1 s2 nts1 nts2 hperm hnd h1 h2
    unfold buildNetworkTypeSection at h1 h2
    rw [insertionSort_eq_of_perm networkSection.NetworkID s1 s2 hperm hnd, h2] at h1
    simp only [Except.ok.injEq] at h1
    subst h1
    exact ⟨rfl, rfl, rfl, rfl⟩

/-- Evaluation of C13, scenario S4: fed the sample sections of the network ids `[9, 3]` the
builder gives the type section it gives fed `[3, 9]`, with `NetworkSections()` in the order
`[3, 9]`, and the two BTP sections have the same digest bytes and hash. -/
theorem build_sort_determinism_witness :
    buildNetworkTypeSection sampleCodec sampleRegistry 1 ⟨"raw", [5]⟩
        [sampleSection9, sampleSection3]
      = buildNetworkTypeSection sampleCodec sampleRegistry 1 ⟨"raw", [5]⟩
        [sampleSection3, sampleSection9] ∧
    (buildNetworkTypeSection sampleCodec sampleRegistry 1 ⟨"raw", [5]⟩
        [sampleSection9, sampleSection3]).toOption.map
          (fun nts => nts.NetworkSections.map networkSection.NetworkID) = some [3, 9] ∧
    ((buildBTPSection [sampleTypeSection "raw" 2 [sampleSection9],
        sampleTypeSection "icon" 1 [sampleSection3]]).Digest.Bytes sampleCodec).1
      = ((buildBTPSection [sampleTypeSection "icon" 1 [sampleSection3],
        sampleTypeSection "raw" 2 [sampleSection9]]).Digest.Bytes sampleCodec).1 ∧
    (buildBTPSection [sampleTypeSection "raw" 2 [sampleSection9],
        sampleTypeSection "icon" 1 [sampleSection3]]).NetworkTypeSections.map
          networkTypeSection.NetworkTypeID = [1, 2] :=
  ⟨(build_sort_determinism sampleCodec sampleSHA3 sampleRegistry 1 ⟨"raw", [5]⟩).1
      [sampleSection9, sampleSection3] [sampleSection3, sampleSection9]
      (List.Perm.swap _ _ _) (by decide),
    by decide,
    ((build_sort_determinism sampleCodec sampleSHA3 sampleRegistry 1 ⟨"raw", [5]⟩).2.2.2.1
      [sampleTypeSection "raw" 2 [sampleSection9], sampleTypeSection "icon" 1 [sampleSection3]]
      [sampleTypeSection "icon" 1 [sampleSection3], sampleTypeSection "raw" 2 [sampleSection9]]
      (List.Perm.swap _ _ _) (by decide)).2.1,
    by decide⟩

/-- C14: for every BTP section whose network ids are bit indices of the filter (from `0` to
below `8 * nidFilterBytes`), `NetworkSectionFilter()` is a filter of `nidFilterBytes` bytes
in which bit `i` is set if and only if some network section of some type section has
`networkID == i`; with no network sections it is all zeros. -/
theorem networkSectionFilter_bits (codec : Codec) (sha3 : ByteString → ByteString) (n : Nat)
    (ntss : networkTypeSectionSlice) (bsd : btpSectionDigest)
    (h : DigestOf codec sha3 n ntss bsd)
    (hids : ∀ nts ∈ ntss, ∀ ns ∈ nts.NetworkSections,
      0 ≤ ns.NetworkID ∧ ns.NetworkID < ((8 * n : Nat) : Int)) :
    ∃ f : BitSetFilter, (bsd.NetworkSectionFilter n).1 = some f ∧
      f.bits.length = 8 * n ∧
      (∀ i : Int, 0 ≤ i → i < ((8 * n : Nat) : Int) →
        (f.Test i = true ↔ ∃ nts ∈ ntss, ∃ ns ∈ nts.NetworkSections, ns.NetworkID = i)) ∧
      ((∀ nts ∈ ntss, nts.NetworkSections = []) → f.bits = List.replicate (8 * n) false) := by
  have hc := coherent_of_digestOf codec sha3 n ntss bsd h
  obtain ⟨f, hf⟩ := networkSectionFilterLoop_succeeds ntss (MakeBitSetFilter n)
    (by rw [MakeBitSetFilter_length]; exact hids)
  have hv := (coherent_NetworkSectionFilter codec sha3 n ntss bsd hc).1 (by rw [hf])
  obtain ⟨hl, ht⟩ := networkSectionFilterLoop_spec ntss (MakeBitSetFilter n) f hf
  refine ⟨f, by rw [hv, hf], by rw [hl, MakeBitSetFilter_length], ?_, ?_⟩
  · intro i _ _
    rw [ht i, MakeBitSetFilter_Test]
    simp [networkTypeSection.NetworkSections]
  · intro hno
    have h2 := networkSectionFilterLoop_no_sections ntss (MakeBitSetFilter n) hno
    rw [hf] at h2
    simp only [Prod.mk.injEq, and_true] at h2
    rw [h2]
    rfl

/-- Evaluation of C14: a single network of id 7 and a filter of two bytes: only bit 7 is
set. -/
theorem networkSectionFilter_bits_witness :
    ∃ f : BitSetFilter,
      ((newBTPSection [sampleTypeSection "icon" 0 [sampleSection7]]).Digest.NetworkSectionFilter
        2).1 = some f ∧
      f.bits.length = 8 * 2 ∧
      (∀ i : Int, 0 ≤ i → i < ((8 * 2 : Nat) : Int) →
        (f.Test i = true ↔ ∃ nts ∈ [sampleTypeSection "icon" 0 [sampleSection7]],
          ∃ ns ∈ nts.NetworkSections, ns.NetworkID = i)) ∧
      ((∀ nts ∈ [sampleTypeSection "icon" 0 [sampleSection7]], nts.NetworkSections = []) →
        f.bits = List.replicate (8 * 2) false) :=
  networkSectionFilter_bits sampleCodec sampleSHA3 2
    [sampleTypeSection "icon" 0 [sampleSection7]] _ DigestOf.fresh
    (by
      intro nts hnts ns hns
      simp only [List.mem_singleton] at hnts
      subst hnts
      have e : (sampleTypeSection "icon" 0 [sampleSection7]).NetworkSections =
          [sampleSection7] := rfl
      rw [e, List.mem_singleton] at hns
      subst hns
      decide)

/-- C15: for every digest of a BTP section (also one with zero type sections), a second
call of `Bytes()`, `Hash()` and `NetworkTypeDigests()` returns the value the first call
returned, and leaves the digest as the first call left it. So does a second call of
`NetworkSectionFilter()`: whenever the first call returns a filter the second returns the
same one, and the second call leaves the digest as the first call left it. The first call
returns a filter whenever the network ids are bit indices of the filter (from `0` to below
`8 * nidFilterBytes`), so in particular with zero type sections. -/
theorem digest_memoization_stable (codec : Codec) (sha3 : ByteString → ByteString) (n : Nat)
    (bsd : btpSectionDigest) :
    (((bsd.Bytes codec).2.Bytes codec).1 = (bsd.Bytes codec).1 ∧
        ((bsd.Bytes codec).2.Bytes codec).2 = (bsd.Bytes codec).2) ∧
      (((bsd.Hash codec sha3).2.Hash codec sha3).1 = (bsd.Hash codec sha3).1 ∧
        ((bsd.Hash codec sha3).2.Hash codec sha3).2 = (bsd.Hash codec sha3).2) ∧
      (bsd.NetworkTypeDigests.2.NetworkTypeDigests.1 = bsd.NetworkTypeDigests.1 ∧
        bsd.NetworkTypeDigests.2.NetworkTypeDigests.2 = bsd.NetworkTypeDigests.2) ∧
      ((∀ f : BitSetFilter, (bsd.NetworkSectionFilter n).1 = some f →
          ((bsd.NetworkSectionFilter n).2.NetworkSectionFilter n).1 = some f) ∧
        ((bsd.NetworkSectionFilter n).2.NetworkSectionFilter n).2 =
          (bsd.NetworkSectionFilter n).2 ∧
        ((∀ nts ∈ bsd.bs, ∀ ns ∈ nts.NetworkSections,
            0 ≤ ns.NetworkID ∧ ns.NetworkID < ((8 * n : Nat) : Int)) →
          ∃ f : BitSetFilter, (bsd.NetworkSectionFilter n).1 = some f ∧
            ((bsd.NetworkSectionFilter n).2.NetworkSectionFilter n).1 = some f)) := by
  refine ⟨?_, ?_, ?_, ?_, ?_, ?_⟩
  · cases hb : bsd.bytes with
    | some b =>
      rw [Bytes_some codec bsd b hb]
      simp only [Bytes_some codec bsd b hb, and_self]
    | none =>
      rw [Bytes_none codec bsd hb]
      exact ⟨rfl, rfl⟩
  · cases hh : bsd.hash with
    | some x =>
      rw [Hash_some codec sha3 bsd x hh]
      simp only [Hash_some codec sha3 bsd x hh, and_self]
    | none =>
      rw [Hash_none codec sha3 bsd hh]
      exact ⟨rfl, rfl⟩
  · cases hd : bsd.networkTypeDigests with
    | some ds =>
      rw [NetworkTypeDigests_some bsd ds hd]
      simp only [NetworkTypeDigests_some bsd ds hd, and_self]
    | none =>
      rw [NetworkTypeDigests_none bsd hd]
      exact ⟨rfl, rfl⟩
  · intro f0 h0
    cases hf : bsd.filter with
    | some f =>
      rw [NetworkSectionFilter_some n bsd f hf] at h0 ⊢
      rw [NetworkSectionFilter_some n bsd f hf]
      exact h0
    | none =>
      cases hl : networkSectionFilterLoop bsd.bs (MakeBitSetFilter n) with
      | mk f ok =>
        cases ok with
        | true =>
          rw [NetworkSectionFilter_none_some n bsd f hf hl] at h0 ⊢
          exact h0
        | false =>
          rw [NetworkSectionFilter_none_none n bsd f hf hl] at h0
          cases h0
  · cases hf : bsd.filter with
    | some f =>
      rw [NetworkSectionFilter_some n bsd f hf]
      simp only [NetworkSectionFilter_some n bsd f hf]
    | none =>
      cases hl : networkSectionFilterLoop bsd.bs (MakeBitSetFilter n) with
      | mk f ok =>
        cases ok with
        | true =>
          rw [NetworkSectionFilter_none_some n bsd f hf hl]
          rfl
        | false =>
          rw [NetworkSectionFilter_none_none n bsd f hf hl]
          rfl
  · intro hids
    cases hf : bsd.filter with
    | some f =>
      rw [NetworkSectionFilter_some n bsd f hf]
      exact ⟨f, rfl, by rw [NetworkSectionFilter_some n bsd f hf]⟩
    | none =>
      obtain ⟨f, hl⟩ := networkSectionFilterLoop_succeeds bsd.bs (MakeBitSetFilter n)
        (by rw [MakeBitSetFilter_length]; exact hids)
      rw [NetworkSectionFilter_none_some n bsd f hf hl]
      exact ⟨f, rfl, rfl⟩

/-- Evaluation of C15: the digest of a single network of id 7, with a filter of two bytes:
both calls of `NetworkSectionFilter()` return the same filter. -/
theorem digest_memoization_stable_witness :
    ∃ f : BitSetFilter,
      ((newBTPSection [sampleTypeSection "icon" 0 [sampleSection7]]).Digest.NetworkSectionFilter
        2).1 = some f ∧
      (((newBTPSection [sampleTypeSection "icon" 0
        [sampleSection7]]).Digest.NetworkSectionFilter 2).2.NetworkSectionFilter 2).1 = some f :=
  (digest_memoization_stable sampleCodec sampleSHA3 2
    (newBTPSection [sampleTypeSection "icon" 0 [sampleSection7]]).Digest).2.2.2.2.2
    (by
      intro nts hnts ns hns
      have e1 : (newBTPSection [sampleTypeSection "icon" 0 [sampleSection7]]).Digest.bs
          = [sampleTypeSection "icon" 0 [sampleSection7]] := rfl
      rw [e1, List.mem_singleton] at hnts
      subst hnts
      have e : (sampleTypeSection "icon" 0 [sampleSection7]).NetworkSections =
          [sampleSection7] := rfl
      rw [e, List.mem_singleton] at hns
      subst hns
      decide)

/-- The order of the stores in `NetworkSectionFilter()`: with a filter of one byte and the
network ids 3 and 9, the `Set` of 9 has no result; the first call ends without a value, the
digest keeps the buffer with bit 3 set, and the second call returns that buffer. -/
theorem NetworkSectionFilter_after_failing_Set :
    ((newBTPSection [sampleTypeSection "icon" 0
        [sampleSection3, sampleSection9]]).Digest.NetworkSectionFilter 1).1.map
          BitSetFilter.bits = none ∧
    ((newBTPSection [sampleTypeSection "icon" 0
        [sampleSection3, sampleSection9]]).Digest.NetworkSectionFilter 1).2.filter.map
          BitSetFilter.bits = some [false, false, false, true, false, false, false, false] ∧
    (((newBTPSection [sampleTypeSection "icon" 0
        [sampleSection3, sampleSection9]]).Digest.NetworkSectionFilter
          1).2.NetworkSectionFilter 1).1.map BitSetFilter.bits
      = some [false, false, false, true, false, false, false, false] := by
  decide

/-! ## Flush on a store in which every operation succeeds -/

theorem putAll_append (s : Store) (a b : List Write) :
    s.putAll (a ++ b) = (s.putAll a).putAll b := by
  simp [Store.putAll, List.foldl_append]

theorem putAll_cons (s : Store) (w : Write) (ws : List Write) :
    s.putAll (w :: ws) = (s.put w).putAll ws := rfl

theorem Set_mapDatabase (s : Store) (log : List Write) (bk : BucketID) (k v : ByteString) :
    (mapDatabase s log).Set bk k v =
      (mapDatabase (s.put ⟨bk, k, v⟩) (log ++ [⟨bk, k, v⟩]), none) := rfl

theorem flushMessageLoop_mapDatabase (hc : hashesCat) (b : BucketID) (msgs : List ByteString)
    (i : Nat) (s : Store) (log : List Write) :
    flushMessageLoop hc (some b) i msgs (mapDatabase s log) =
      (mapDatabase
        (s.putAll ((List.range' i msgs.length).zipWith (fun j msg => ⟨b, hc.Get j, msg⟩) msgs))
        (log ++ (List.range' i msgs.length).zipWith (fun j msg => ⟨b, hc.Get j, msg⟩) msgs),
        .returned none) := by
  induction msgs generalizing i s log with
  | nil => simp [flushMessageLoop, Store.putAll]
  | cons m rest ih =>
    simp only [flushMessageLoop, Set_mapDatabase, ih, List.length_cons, List.range'_succ,
      List.zipWith_cons_cons, putAll_cons, List.append_assoc, List.singleton_append]

theorem flushMessages_mapDatabase (ns : networkSection) (s : Store) (log : List Write) :
    ns.flushMessages (mapDatabase s log) =
      (mapDatabase (s.putAll (specWritesOfSection ns)) (log ++ specWritesOfSection ns),
        .returned none) := by
  unfold networkSection.flushMessages
  have hg : ∀ (s1 : Store) (l1 : List Write) (id : BucketID),
      (mapDatabase s1 l1).GetBucket id = .ok id := fun _ _ _ => rfl
  simp only [hg, Set_mapDatabase, Except.toOption, flushMessageLoop_mapDatabase,
    specWritesOfSection, putAll_cons, List.range_eq_range', List.append_assoc,
    List.singleton_append]

theorem flushNetworkSections_mapDatabase (nss : List networkSection) (s : Store)
    (log : List Write) :
    flushNetworkSections nss (mapDatabase s log) =
      (mapDatabase (s.putAll (nss.map specWritesOfSection).flatten)
        (log ++ (nss.map specWritesOfSection).flatten), .returned none) := by
  induction nss generalizing s log with
  | nil => simp [flushNetworkSections, Store.putAll]
  | cons ns rest ih =>
    simp only [flushNetworkSections, flushMessages_mapDatabase, ih, List.map_cons,
      List.flatten_cons, putAll_append, List.append_assoc]

theorem flushNetworkTypeSections_mapDatabase (ntss : List networkTypeSection) (s : Store)
    (log : List Write) :
    flushNetworkTypeSections ntss (mapDatabase s log) =
      (mapDatabase
        (s.putAll (ntss.map fun nts => (nts.networkSections.map specWritesOfSection).flatten).flatten)
        (log ++ (ntss.map fun nts =>
          (nts.networkSections.map specWritesOfSection).flatten).flatten), .returned none) := by
  induction ntss generalizing s log with
  | nil => simp [flushNetworkTypeSections, Store.putAll]
  | cons nts rest ih =>
    simp only [flushNetworkTypeSections, networkTypeSection.flushMessages,
      flushNetworkSections_mapDatabase, ih, List.map_cons, List.flatten_cons, putAll_append,
      List.append_assoc]

theorem Flush_mapDatabase (codec : Codec) (sha3 : ByteString → ByteString)
    (bsd : btpSectionDigest) (s : Store) (log : List Write) :
    bsd.Flush codec sha3 (mapDatabase s log) =
      { db := mapDatabase
          (s.putAll (specWrites (bsd.Hash codec sha3).1 ((bsd.Hash codec sha3).2.Bytes codec).1
            ((bsd.Hash codec sha3).2.Bytes codec).2.bs))
          (log ++ specWrites (bsd.Hash codec sha3).1 ((bsd.Hash codec sha3).2.Bytes codec).1
            ((bsd.Hash codec sha3).2.Bytes codec).2.bs)
        digest := ((bsd.Hash codec sha3).2.Bytes codec).2
        outcome := .returned none } := by
  unfold btpSectionDigest.Flush
  have hg : (mapDatabase s log).GetBucket .BytesByHash = .ok .BytesByHash := rfl
  simp only [hg, Set_mapDatabase, flushNetworkTypeSections_mapDatabase, specWrites,
    putAll_cons, List.append_assoc, List.singleton_append]

theorem Flush_of_digestOf (codec : Codec) (sha3 : ByteString → ByteString) (n : Nat)
    (ntss : networkTypeSectionSlice) (bsd : btpSectionDigest)
    (h : DigestOf codec sha3 n ntss bsd) (s : Store) (log : List Write) :
    bsd.Flush codec sha3 (mapDatabase s log) =
      { db := mapDatabase
          (s.putAll (specWrites (bsd.Hash codec sha3).1 (bsd.Bytes codec).1 ntss))
          (log ++ specWrites (bsd.Hash codec sha3).1 (bsd.Bytes codec).1 ntss)
        digest := ((bsd.Hash codec sha3).2.Bytes codec).2
        outcome := .returned none } := by
  have hc := coherent_of_digestOf codec sha3 n ntss bsd h
  have hH := coherent_Hash codec sha3 n ntss bsd hc
  have hB := coherent_Bytes codec sha3 n ntss _ hH.2
  have hB0 := coherent_Bytes codec sha3 n ntss bsd hc
  rw [Flush_mapDatabase, hB.1, hB0.1, hB.2.1]

/-! ## The store after a list of writes -/

theorem putAll_apply (ws : List Write) (s : Store) (b : BucketID) (k : ByteString) :
    s.putAll ws b k =
      ws.foldl (fun acc w => if b = w.bucket ∧ k = w.key then some w.value else acc) (s b k) := by
  induction ws generalizing s with
  | nil => rfl
  | cons w rest ih =>
    rw [putAll_cons, ih, List.foldl_cons]
    rfl

theorem lastWrite_const_or_id (ws : List Write) (b : BucketID) (k : ByteString) :
    (∃ c, ∀ acc : Option ByteString,
        ws.foldl (fun a w => if b = w.bucket ∧ k = w.key then some w.value else a) acc = c) ∨
      (∀ acc : Option ByteString,
        ws.foldl (fun a w => if b = w.bucket ∧ k = w.key then some w.value else a) acc = acc) := by
  induction ws with
  | nil => exact Or.inr (fun _ => rfl)
  | cons w rest ih =>
    by_cases hm : b = w.bucket ∧ k = w.key
    · rcases ih with ⟨c, hc⟩ | hid
      · exact Or.inl ⟨c, fun acc => by rw [List.foldl_cons]; exact hc _⟩
      · exact Or.inl ⟨some w.value, fun acc => by rw [List.foldl_cons, hid, if_pos hm]⟩
    · rcases ih with ⟨c, hc⟩ | hid
      · exact Or.inl ⟨c, fun acc => by rw [List.foldl_cons]; exact hc _⟩
      · exact Or.inr (fun acc => by rw [List.foldl_cons, hid, if_neg hm])

theorem putAll_idempotent (s : Store) (ws : List Write) :
    (s.putAll ws).putAll ws = s.putAll ws := by
  funext b k
  rw [putAll_apply ws (s.putAll ws), putAll_apply ws s]
  rcases lastWrite_const_or_id ws b k with ⟨c, hc⟩ | hid
  · rw [hc, hc]
  · rw [hid, hid]

theorem lastWrite_keeps (ws : List Write) (b : BucketID) (k v : ByteString)
    (hall : ∀ w ∈ ws, w.bucket = b → w.key = k → w.value = v) :
    ws.foldl (fun a w => if b = w.bucket ∧ k = w.key then some w.value else a) (some v) =
      some v := by
  induction ws with
  | nil => rfl
  | cons w rest ih =>
    rw [List.foldl_cons]
    have hrest := ih (fun x hx => hall x (List.mem_cons_of_mem _ hx))
    by_cases hm : b = w.bucket ∧ k = w.key
    · rw [if_pos hm, hall w (List.mem_cons_self _ _) hm.1.symm hm.2.symm]
      exact hrest
    · rw [if_neg hm]
      exact hrest

theorem lastWrite_of_mem (ws : List Write) (b : BucketID) (k v : ByteString)
    (hall : ∀ w ∈ ws, w.bucket = b → w.key = k → w.value = v)
    (hex : ∃ w ∈ ws, w.bucket = b ∧ w.key = k) (acc : Option ByteString) :
    ws.foldl (fun a w => if b = w.bucket ∧ k = w.key then some w.value else a) acc =
      some v := by
  induction ws generalizing acc with
  | nil =>
    obtain ⟨w, hw, -⟩ := hex
    cases hw
  | cons w rest ih =>
    rw [List.foldl_cons]
    have hall2 : ∀ x ∈ rest, x.bucket = b → x.key = k → x.value = v :=
      fun x hx => hall x (List.mem_cons_of_mem _ hx)
    by_cases hm : b = w.bucket ∧ k = w.key
    · rw [if_pos hm, hall w (List.mem_cons_self _ _) hm.1.symm hm.2.symm]
      exact lastWrite_keeps rest b k v hall2
    · rw [if_neg hm]
      apply ih hall2
      obtain ⟨x, hx, hxb, hxk⟩ := hex
      rcases List.mem_cons.mp hx with rfl | hx
      · exact absurd ⟨hxb.symm, hxk.symm⟩ hm
      · exact ⟨x, hx, hxb, hxk⟩

theorem putAll_of_mem (s : Store) (ws : List Write) (hagree : writesAgree ws) (w : Write)
    (hw : w ∈ ws) : s.putAll ws w.bucket w.key = some w.value := by
  rw [putAll_apply]
  exact lastWrite_of_mem ws w.bucket w.key w.value
    (fun x hx hb hk => hagree x hx w hw hb hk) ⟨w, hw, rfl, rfl⟩ _

theorem mem_zipWith_range (f : Nat → ByteString → Write) (msgs : List ByteString) (i : Nat)
    (hi : i < msgs.length) :
    f i msgs[i] ∈ (List.range msgs.length).zipWith f msgs := by
  rw [List.mem_iff_getElem]
  refine ⟨i, by simpa using hi, ?_⟩
  simp

theorem mem_specWrites_of_section (dh db : ByteString) (ntss : networkTypeSectionSlice)
    (nts : networkTypeSection) (hnts : nts ∈ ntss) (ns : networkSection)
    (hns : ns ∈ nts.networkSections) (w : Write) (hw : w ∈ specWritesOfSection ns) :
    w ∈ specWrites dh db ntss := by
  unfold specWrites
  apply List.mem_cons_of_mem
  rw [List.mem_flatten]
  refine ⟨_, List.mem_map.mpr ⟨nts, hnts, rfl⟩, ?_⟩
  rw [List.mem_flatten]
  exact ⟨_, List.mem_map.mpr ⟨ns, hns, rfl⟩, hw⟩

theorem mem_specWrites_iff (dh db : ByteString) (ntss : networkTypeSectionSlice) (w : Write) :
    w ∈ specWrites dh db ntss ↔
      w = ⟨.BytesByHash, dh, db⟩ ∨
        ∃ nts ∈ ntss, ∃ ns ∈ nts.networkSections, w ∈ specWritesOfSection ns := by
  unfold specWrites
  simp only [List.mem_cons, List.mem_flatten, List.mem_map]
  constructor
  · rintro (h | ⟨l, ⟨nts, hnts, rfl⟩, hw⟩)
    · exact Or.inl h
    · rw [List.mem_flatten] at hw
      obtain ⟨l2, hl2, hw2⟩ := hw
      obtain ⟨ns, hns, rfl⟩ := List.mem_map.mp hl2
      exact Or.inr ⟨nts, hnts, ns, hns, hw2⟩
  · rintro (h | ⟨nts, hnts, ns, hns, hw⟩)
    · exact Or.inl h
    · refine Or.inr ⟨_, ⟨nts, hnts, rfl⟩, ?_⟩
      rw [List.mem_flatten]
      exact ⟨_, List.mem_map.mpr ⟨ns, hns, rfl⟩, hw⟩

theorem mem_specWritesOfSection_iff (ns : networkSection) (w : Write) :
    w ∈ specWritesOfSection ns ↔
      w = ⟨.ListByMerkleRootFor ns.mod.UID, ns.messagesRoot, ns.messageHashes.Bytes⟩ ∨
        ∃ (i : Nat) (hi : i < ns.messages.length),
          w = ⟨.BytesByHashFor ns.mod.UID, ns.messageHashes.Get i, ns.messages[i]⟩ := by
  unfold specWritesOfSection
  rw [List.mem_cons, List.mem_iff_getElem]
  constructor
  · rintro (h | ⟨i, hi, rfl⟩)
    · exact Or.inl h
    · have hi2 : i < ns.messages.length := by simpa using hi
      exact Or.inr ⟨i, hi2, by simp⟩
  · rintro (h | ⟨i, hi, rfl⟩)
    · exact Or.inl h
    · exact Or.inr ⟨i, by simpa using hi, by simp⟩

/-! ## Flush: writes, failures, round trip, idempotence, keys -/

/-- C16: on a store that is a map per bucket in which every operation succeeds,
`Digest().Flush` returns `nil` and performs exactly these writes in this order:
`BytesByHash[Digest().Hash()] = Digest().Bytes()`, then for each type section in order and
each of its network sections in order the hash list under `messagesRoot` in the
`ListByMerkleRoot` bucket of the UID, followed by `messages[i]` under `messageHashes[i]` in
the `BytesByHash` bucket of the UID for each `i` in message order. -/
theorem Flush_writes (codec : Codec) (sha3 : ByteString → ByteString) (n : Nat)
    (ntss : networkTypeSectionSlice) (bsd : btpSectionDigest)
    (h : DigestOf codec sha3 n ntss bsd) (s : Store) (log : List Write) :
    (bsd.Flush codec sha3 (mapDatabase s log)).outcome = .returned none ∧
      (bsd.Flush codec sha3 (mapDatabase s log)).db.writes =
        log ++ ({ bucket := .BytesByHash, key := (bsd.Hash codec sha3).1,
                  value := (bsd.Bytes codec).1 } ::
          (ntss.map fun nts => (nts.NetworkSections.map fun ns =>
            ({ bucket := .ListByMerkleRootFor ns.mod.UID, key := ns.MessagesRoot,
               value := ns.messageHashes.Bytes } : Write) ::
            (List.range ns.messages.length).zipWith
              (fun i msg => { bucket := .BytesByHashFor ns.mod.UID,
                              key := ns.messageHashes.Get i, value := msg })
              ns.messages).flatten).flatten) ∧
      (bsd.Flush codec sha3 (mapDatabase s log)).db.buckets =
        s.putAll (specWrites (bsd.Hash codec sha3).1 (bsd.Bytes codec).1 ntss) := by
  rw [Flush_of_digestOf codec sha3 n ntss bsd h s log]
  exact ⟨rfl, rfl, rfl⟩

/-- Evaluation of C16: the writes of a BTP section over the sample network sections 3
and 9. -/
theorem Flush_writes_witness :
    ((newBTPSection [sampleTypeSection "icon" 1 [sampleSection3, sampleSection9]]).Digest.Flush
        sampleCodec sampleSHA3 (mapDatabase emptyStore [])).db.writes.map
          (fun w => (w.bucket, w.value)) =
      [(.BytesByHash, ((newBTPSection [sampleTypeSection "icon" 1
          [sampleSection3, sampleSection9]]).Digest.Bytes sampleCodec).1),
        (.ListByMerkleRootFor "icon", sampleModule.Hash [0xAA]),
        (.BytesByHashFor "icon", [0xAA]),
        (.ListByMerkleRootFor "icon", sampleModule.Hash [1] ++ sampleModule.Hash [2]),
        (.BytesByHashFor "icon", [1]),
        (.BytesByHashFor "icon", [2])] := by
  rw [(Flush_writes sampleCodec sampleSHA3 2
    [sampleTypeSection "icon" 1 [sampleSection3, sampleSection9]] _ DigestOf.fresh
    emptyStore []).2.1]
  decide

/-- C17, evaluated where the code departs from it: opening `BytesByHashFor("icon")` fails.
For a network section without messages `Flush` returns `nil` and goes on to write the next
network section; for a network section with a message it calls `Set` on the bucket the
failed `GetBucket` gave instead of returning the error. -/
theorem Flush_unchecked_open_error :
    failingDatabase.GetBucket (.BytesByHashFor "icon") = .error "open failed" ∧
      ((newBTPSection [sampleTypeSection "icon" 1 [emptySection]]).Digest.Flush
        sampleCodec sampleSHA3 failingDatabase).outcome = .returned none ∧
      ((newBTPSection [sampleTypeSection "icon" 1 [emptySection],
          sampleTypeSection "raw" 2 [unevenSection]]).Digest.Flush
        sampleCodec sampleSHA3 failingDatabase).outcome = .returned none ∧
      (((newBTPSection [sampleTypeSection "icon" 1 [emptySection],
          sampleTypeSection "raw" 2 [unevenSection]]).Digest.Flush
        sampleCodec sampleSHA3 failingDatabase).db.writes.map fun w => w.bucket) =
        [.BytesByHash, .ListByMerkleRootFor "icon", .ListByMerkleRootFor "raw",
          .BytesByHashFor "raw", .BytesByHashFor "raw"] ∧
      ((newBTPSection [sampleTypeSection "icon" 1 [sampleSection3]]).Digest.Flush
        sampleCodec sampleSHA3 failingDatabase).outcome = .nilBucket :=
  ⟨rfl, by decide⟩

/-- C18 fails as stated: the two messages `[1, 2]` and `[2, 1]` of one section have the same
sample hash, `Flush` succeeds, and the store holds `[2, 1]` under that hash: message 0 does
not come back. -/
theorem roundTrip_counterexample :
    ((newBTPSection [sampleTypeSection "icon" 1 [collidingSection]]).Digest.Flush
        sampleCodec sampleSHA3 (mapDatabase emptyStore [])).outcome = .returned none ∧
      collidingSection.MessageCount = 2 ∧
      collidingSection.messages[0]? = some [1, 2] ∧
      ((newBTPSection [sampleTypeSection "icon" 1 [collidingSection]]).Digest.Flush
        sampleCodec sampleSHA3 (mapDatabase emptyStore [])).db.buckets
          (.BytesByHashFor collidingSection.mod.UID) (collidingSection.messageHashes.Get 0) =
        some [2, 1] := by
  decide

theorem digest_values_of_digestOf (codec : Codec) (sha3 : ByteString → ByteString) (n : Nat)
    (ntss : networkTypeSectionSlice) (bsd : btpSectionDigest)
    (h : DigestOf codec sha3 n ntss bsd) :
    (bsd.Hash codec sha3).1 = sha3 (codec.MarshalToBytes (specDigest ntss)) ∧
      (bsd.Bytes codec).1 = codec.MarshalToBytes (specDigest ntss) :=
  ⟨(coherent_Hash codec sha3 n ntss bsd (coherent_of_digestOf codec sha3 n ntss bsd h)).1,
    (coherent_Bytes codec sha3 n ntss bsd (coherent_of_digestOf codec sha3 n ntss bsd h)).1⟩

theorem appendAll_uniform_Get (mod : NetworkTypeModule) (msgs : List ByteString) (w n : Nat)
    (hw : ∀ m, (mod.Hash m).length = w) (i : Nat) (hi : i < msgs.length) :
    (appendAll mod (makeHashesCat n) msgs).Get i = mod.Hash msgs[i] := by
  cases msgs with
  | nil => simp at hi
  | cons m ms =>
    have hB := appendAll_Bytes mod (m :: ms) (makeHashesCat n) w hw (Or.inl rfl)
    have hL := appendAll_hashLen_fresh mod m ms n
    rw [hw m] at hL
    have hB2 : (appendAll mod (makeHashesCat n) (m :: ms)).Bytes
        = ((m :: ms).map mod.Hash).flatten := by
      rw [hB]; simp [makeHashesCat]
    have hs := slice_uniform ((m :: ms).map mod.Hash) w
      (by intro h hh; obtain ⟨x, _, rfl⟩ := List.mem_map.mp hh; exact hw x) i
      (by simpa using hi)
    simp only [hashesCat.Get, hL, hB2]
    rw [hs, List.getElem_map]

/-- C18 (amended): after `Digest().Flush(db)` on a map-like store, provided no two writes of
the `Flush` put different values under one key of one bucket (no collision of message hashes
or Merkle roots within a UID), for every network section `ns` of the BTP section the value
stored at `messagesRoot` in the `ListByMerkleRoot` bucket of its UID is the hash list,
`ns.MessageList(db, module of ns)` reads that list, and for every `i < len(messages)` the
value stored under the `i`-th hash in the `BytesByHash` bucket of the UID is `messages[i]`. -/
theorem Flush_round_trip (codec : Codec) (sha3 : ByteString → ByteString) (n : Nat)
    (ntss : networkTypeSectionSlice) (bsd : btpSectionDigest)
    (h : DigestOf codec sha3 n ntss bsd) (s : Store)
    (hagree : writesAgree (bsd.Flush codec sha3 (mapDatabase s [])).db.writes) :
    (bsd.Flush codec sha3 (mapDatabase s [])).outcome = .returned none ∧
      ∀ nts ∈ ntss, ∀ ns ∈ nts.NetworkSections,
        (bsd.Flush codec sha3 (mapDatabase s [])).db.buckets
            (.ListByMerkleRootFor ns.mod.UID) ns.MessagesRoot = some ns.messageHashes.Bytes ∧
          (∃ ml, ns.MessageList (bsd.Flush codec sha3 (mapDatabase s [])).db ns.mod = .ok ml ∧
            ml.messageHashes = some ns.messageHashes.Bytes) ∧
          ∀ (i : Nat) (hi : i < ns.messages.length),
            (bsd.Flush codec sha3 (mapDatabase s [])).db.buckets
              (.BytesByHashFor ns.mod.UID) (ns.messageHashes.Get i) = some ns.messages[i] := by
  rw [Flush_of_digestOf codec sha3 n ntss bsd h s []] at hagree ⊢
  simp only [mapDatabase, List.nil_append] at hagree
  refine ⟨rfl, ?_⟩
  intro nts hnts ns hns
  have hroot : (s.putAll (specWrites (bsd.Hash codec sha3).1 (bsd.Bytes codec).1 ntss))
      (.ListByMerkleRootFor ns.mod.UID) ns.MessagesRoot = some ns.messageHashes.Bytes :=
    putAll_of_mem s _ hagree
      ⟨.ListByMerkleRootFor ns.mod.UID, ns.messagesRoot, ns.messageHashes.Bytes⟩
      (mem_specWrites_of_section _ _ ntss nts hnts ns hns _
        ((mem_specWritesOfSection_iff ns _).mpr (Or.inl rfl)))
  refine ⟨hroot, ⟨⟨some ns.messageHashes.Bytes, ns.mod⟩, ?_, rfl⟩, ?_⟩
  · have hroot2 := hroot
    simp only [networkSection.MessagesRoot] at hroot2
    simp only [networkSection.MessageList, Database.GetBucket, Database.Get, mapDatabase,
      hroot2]
  · intro i hi
    exact putAll_of_mem s _ hagree
      ⟨.BytesByHashFor ns.mod.UID, ns.messageHashes.Get i, ns.messages[i]⟩
      (mem_specWrites_of_section _ _ ntss nts hnts ns hns _
        ((mem_specWritesOfSection_iff ns _).mpr (Or.inr ⟨i, hi, rfl⟩)))

/-- Evaluation of C18 (amended): the sample network sections 3 and 9, whose hashes and roots
differ. -/
theorem Flush_round_trip_witness :
    ((newBTPSection [sampleTypeSection "icon" 1 [sampleSection3, sampleSection9]]).Digest.Flush
        sampleCodec sampleSHA3 (mapDatabase emptyStore [])).outcome = .returned none ∧
      ∀ nts ∈ [sampleTypeSection "icon" 1 [sampleSection3, sampleSection9]],
        ∀ ns ∈ nts.NetworkSections,
        ((newBTPSection [sampleTypeSection "icon" 1 [sampleSection3,
            sampleSection9]]).Digest.Flush sampleCodec sampleSHA3
              (mapDatabase emptyStore [])).db.buckets
            (.ListByMerkleRootFor ns.mod.UID) ns.MessagesRoot = some ns.messageHashes.Bytes ∧
          (∃ ml, ns.MessageList ((newBTPSection [sampleTypeSection "icon" 1 [sampleSection3,
              sampleSection9]]).Digest.Flush sampleCodec sampleSHA3
                (mapDatabase emptyStore [])).db ns.mod = .ok ml ∧
            ml.messageHashes = some ns.messageHashes.Bytes) ∧
          ∀ (i : Nat) (hi : i < ns.messages.length),
            ((newBTPSection [sampleTypeSection "icon" 1 [sampleSection3,
                sampleSection9]]).Digest.Flush sampleCodec sampleSHA3
                  (mapDatabase emptyStore [])).db.buckets
              (.BytesByHashFor ns.mod.UID) (ns.messageHashes.Get i) = some ns.messages[i] :=
  Flush_round_trip sampleCodec sampleSHA3 2
    [sampleTypeSection "icon" 1 [sampleSection3, sampleSection9]] _ DigestOf.fresh emptyStore
    (by decide)

/-- C19: for every BTP section and every initial state of a map-like store, running
`Digest().Flush` twice succeeds twice and leaves every bucket in exactly the state it had
after the first `Flush`. -/
theorem Flush_idempotent (codec : Codec) (sha3 : ByteString → ByteString) (n : Nat)
    (ntss : networkTypeSectionSlice) (bsd : btpSectionDigest)
    (h : DigestOf codec sha3 n ntss bsd) (s : Store) (log : List Write) :
    (bsd.Flush codec sha3 (mapDatabase s log)).outcome = .returned none ∧
      ((bsd.Flush codec sha3 (mapDatabase s log)).digest.Flush codec sha3
        (bsd.Flush codec sha3 (mapDatabase s log)).db).outcome = .returned none ∧
      ((bsd.Flush codec sha3 (mapDatabase s log)).digest.Flush codec sha3
        (bsd.Flush codec sha3 (mapDatabase s log)).db).db.buckets =
        (bsd.Flush codec sha3 (mapDatabase s log)).db.buckets := by
  have h2 : DigestOf codec sha3 n ntss ((bsd.Hash codec sha3).2.Bytes codec).2 :=
    DigestOf.afterBytes (DigestOf.afterHash h)
  obtain ⟨hH, hB⟩ := digest_values_of_digestOf codec sha3 n ntss bsd h
  obtain ⟨hH2, hB2⟩ := digest_values_of_digestOf codec sha3 n ntss _ h2
  have e2 := Flush_of_digestOf codec sha3 n ntss _ h2
    (s.putAll (specWrites (bsd.Hash codec sha3).1 (bsd.Bytes codec).1 ntss))
    (log ++ specWrites (bsd.Hash codec sha3).1 (bsd.Bytes codec).1 ntss)
  rw [Flush_of_digestOf codec sha3 n ntss bsd h s log]
  refine ⟨rfl, ?_, ?_⟩
  · show (btpSectionDigest.Flush codec sha3 ((bsd.Hash codec sha3).2.Bytes codec).2
      (mapDatabase (s.putAll (specWrites (bsd.Hash codec sha3).1 (bsd.Bytes codec).1 ntss))
        (log ++ specWrites (bsd.Hash codec sha3).1 (bsd.Bytes codec).1 ntss))).outcome = _
    rw [e2]
  · show (btpSectionDigest.Flush codec sha3 ((bsd.Hash codec sha3).2.Bytes codec).2
      (mapDatabase (s.putAll (specWrites (bsd.Hash codec sha3).1 (bsd.Bytes codec).1 ntss))
        (log ++ specWrites (bsd.Hash codec sha3).1 (bsd.Bytes codec).1 ntss))).db.buckets =
      s.putAll (specWrites (bsd.Hash codec sha3).1 (bsd.Bytes codec).1 ntss)
    rw [e2]
    show (s.putAll _).putAll _ = _
    rw [hH, hB, hH2, hB2]
    exact putAll_idempotent s _

/-- Evaluation of C19: flushing the sample BTP section twice into the empty store. -/
theorem Flush_idempotent_witness :
    (((newBTPSection [sampleTypeSection "icon" 1 [collidingSection]]).Digest.Flush
        sampleCodec sampleSHA3 (mapDatabase emptyStore [])).digest.Flush sampleCodec sampleSHA3
      ((newBTPSection [sampleTypeSection "icon" 1 [collidingSection]]).Digest.Flush
        sampleCodec sampleSHA3 (mapDatabase emptyStore [])).db).db.buckets =
      ((newBTPSection [sampleTypeSection "icon" 1 [collidingSection]]).Digest.Flush
        sampleCodec sampleSHA3 (mapDatabase emptyStore [])).db.buckets :=
  (Flush_idempotent sampleCodec sampleSHA3 2 [sampleTypeSection "icon" 1 [collidingSection]]
    _ DigestOf.fresh emptyStore []).2.2

/-- C20: for a BTP section whose network sections were built by `newNetworkSection`, each
with a module (one whose hashes all have the same width, not zero), every key `Flush`
writes is the hash of the value written under it: the `BytesByHash` key is SHA3-256 of the
stored digest bytes, each per-UID `BytesByHash` key is the `Hash` of the section module of
the stored message, and each `ListByMerkleRoot` key is the `MerkleRoot` of that module of
the stored hash list, which is the list of the message hashes. -/
theorem Flush_keys_are_hashes (codec : Codec) (sha3 : ByteString → ByteString) (n : Nat)
    (ntss : networkTypeSectionSlice) (bsd : btpSectionDigest)
    (h : DigestOf codec sha3 n ntss bsd) (s : Store)
    (hbuilt : ∀ nts ∈ ntss, ∀ ns ∈ nts.NetworkSections, builtWithUniformHashes codec ns) :
    ∀ w ∈ (bsd.Flush codec sha3 (mapDatabase s [])).db.writes,
      (w.bucket = .BytesByHash → w.key = sha3 w.value) ∧
      (∀ uid, w.bucket = .BytesByHashFor uid →
        ∃ nts ∈ ntss, ∃ ns ∈ nts.NetworkSections,
          ns.mod.UID = uid ∧ w.key = ns.mod.Hash w.value) ∧
      (∀ uid, w.bucket = .ListByMerkleRootFor uid →
        ∃ nts ∈ ntss, ∃ ns ∈ nts.NetworkSections,
          ns.mod.UID = uid ∧ w.value = (ns.messages.map ns.mod.Hash).flatten ∧
            w.key = ns.mod.MerkleRoot (ns.messages.map ns.mod.Hash)) := by
  obtain ⟨hH, hB⟩ := digest_values_of_digestOf codec sha3 n ntss bsd h
  rw [Flush_of_digestOf codec sha3 n ntss bsd h s []]
  simp only [mapDatabase, List.nil_append]
  intro w hw
  rcases (mem_specWrites_iff _ _ ntss w).mp hw with rfl | ⟨nts, hnts, ns, hns, hws⟩
  · refine ⟨fun _ => ?_, fun uid hb => ?_, fun uid hb => ?_⟩
    · show (bsd.Hash codec sha3).1 = sha3 (bsd.Bytes codec).1
      rw [hH, hB]
    · cases hb
    · cases hb
  · obtain ⟨nid, nw, ne, mod, wd, hpos, hwd, rfl⟩ := hbuilt nts hnts ns hns
    have hu := appendAll_uniform mod ne.messages wd ne.messages.length hpos hwd
    rcases (mem_specWritesOfSection_iff _ w).mp hws with rfl | ⟨i, hi, rfl⟩
    · refine ⟨?_, ?_, ?_⟩
      · intro hb
        cases hb
      · intro uid hb
        cases hb
      intro uid hb
      refine ⟨nts, hnts, _, hns, ?_, ?_, ?_⟩
      · simp only [BucketID.ListByMerkleRootFor.injEq] at hb
        exact hb
      · show (appendAll mod (makeHashesCat ne.messages.length) ne.messages).Bytes = _
        rw [appendAll_Bytes mod ne.messages _ wd hwd (Or.inl rfl)]
        simp [makeHashesCat, newNetworkSection]
      · show mod.MerkleRoot (appendAll mod (makeHashesCat ne.messages.length) ne.messages).items
          = _
        rw [hu.2]
        rfl
    · refine ⟨?_, ?_, ?_⟩
      · intro hb
        cases hb
      rotate_left
      · intro uid hb
        cases hb
      intro uid hb
      refine ⟨nts, hnts, _, hns, ?_, ?_⟩
      · simp only [BucketID.BytesByHashFor.injEq] at hb
        exact hb
      · exact appendAll_uniform_Get mod ne.messages wd ne.messages.length hwd i hi

/-- Evaluation of C20: the sample network sections 3 and 9, built with the sample module of
2-byte hashes. -/
theorem Flush_keys_are_hashes_witness :
    ∃ nts ∈ [sampleTypeSection "icon" 1 [sampleSection3, sampleSection9]],
      ∃ ns ∈ nts.NetworkSections, ns.mod.UID = "icon" ∧
        (⟨.BytesByHashFor "icon", sampleModule.Hash [0xAA], [0xAA]⟩ : Write).key =
          ns.mod.Hash (⟨.BytesByHashFor "icon", sampleModule.Hash [0xAA], [0xAA]⟩ : Write).value :=
  (Flush_keys_are_hashes sampleCodec sampleSHA3 2
    [sampleTypeSection "icon" 1 [sampleSection3, sampleSection9]] _ DigestOf.fresh emptyStore
    (by
      intro nts hnts ns hns
      simp only [List.mem_singleton] at hnts
      subst hnts
      have e : (sampleTypeSection "icon" 1 [sampleSection3, sampleSection9]).NetworkSections =
          [sampleSection3, sampleSection9] := rfl
      rw [e] at hns
      rcases List.mem_cons.mp hns with rfl | hns
      · exact ⟨3, ⟨1, false, []⟩, ⟨[[0xAA]]⟩, sampleModule, 2, by decide,
          sampleModule_hash_length, rfl⟩
      · rw [List.mem_singleton] at hns
        subst hns
        exact ⟨9, ⟨2, true, []⟩, ⟨[[1], [2]]⟩, sampleModule, 2, by decide,
          sampleModule_hash_length, rfl⟩)
    ⟨.BytesByHashFor "icon", sampleModule.Hash [0xAA], [0xAA]⟩ (by decide)).2.1 "icon" rfl


/-! ## Flush on any store: what it can change -/

theorem After_refl (db : Database) : db.After [] db :=
  ⟨by simp, rfl, rfl, rfl, rfl⟩

theorem After_trans {db1 db2 db3 : Database} {ws1 ws2 : List Write}
    (h1 : db1.After ws1 db2) (h2 : db2.After ws2 db3) : db1.After (ws1 ++ ws2) db3 := by
  obtain ⟨a1, b1, c1, d1, e1⟩ := h1
  obtain ⟨a2, b2, c2, d2, e2⟩ := h2
  refine ⟨by rw [a2, a1, List.append_assoc], by rw [b2, b1, putAll_append], ?_, ?_, ?_⟩
  · rw [c2, c1]
  · rw [d2, d1]
  · rw [e2, e1]

theorem Set_After (db : Database) (bk : BucketID) (k v : ByteString) :
    ((db.Set bk k v).2 = none ∧ db.After [⟨bk, k, v⟩] (db.Set bk k v).1) ∨
      ((db.Set bk k v).2 ≠ none ∧ (db.Set bk k v).1 = db) := by
  unfold Database.Set
  cases h : db.setError bk k v with
  | some err => exact Or.inr ⟨by simp, rfl⟩
  | none => exact Or.inl ⟨rfl, rfl, rfl, rfl, rfl, rfl⟩

theorem flushMessageLoop_After (hc : hashesCat) (bk : Option BucketID) (b : BucketID)
    (msgs : List ByteString) (i : Nat) (db : Database) (hb : ∀ x, bk = some x → x = b) :
    ∃ ws, db.After ws (flushMessageLoop hc bk i msgs db).1 ∧
      ws ⊆ (List.range' i msgs.length).zipWith (fun j msg => ⟨b, hc.Get j, msg⟩) msgs := by
  induction msgs generalizing i db with
  | nil => exact ⟨[], After_refl db, List.nil_subset _⟩
  | cons m rest ih =>
    cases bk with
    | none => exact ⟨[], After_refl db, List.nil_subset _⟩
    | some x =>
      have hx : x = b := hb x rfl
      subst hx
      simp only [flushMessageLoop]
      rcases Set_After db x (hc.Get i) m with ⟨he, ha⟩ | ⟨he, hd⟩
      · obtain ⟨ws, hws, hpre⟩ := ih (i + 1) (db.Set x (hc.Get i) m).1
        have e : db.Set x (hc.Get i) m = ((db.Set x (hc.Get i) m).1, none) :=
          Prod.ext rfl he
        rw [e]
        refine ⟨_ :: ws, After_trans ha hws, ?_⟩
        simp only [List.length_cons, List.range'_succ, List.zipWith_cons_cons]
        exact List.cons_subset_cons _ hpre
      · cases hs : (db.Set x (hc.Get i) m).2 with
        | none => exact absurd hs he
        | some err =>
          have e : db.Set x (hc.Get i) m = (db, some err) := Prod.ext hd hs
          rw [e]
          exact ⟨[], After_refl db, List.nil_subset _⟩

theorem flushMessages_After (ns : networkSection) (db : Database) :
    ∃ ws, db.After ws (ns.flushMessages db).1 ∧ ws ⊆ specWritesOfSection ns := by
  unfold networkSection.flushMessages
  cases hg : db.GetBucket (.ListByMerkleRootFor ns.mod.UID) with
  | error err => exact ⟨[], After_refl db, List.nil_subset _⟩
  | ok bk =>
    have hbk : bk = .ListByMerkleRootFor ns.mod.UID := by
      unfold Database.GetBucket at hg
      cases ho : db.openError (.ListByMerkleRootFor ns.mod.UID) with
      | some e => simp [ho] at hg
      | none =>
        simp only [ho, Except.ok.injEq] at hg
        exact hg.symm
    subst hbk
    simp only
    rcases Set_After db (.ListByMerkleRootFor ns.mod.UID) ns.messagesRoot ns.messageHashes.Bytes
      with ⟨he, ha⟩ | ⟨he, hd⟩
    · have e : db.Set (.ListByMerkleRootFor ns.mod.UID) ns.messagesRoot ns.messageHashes.Bytes =
          ((db.Set (.ListByMerkleRootFor ns.mod.UID) ns.messagesRoot
            ns.messageHashes.Bytes).1, none) := Prod.ext rfl he
      rw [e]
      simp only
      obtain ⟨ws, hws, hpre⟩ := flushMessageLoop_After ns.messageHashes
        ((db.Set (.ListByMerkleRootFor ns.mod.UID) ns.messagesRoot
          ns.messageHashes.Bytes).1.GetBucket (.BytesByHashFor ns.mod.UID)).toOption
        (.BytesByHashFor ns.mod.UID) ns.messages 0
        (db.Set (.ListByMerkleRootFor ns.mod.UID) ns.messagesRoot ns.messageHashes.Bytes).1
        (by
          intro x hx
          unfold Database.GetBucket at hx
          cases ho : (db.Set (.ListByMerkleRootFor ns.mod.UID) ns.messagesRoot
            ns.messageHashes.Bytes).1.openError (.BytesByHashFor ns.mod.UID) with
          | some e2 => simp [ho, Except.toOption] at hx
          | none =>
            simp only [ho, Except.toOption, Option.some.injEq] at hx
            exact hx.symm)
      refine ⟨_ :: ws, After_trans ha hws, ?_⟩
      unfold specWritesOfSection
      rw [List.range_eq_range']
      exact List.cons_subset_cons _ hpre
    · cases hs : (db.Set (.ListByMerkleRootFor ns.mod.UID) ns.messagesRoot
          ns.messageHashes.Bytes).2 with
      | none => exact absurd hs he
      | some err =>
        have e : db.Set (.ListByMerkleRootFor ns.mod.UID) ns.messagesRoot
            ns.messageHashes.Bytes = (db, some err) := Prod.ext hd hs
        rw [e]
        exact ⟨[], After_refl db, List.nil_subset _⟩

theorem flushNetworkSections_After (nss : List networkSection) (db : Database) :
    ∃ ws, db.After ws (flushNetworkSections nss db).1 ∧
      ws ⊆ (nss.map specWritesOfSection).flatten := by
  induction nss generalizing db with
  | nil => exact ⟨[], After_refl db, List.nil_subset _⟩
  | cons ns rest ih =>
    obtain ⟨ws1, h1, p1⟩ := flushMessages_After ns db
    simp only [flushNetworkSections, List.map_cons, List.flatten_cons]
    cases hr : ns.flushMessages db with
    | mk db1 out =>
      rw [hr] at h1
      cases out with
      | nilBucket => exact ⟨ws1, h1, List.subset_append_of_subset_left _ p1⟩
      | returned err =>
        cases err with
        | some e => exact ⟨ws1, h1, List.subset_append_of_subset_left _ p1⟩
        | none =>
          obtain ⟨ws2, h2, p2⟩ := ih db1
          exact ⟨ws1 ++ ws2, After_trans h1 h2,
            List.append_subset.mpr ⟨List.subset_append_of_subset_left _ p1,
              List.subset_append_of_subset_right _ p2⟩⟩

theorem flushNetworkTypeSections_After (ntss : List networkTypeSection) (db : Database) :
    ∃ ws, db.After ws (flushNetworkTypeSections ntss db).1 ∧
      ws ⊆ (ntss.map fun nts => (nts.networkSections.map specWritesOfSection).flatten).flatten := by
  induction ntss generalizing db with
  | nil => exact ⟨[], After_refl db, List.nil_subset _⟩
  | cons nts rest ih =>
    obtain ⟨ws1, h1, p1⟩ := flushNetworkSections_After nts.networkSections db
    simp only [flushNetworkTypeSections, networkTypeSection.flushMessages, List.map_cons,
      List.flatten_cons]
    cases hr : flushNetworkSections nts.networkSections db with
    | mk db1 out =>
      rw [hr] at h1
      cases out with
      | nilBucket => exact ⟨ws1, h1, List.subset_append_of_subset_left _ p1⟩
      | returned err =>
        cases err with
        | some e => exact ⟨ws1, h1, List.subset_append_of_subset_left _ p1⟩
        | none =>
          obtain ⟨ws2, h2, p2⟩ := ih db1
          exact ⟨ws1 ++ ws2, After_trans h1 h2,
            List.append_subset.mpr ⟨List.subset_append_of_subset_left _ p1,
              List.subset_append_of_subset_right _ p2⟩⟩

theorem Flush_After (codec : Codec) (sha3 : ByteString → ByteString) (bsd : btpSectionDigest)
    (db : Database) :
    ∃ ws, db.After ws (bsd.Flush codec sha3 db).db ∧
      ws ⊆ specWrites (bsd.Hash codec sha3).1 ((bsd.Hash codec sha3).2.Bytes codec).1
        ((bsd.Hash codec sha3).2.Bytes codec).2.bs := by
  unfold btpSectionDigest.Flush
  cases hg : db.GetBucket .BytesByHash with
  | error err => exact ⟨[], After_refl db, List.nil_subset _⟩
  | ok bk =>
    have hbk : bk = .BytesByHash := by
      unfold Database.GetBucket at hg
      cases ho : db.openError .BytesByHash with
      | some e => simp [ho] at hg
      | none =>
        simp only [ho, Except.ok.injEq] at hg
        exact hg.symm
    subst hbk
    simp only
    rcases Set_After db .BytesByHash (bsd.Hash codec sha3).1
      ((bsd.Hash codec sha3).2.Bytes codec).1 with ⟨he, ha⟩ | ⟨he, hd⟩
    · have e : db.Set .BytesByHash (bsd.Hash codec sha3).1
          ((bsd.Hash codec sha3).2.Bytes codec).1 =
          ((db.Set .BytesByHash (bsd.Hash codec sha3).1
            ((bsd.Hash codec sha3).2.Bytes codec).1).1, none) := Prod.ext rfl he
      rw [e]
      simp only
      obtain ⟨ws, hws, hsub⟩ := flushNetworkTypeSections_After
        ((bsd.Hash codec sha3).2.Bytes codec).2.bs
        (db.Set .BytesByHash (bsd.Hash codec sha3).1 ((bsd.Hash codec sha3).2.Bytes codec).1).1
      refine ⟨_ :: ws, After_trans ha hws, ?_⟩
      unfold specWrites
      exact List.cons_subset_cons _ hsub
    · cases hs : (db.Set .BytesByHash (bsd.Hash codec sha3).1
          ((bsd.Hash codec sha3).2.Bytes codec).1).2 with
      | none => exact absurd hs he
      | some err =>
        have e : db.Set .BytesByHash (bsd.Hash codec sha3).1
            ((bsd.Hash codec sha3).2.Bytes codec).1 = (db, some err) := Prod.ext hd hs
        rw [e]
        exact ⟨[], After_refl db, List.nil_subset _⟩

theorem lastWrite_untouched (ws : List Write) (b : BucketID) (k : ByteString)
    (h : ∀ w ∈ ws, ¬(w.bucket = b ∧ w.key = k)) (acc : Option ByteString) :
    ws.foldl (fun a w => if b = w.bucket ∧ k = w.key then some w.value else a) acc = acc := by
  induction ws generalizing acc with
  | nil => rfl
  | cons w rest ih =>
    rw [List.foldl_cons]
    have hw := h w (List.mem_cons_self _ _)
    have hn : ¬(b = w.bucket ∧ k = w.key) := fun hc => hw ⟨hc.1.symm, hc.2.symm⟩
    rw [if_neg hn]
    exact ih (fun x hx => h x (List.mem_cons_of_mem _ hx)) acc

theorem putAll_untouched (s : Store) (ws : List Write) (b : BucketID) (k : ByteString)
    (h : ∀ w ∈ ws, ¬(w.bucket = b ∧ w.key = k)) : s.putAll ws b k = s b k := by
  rw [putAll_apply]
  exact lastWrite_untouched ws b k h _

/-! ## Binary search -/

theorem sortSearchLoop_spec (f : Nat → Bool) (n : Nat)
    (hmono : ∀ a b, a ≤ b → b < n → f a = true → f b = true) (rounds : Nat) :
    ∀ i j, i ≤ j → j ≤ n → j - i ≤ rounds → (∀ k, k < i → f k = false) →
      (∀ k, j ≤ k → k < n → f k = true) →
      i ≤ sortSearchLoop f rounds i j ∧ sortSearchLoop f rounds i j ≤ j ∧
        (∀ k, k < sortSearchLoop f rounds i j → f k = false) ∧
        (∀ k, sortSearchLoop f rounds i j ≤ k → k < n → f k = true) := by
  induction rounds with
  | zero =>
    intro i j hij _ hr hlo hhi
    have e : i = j := by omega
    subst e
    simp only [sortSearchLoop]
    exact ⟨le_refl _, le_refl _, hlo, hhi⟩
  | succ r ih =>
    intro i j hij hjn hr hlo hhi
    simp only [sortSearchLoop]
    by_cases hlt : i < j
    · rw [if_pos hlt]
      have hm1 : i ≤ (i + j) / 2 := by omega
      have hm2 : (i + j) / 2 < j := by omega
      by_cases hf : f ((i + j) / 2) = true
      · rw [if_pos hf]
        obtain ⟨a, b, c, d⟩ := ih i ((i + j) / 2) hm1 (by omega) (by omega) hlo
          (fun k hk hkn => hmono _ k hk hkn hf)
        exact ⟨a, by omega, c, d⟩
      · rw [if_neg hf]
        obtain ⟨a, b, c, d⟩ := ih ((i + j) / 2 + 1) j (by omega) hjn (by omega)
          (fun k hk => by
            cases hfk : f k with
            | false => rfl
            | true => exact absurd (hmono k _ (by omega) (by omega) hfk) hf)
          hhi
        exact ⟨by omega, b, c, d⟩
    · rw [if_neg hlt]
      have e : i = j := by omega
      subst e
      exact ⟨le_refl _, le_refl _, hlo, hhi⟩

theorem sortSearch_spec (f : Nat → Bool) (n : Nat)
    (hmono : ∀ a b, a ≤ b → b < n → f a = true → f b = true) :
    sortSearch n f ≤ n ∧ (∀ k, k < sortSearch n f → f k = false) ∧
      (∀ k, sortSearch n f ≤ k → k < n → f k = true) := by
  obtain ⟨-, b, c, d⟩ := sortSearchLoop_spec f n hmono n 0 n (Nat.zero_le _) (le_refl _)
    (by omega) (fun k hk => absurd hk (Nat.not_lt_zero _)) (fun k hk hkn => by omega)
  exact ⟨b, c, d⟩

/-- The search by key over a list in strictly ascending key order finds the element with the
key, and nothing when no element has it. -/
theorem searchByKey_spec {α : Type} (key : α → Int) (l : List α)
    (hsorted : l.Sorted (fun a b => key a < key b)) (id : Int) :
    (∀ x ∈ l, key x = id → searchByKey key l id = some x) ∧
      ((∀ x ∈ l, key x ≠ id) → searchByKey key l id = none) := by
  unfold searchByKey
  have hpw : ∀ (i j : Nat) (hi : i < l.length) (hj : j < l.length), i < j →
      key l[i] < key l[j] := fun i j hi hj hij =>
    (List.pairwise_iff_getElem.mp hsorted) i j hi hj hij
  have hle : ∀ (i j : Nat) (hi : i < l.length) (hj : j < l.length), i ≤ j →
      key l[i] ≤ key l[j] := by
    intro i j hi hj hij
    rcases Nat.lt_or_eq_of_le hij with h | h
    · exact le_of_lt (hpw i j hi hj h)
    · subst h; exact le_refl _
  have hmono : ∀ a b, a ≤ b → b < l.length →
      (match l.get? a with
        | some y => decide (id ≤ key y)
        | none => true) = true →
      (match l.get? b with
        | some y => decide (id ≤ key y)
        | none => true) = true := by
    intro a b hab hb ha
    have hal : a < l.length := by omega
    simp only [List.get?_eq_getElem?, List.getElem?_eq_getElem hal,
      List.getElem?_eq_getElem hb, decide_eq_true_eq] at ha ⊢
    exact le_trans ha (hle a b hal hb hab)
  obtain ⟨hr, hbelow, habove⟩ := sortSearch_spec _ l.length hmono
  generalize sortSearch l.length (fun k =>
    match l.get? k with
    | some y => decide (id ≤ key y)
    | none => true) = r at hr hbelow habove ⊢
  refine ⟨?_, ?_⟩
  · intro x hx hkx
    obtain ⟨m, hm, rfl⟩ := List.getElem_of_mem hx
    have hfm : (match l.get? m with
        | some y => decide (id ≤ key y)
        | none => true) = true := by
      simp only [List.get?_eq_getElem?, List.getElem?_eq_getElem hm, decide_eq_true_eq]
      rw [hkx]
    have hrm : r ≤ m := by
      by_contra hc
      have hb := hbelow m (by omega)
      simp only [hfm] at hb
      cases hb
    have hrl : r < l.length := by omega
    have hfr := habove r (le_refl _) hrl
    simp only [List.get?_eq_getElem?, List.getElem?_eq_getElem hrl, decide_eq_true_eq] at hfr
    have heq : r = m := by
      rcases Nat.lt_or_eq_of_le hrm with h | h
      · have hlt := hpw r m hrl hm h
        rw [hkx] at hlt
        exact absurd hfr (not_le.mpr hlt)
      · exact h
    rw [heq, List.get?_eq_getElem?, List.getElem?_eq_getElem hm]
    simp only [hkx, if_true]
  · intro hnone
    cases hg : l.get? r with
    | none => rfl
    | some y =>
      simp only
      rw [if_neg (hnone y (List.get?_mem hg))]

/-! ## Flush frame, decisions, roots under another module, lookups -/

/-- C21: `Flush` has no other effect on the store than its writes, whatever fails: the
writes go to the bucket `BytesByHash` and to the `ListByMerkleRoot` and `BytesByHash`
buckets of the UIDs of the network sections (the UID of their type section when the
sections carry the module of their type); every bucket and key not written is unchanged;
and the buckets of distinct UIDs, and the three kinds of bucket, are distinct. -/
theorem Flush_frame (codec : Codec) (sha3 : ByteString → ByteString) (n : Nat)
    (ntss : networkTypeSectionSlice) (bsd : btpSectionDigest)
    (h : DigestOf codec sha3 n ntss bsd) (db : Database) :
    ∃ ws : List Write,
      (bsd.Flush codec sha3 db).db.writes = db.writes ++ ws ∧
      (∀ w ∈ ws, w.bucket = .BytesByHash ∨
        ∃ nts ∈ ntss, ∃ ns ∈ nts.NetworkSections,
          w.bucket = .ListByMerkleRootFor ns.mod.UID ∨ w.bucket = .BytesByHashFor ns.mod.UID) ∧
      ((∀ nts ∈ ntss, ∀ ns ∈ nts.NetworkSections, ns.mod.UID = nts.mod.UID) →
        ∀ w ∈ ws, w.bucket = .BytesByHash ∨
          ∃ nts ∈ ntss, nts.NetworkSections ≠ [] ∧
            (w.bucket = .ListByMerkleRootFor nts.mod.UID ∨
              w.bucket = .BytesByHashFor nts.mod.UID)) ∧
      (∀ (b : BucketID) (k : ByteString), (∀ w ∈ ws, ¬(w.bucket = b ∧ w.key = k)) →
        (bsd.Flush codec sha3 db).db.buckets b k = db.buckets b k) ∧
      (∀ u1 u2 : String, u1 ≠ u2 →
        BucketID.ListByMerkleRootFor u1 ≠ BucketID.ListByMerkleRootFor u2 ∧
        BucketID.BytesByHashFor u1 ≠ BucketID.BytesByHashFor u2) ∧
      (∀ u1 u2 : String,
        BucketID.ListByMerkleRootFor u1 ≠ BucketID.BytesByHashFor u2 ∧
        BucketID.BytesByHash ≠ BucketID.ListByMerkleRootFor u1 ∧
        BucketID.BytesByHash ≠ BucketID.BytesByHashFor u1) := by
  have hc := coherent_of_digestOf codec sha3 n ntss bsd h
  have hH := coherent_Hash codec sha3 n ntss bsd hc
  have hB := coherent_Bytes codec sha3 n ntss _ hH.2
  obtain ⟨ws, ⟨hw, hb, -, -, -⟩, hsub⟩ := Flush_After codec sha3 bsd db
  rw [hB.2.1] at hsub
  have hbuckets : ∀ w ∈ ws, w.bucket = .BytesByHash ∨
      ∃ nts ∈ ntss, ∃ ns ∈ nts.NetworkSections,
        w.bucket = .ListByMerkleRootFor ns.mod.UID ∨ w.bucket = .BytesByHashFor ns.mod.UID := by
    intro w hwm
    rcases (mem_specWrites_iff _ _ ntss w).mp (hsub hwm) with rfl | ⟨nts, hnts, ns, hns, hws⟩
    · exact Or.inl rfl
    · refine Or.inr ⟨nts, hnts, ns, hns, ?_⟩
      rcases (mem_specWritesOfSection_iff ns w).mp hws with rfl | ⟨i, hi, rfl⟩
      · exact Or.inl rfl
      · exact Or.inr rfl
  refine ⟨ws, hw, hbuckets, ?_, ?_, ?_, ?_⟩
  · intro hmod w hwm
    rcases hbuckets w hwm with h1 | ⟨nts, hnts, ns, hns, h2⟩
    · exact Or.inl h1
    · refine Or.inr ⟨nts, hnts, List.ne_nil_of_mem hns, ?_⟩
      rw [← hmod nts hnts ns hns]
      exact h2
  · intro b k hno
    rw [hb]
    exact putAll_untouched db.buckets ws b k hno
  · intro u1 u2 hne
    exact ⟨fun he => hne (BucketID.ListByMerkleRootFor.inj he),
      fun he => hne (BucketID.BytesByHashFor.inj he)⟩
  · intro u1 u2
    refine ⟨?_, ?_, ?_⟩ <;> intro he <;> cases he

/-- Evaluation of C21: flushing the sample sections 3 and 9 into the store in which opening
`BytesByHashFor("icon")` fails. -/
theorem Flush_frame_witness :
    ∃ ws : List Write,
      ((newBTPSection [sampleTypeSection "icon" 1 [sampleSection3, sampleSection9]]).Digest.Flush
        sampleCodec sampleSHA3 failingDatabase).db.writes = failingDatabase.writes ++ ws ∧
      ∀ (b : BucketID) (k : ByteString), (∀ w ∈ ws, ¬(w.bucket = b ∧ w.key = k)) →
        ((newBTPSection [sampleTypeSection "icon" 1 [sampleSection3,
            sampleSection9]]).Digest.Flush sampleCodec sampleSHA3 failingDatabase).db.buckets b k =
          failingDatabase.buckets b k :=
  (Flush_frame sampleCodec sampleSHA3 2
    [sampleTypeSection "icon" 1 [sampleSection3, sampleSection9]] _ DigestOf.fresh
    failingDatabase).imp fun _ hws => ⟨hws.1, hws.2.2.2.1⟩

/-- C22: for every network type section `nts`, `NewDecision(height, round)` returns an
object whose `Bytes()` is the encoding of `["icon" as UTF-8 bytes, nts.NetworkTypeID(),
height, round, nts.Hash()]` and whose `Hash()` is the `Hash` of the module of the type of
those bytes; repeated calls of `Bytes()` and `Hash()`, in any order, return the same
values. -/
theorem NewDecision_bytes_and_hash (codec : Codec) (nts : networkTypeSection)
    (height round : Int) :
    ((nts.NewDecision height round).Bytes codec).1 =
        codec.MarshalToBytes (.list [.bytes [0x69, 0x63, 0x6f, 0x6e], .int nts.NetworkTypeID,
          .int height, .int round, .bytes nts.Hash]) ∧
      ((nts.NewDecision height round).Hash codec).1 =
        nts.mod.Hash ((nts.NewDecision height round).Bytes codec).1 ∧
      (((nts.NewDecision height round).Bytes codec).2.Bytes codec).1 =
        ((nts.NewDecision height round).Bytes codec).1 ∧
      (((nts.NewDecision height round).Hash codec).2.Hash codec).1 =
        ((nts.NewDecision height round).Hash codec).1 ∧
      (((nts.NewDecision height round).Hash codec).2.Bytes codec).1 =
        ((nts.NewDecision height round).Bytes codec).1 ∧
      (((nts.NewDecision height round).Bytes codec).2.Hash codec).1 =
        ((nts.NewDecision height round).Hash codec).1 :=
  ⟨rfl, rfl, rfl, rfl, rfl, rfl⟩

/-- C23: for every network type section `nts` and module `m`,
`NetworkSectionsRootWithMod(m)` returns the stored `NetworkSectionsRoot()` when `m` is the
module of the section and `m.MerkleRoot` over the network section hashes otherwise, and
leaves `nts` as it was: a later `NetworkSectionsRoot()` and `Hash()` return the same values
as before. -/
theorem NetworkSectionsRootWithMod_value [DecidableEq NetworkTypeModule]
    (nts : networkTypeSection) (m : NetworkTypeModule) :
    (nts.NetworkSectionsRootWithMod m).1 =
        (if nts.mod = m then nts.NetworkSectionsRoot
          else m.MerkleRoot (nts.NetworkSections.map networkSection.Hash)) ∧
      (nts.NetworkSectionsRootWithMod m).2 = nts ∧
      (nts.NetworkSectionsRootWithMod m).2.NetworkSectionsRoot = nts.NetworkSectionsRoot ∧
      (nts.NetworkSectionsRootWithMod m).2.Hash = nts.Hash := by
  unfold networkTypeSection.NetworkSectionsRootWithMod
  by_cases hm : nts.mod = m
  · rw [if_pos hm, if_pos hm]
    exact ⟨rfl, rfl, rfl, rfl⟩
  · rw [if_neg hm, if_neg hm]
    refine ⟨?_, rfl, rfl, rfl⟩
    show m.MerkleRoot (networkSectionSlice.items nts.networkSections) = _
    rw [networkSectionSlice_items]
    rfl

/-- C24: for every BTP section whose type sections are in strictly ascending
`networkTypeID` order, and every id, `NetworkTypeSectionFor(id)` returns the type section
whose `NetworkTypeID()` is `id` when there is one and the null result otherwise. -/
theorem NetworkTypeSectionFor_sorted (bs : btpSection)
    (hsorted : bs.NetworkTypeSections.Sorted (fun a b => a.NetworkTypeID < b.NetworkTypeID))
    (id : Int) :
    (∀ nts ∈ bs.NetworkTypeSections, nts.NetworkTypeID = id →
        bs.NetworkTypeSectionFor id = some nts) ∧
      ((∀ nts ∈ bs.NetworkTypeSections, nts.NetworkTypeID ≠ id) →
        bs.NetworkTypeSectionFor id = none) :=
  searchByKey_spec networkTypeSection.NetworkTypeID bs.networkTypeSections hsorted id

/-- Evaluation of C24: three type sections with the ids 1, 4 and 7; no section has id 5. -/
theorem NetworkTypeSectionFor_sorted_witness :
    (newBTPSection [sampleTypeSection "icon" 1 [sampleSection3],
        sampleTypeSection "raw" 4 [sampleSection9],
        sampleTypeSection "raw" 7 []]).NetworkTypeSectionFor 5 = none :=
  (NetworkTypeSectionFor_sorted
    (newBTPSection [sampleTypeSection "icon" 1 [sampleSection3],
      sampleTypeSection "raw" 4 [sampleSection9], sampleTypeSection "raw" 7 []])
    (by
      simp only [btpSection.NetworkTypeSections, newBTPSection, List.Sorted,
        List.pairwise_cons, List.mem_cons, List.mem_singleton, List.not_mem_nil,
        forall_eq_or_imp, forall_eq, List.Pairwise.nil, and_true, IsEmpty.forall_iff,
        implies_true]
      decide)
    5).2 (by
      intro nts hnts
      simp only [btpSection.NetworkTypeSections, newBTPSection, List.mem_cons,
        List.mem_singleton, List.not_mem_nil, or_false] at hnts
      rcases hnts with rfl | rfl | rfl <;> decide)

/-- C25, evaluated where the code departs from it: no type section has id 2.
`NetworkTypeSectionFor(2)` returns the null result, while `NetworkTypeDigestFor(2)` puts that
`nil` through the type assertion `.(*networkTypeSection)` and panics; the sibling
`NetworkDigestFor` checks for `nil` first and returns the null result. For the id 1, which
is there, both return the same type section. -/
theorem NetworkTypeDigestFor_absent_id :
    ((newBTPSection [sampleTypeSection "icon" 1 [sampleSection3]]).NetworkTypeSectionFor 2).isNone
        = true ∧
      (newBTPSection [sampleTypeSection "icon" 1 [sampleSection3]]).Digest.NetworkTypeDigestFor 2
        = .error .nilInterfaceConversion ∧
      (newBTPSection []).Digest.NetworkTypeDigestFor 2 = .error .nilInterfaceConversion ∧
      (sampleTypeSection "icon" 1 [sampleSection3]).NetworkDigestFor 4 = .ok none ∧
      (newBTPSection [sampleTypeSection "icon" 1 [sampleSection3]]).Digest.NetworkTypeDigestFor 1
        = .ok ((newBTPSection [sampleTypeSection "icon" 1
            [sampleSection3]]).NetworkTypeSectionFor 1) ∧
      ((newBTPSection [sampleTypeSection "icon" 1 [sampleSection3]]).NetworkTypeSectionFor 1).map
        networkTypeSection.NetworkTypeID = some 1 :=
  ⟨rfl, rfl, rfl, rfl, rfl, rfl⟩

/-! ## Looking up the message list -/

theorem MessageList_congr (ns : networkSection) (mod : NetworkTypeModule) (d1 d2 : Database)
    (ho : d2.openError = d1.openError) (hg : d2.getError = d1.getError)
    (hb : d2.buckets (.ListByMerkleRootFor mod.UID) ns.messagesRoot
      = d1.buckets (.ListByMerkleRootFor mod.UID) ns.messagesRoot) :
    ns.MessageList d2 mod = ns.MessageList d1 mod := by
  simp only [networkSection.MessageList, Database.GetBucket, Database.Get, ho, hg]
  cases d1.openError (.ListByMerkleRootFor mod.UID) with
  | some e => rfl
  | none =>
    simp only
    cases d1.getError (.ListByMerkleRootFor mod.UID) ns.messagesRoot with
    | some e => rfl
    | none => simp only [hb]

theorem MessageList_cases (ns : networkSection) (mod : NetworkTypeModule) (d : Database) :
    ((∃ err, ns.MessageList d mod = .error err) ↔
      (d.openError (.ListByMerkleRootFor mod.UID)).isSome = true ∨
        (d.getError (.ListByMerkleRootFor mod.UID) ns.messagesRoot).isSome = true) ∧
    (∀ ml, ns.MessageList d mod = .ok ml →
      ml.messageHashes = d.buckets (.ListByMerkleRootFor mod.UID) ns.messagesRoot ∧
        ml.mod = ns.mod) := by
  cases ho : d.openError (.ListByMerkleRootFor mod.UID) with
  | some e =>
    simp only [networkSection.MessageList, Database.GetBucket, Database.Get, ho]
    refine ⟨⟨fun _ => Or.inl rfl, fun _ => ⟨e, rfl⟩⟩, ?_⟩
    intro ml h
    cases h
  | none =>
    cases hg : d.getError (.ListByMerkleRootFor mod.UID) ns.messagesRoot with
    | some e =>
      simp only [networkSection.MessageList, Database.GetBucket, Database.Get, ho, hg]
      refine ⟨⟨fun _ => Or.inr rfl, fun _ => ⟨e, rfl⟩⟩, ?_⟩
      intro ml h
      cases h
    | none =>
      simp only [networkSection.MessageList, Database.GetBucket, Database.Get, ho, hg]
      refine ⟨⟨?_, ?_⟩, ?_⟩
      · rintro ⟨err, h⟩
        cases h
      · rintro (h | h) <;> cases h
      · intro ml h
        simp only [Except.ok.injEq] at h
        subst h
        exact ⟨rfl, rfl⟩

theorem flushMessages_ok (ns : networkSection) (db db1 : Database)
    (h : ns.flushMessages db = (db1, .returned none)) :
    db.openError (.ListByMerkleRootFor ns.mod.UID) = none ∧
    ∃ ws, db.After (⟨.ListByMerkleRootFor ns.mod.UID, ns.messagesRoot,
        ns.messageHashes.Bytes⟩ :: ws) db1 ∧
      ∀ w ∈ ws, w.bucket = .BytesByHashFor ns.mod.UID := by
  unfold networkSection.flushMessages at h
  cases ho : db.openError (.ListByMerkleRootFor ns.mod.UID) with
  | some e =>
    simp only [Database.GetBucket, ho] at h
    cases h
  | none =>
    refine ⟨rfl, ?_⟩
    simp only [Database.GetBucket, ho] at h
    rcases Set_After db (.ListByMerkleRootFor ns.mod.UID) ns.messagesRoot ns.messageHashes.Bytes
      with ⟨he, ha⟩ | ⟨he, hd⟩
    · have e : db.Set (.ListByMerkleRootFor ns.mod.UID) ns.messagesRoot ns.messageHashes.Bytes =
          ((db.Set (.ListByMerkleRootFor ns.mod.UID) ns.messagesRoot
            ns.messageHashes.Bytes).1, none) := Prod.ext rfl he
      rw [e] at h
      simp only at h
      obtain ⟨ws, hws, hsub⟩ := flushMessageLoop_After ns.messageHashes
        (match (db.Set (.ListByMerkleRootFor ns.mod.UID) ns.messagesRoot
          ns.messageHashes.Bytes).1.openError (.BytesByHashFor ns.mod.UID) with
          | some err => Except.error err
          | none => Except.ok (BucketID.BytesByHashFor ns.mod.UID)).toOption
        (.BytesByHashFor ns.mod.UID) ns.messages 0
        (db.Set (.ListByMerkleRootFor ns.mod.UID) ns.messagesRoot ns.messageHashes.Bytes).1
        (by
          intro x hx
          cases ho2 : (db.Set (.ListByMerkleRootFor ns.mod.UID) ns.messagesRoot
            ns.messageHashes.Bytes).1.openError (.BytesByHashFor ns.mod.UID) with
          | some e2 => simp [ho2, Except.toOption] at hx
          | none =>
            simp only [ho2, Except.toOption, Option.some.injEq] at hx
            exact hx.symm)
      rw [h] at hws
      refine ⟨ws, After_trans ha hws, ?_⟩
      intro w hw
      obtain ⟨i, hi, hwi⟩ := List.getElem_of_mem (hsub hw)
      rw [← hwi]
      simp
    · cases hs : (db.Set (.ListByMerkleRootFor ns.mod.UID) ns.messagesRoot
          ns.messageHashes.Bytes).2 with
      | none => exact absurd hs he
      | some err =>
        have e : db.Set (.ListByMerkleRootFor ns.mod.UID) ns.messagesRoot
            ns.messageHashes.Bytes = (db, some err) := Prod.ext hd hs
        rw [e] at h
        cases h

theorem Hash_Bytes_bs (codec : Codec) (sha3 : ByteString → ByteString)
    (bsd : btpSectionDigest) : ((bsd.Hash codec sha3).2.Bytes codec).2.bs = bsd.bs := by
  obtain ⟨bs, bytes, hash, ds, filter⟩ := bsd
  cases hash <;> cases bytes <;> rfl

/-- C33: `MessageList(db, mod)` of a network section opens the bucket `ListByMerkleRoot` of
the UID of the module it is given and reads the key `messagesRoot` there: on every store it
returns an error exactly when opening that bucket or the read fails, and otherwise the hash
list found there, none if the key is not there. After `flushMessages` of the section has
returned without error, the lookup under a module of the section's UID finds the flushed
hash list if the read does not fail, and the lookup under a module of another UID returns
what it returned before the flush. The same holds after `Flush` of a whole digest none of
whose network sections has both the UID of the given module and this Merkle root. -/
theorem MessageList_reads_bucket_of_argument (ns : networkSection) (db db1 : Database)
    (mod : NetworkTypeModule) (hflush : ns.flushMessages db = (db1, .returned none)) :
    (∀ d : Database,
      ((∃ err, ns.MessageList d mod = .error err) ↔
        (d.openError (.ListByMerkleRootFor mod.UID)).isSome = true ∨
          (d.getError (.ListByMerkleRootFor mod.UID) ns.messagesRoot).isSome = true) ∧
      (∀ ml, ns.MessageList d mod = .ok ml →
        ml.messageHashes = d.buckets (.ListByMerkleRootFor mod.UID) ns.messagesRoot ∧
          ml.mod = ns.mod)) ∧
    (mod.UID = ns.mod.UID →
      db1.getError (.ListByMerkleRootFor mod.UID) ns.messagesRoot = none →
      ns.MessageList db1 mod
        = .ok { messageHashes := some ns.messageHashes.Bytes, mod := ns.mod }) ∧
    (mod.UID ≠ ns.mod.UID → ns.MessageList db1 mod = ns.MessageList db mod) ∧
    (∀ (codec : Codec) (sha3 : ByteString → ByteString) (bsd : btpSectionDigest)
      (d : Database),
      (∀ nts ∈ bsd.bs, ∀ ns1 ∈ nts.networkSections,
        ¬(ns1.mod.UID = mod.UID ∧ ns1.messagesRoot = ns.messagesRoot)) →
      ns.MessageList (bsd.Flush codec sha3 d).db mod = ns.MessageList d mod) := by
  obtain ⟨hopen, ws, ⟨-, hb, ho, -, hg⟩, hws⟩ := flushMessages_ok ns db db1 hflush
  refine ⟨MessageList_cases ns mod, ?_, ?_, ?_⟩
  · intro huid hget
    have hbucket : db1.buckets (.ListByMerkleRootFor mod.UID) ns.messagesRoot
        = some ns.messageHashes.Bytes := by
      rw [hb, putAll_cons, putAll_untouched, huid]
      · simp [Store.put]
      · intro w hw hc
        rw [hws w hw] at hc
        cases hc.1
    rw [huid] at hget hbucket
    simp only [networkSection.MessageList, Database.GetBucket, Database.Get, hget, hbucket,
      ho, huid, hopen]
  · intro huid
    refine MessageList_congr ns mod db db1 ho hg ?_
    rw [hb, putAll_cons, putAll_untouched]
    · simp only [Store.put]
      rw [if_neg]
      rintro ⟨hc, -⟩
      simp only [BucketID.ListByMerkleRootFor.injEq] at hc
      exact huid hc
    · intro w hw hc
      rw [hws w hw] at hc
      cases hc.1
  · intro codec sha3 bsd d hno
    obtain ⟨ws2, ⟨-, hb2, ho2, -, hg2⟩, hsub⟩ := Flush_After codec sha3 bsd d
    refine MessageList_congr ns mod d _ ho2 hg2 ?_
    rw [hb2, putAll_untouched]
    intro w hw hc
    rcases (mem_specWrites_iff _ _ _ w).mp (hsub hw) with rfl | ⟨nts, hnts, ns1, hns1, hw1⟩
    · cases hc.1
    · rw [Hash_Bytes_bs] at hnts
      rcases (mem_specWritesOfSection_iff ns1 w).mp hw1 with rfl | ⟨i, hi, rfl⟩
      · refine hno nts hnts ns1 hns1 ⟨?_, hc.2⟩
        have h1 := hc.1
        simp only [BucketID.ListByMerkleRootFor.injEq] at h1
        exact h1
      · cases hc.1

/-- Witness of C33: a sample section of the module `icon` flushed to the empty store; the
lookup under the section's module finds the hash list, the lookup under the module `raw`
finds none, as before the flush. -/
theorem MessageList_reads_bucket_of_argument_witness :
    (sampleSection3.flushMessages (mapDatabase emptyStore [])).2 = .returned none ∧
    (sampleSection3.MessageList (sampleSection3.flushMessages (mapDatabase emptyStore [])).1
      sampleModule).toOption.map messageList.messageHashes
        = some (some sampleSection3.messageHashes.Bytes) ∧
    sampleSection3.MessageList (sampleSection3.flushMessages (mapDatabase emptyStore [])).1
      identityModule = sampleSection3.MessageList (mapDatabase emptyStore []) identityModule ∧
    (sampleSection3.MessageList (mapDatabase emptyStore [])
      identityModule).toOption.map messageList.messageHashes = some none :=
  ⟨rfl, rfl,
    (MessageList_reads_bucket_of_argument sampleSection3 (mapDatabase emptyStore []) _
      identityModule (Prod.ext rfl rfl)).2.2.1 (by decide),
    rfl⟩

end Btp

namespace Common

/-! ## Callbacks that leave the lock alone -/

theorem Mutex.CallBeforeUnlock_mutex (m : Mutex) (f : Callback) :
    (m.CallBeforeUnlock f).mutex = m.mutex := rfl

theorem Mutex.CallBeforeUnlock_bcbs (m : Mutex) (f : Callback) :
    (m.CallBeforeUnlock f).bcbs = m.bcbs ++ [f] := rfl

theorem Mutex.CallBeforeUnlock_acbs (m : Mutex) (f : Callback) :
    (m.CallBeforeUnlock f).acbs = m.acbs := rfl

theorem Mutex.CallAfterUnlock_mutex (m : Mutex) (f : Callback) :
    (m.CallAfterUnlock f).mutex = m.mutex := rfl

theorem Mutex.CallAfterUnlock_bcbs (m : Mutex) (f : Callback) :
    (m.CallAfterUnlock f).bcbs = m.bcbs := rfl

theorem Mutex.CallAfterUnlock_acbs (m : Mutex) (f : Callback) :
    (m.CallAfterUnlock f).acbs = m.acbs ++ [f] := rfl

theorem Mutex.schedule_bcbs (s : Schedule) (m : Mutex) :
    (m.schedule s).bcbs = m.bcbs ++ s.befores.map plain := by
  induction s generalizing m with
  | nil => simp [Mutex.schedule, Schedule.befores]
  | cons p s ih =>
    have h := ih (if p.1 then m.CallBeforeUnlock (plain p.2) else m.CallAfterUnlock (plain p.2))
    simp only [Mutex.schedule, List.foldl_cons] at h ⊢
    rw [h]
    cases hp : p.1 <;>
      simp [Schedule.befores, List.filter_cons, hp, Mutex.CallBeforeUnlock,
        Mutex.CallAfterUnlock]

theorem Mutex.schedule_acbs (s : Schedule) (m : Mutex) :
    (m.schedule s).acbs = m.acbs ++ s.afters.map plain := by
  induction s generalizing m with
  | nil => simp [Mutex.schedule, Schedule.afters]
  | cons p s ih =>
    have h := ih (if p.1 then m.CallBeforeUnlock (plain p.2) else m.CallAfterUnlock (plain p.2))
    simp only [Mutex.schedule, List.foldl_cons] at h ⊢
    rw [h]
    cases hp : p.1 <;>
      simp [Schedule.afters, List.filter_cons, hp, Mutex.CallBeforeUnlock,
        Mutex.CallAfterUnlock]

theorem Mutex.schedule_mutex (s : Schedule) (m : Mutex) :
    (m.schedule s).mutex = m.mutex := by
  induction s generalizing m with
  | nil => rfl
  | cons p s ih =>
    have h := ih (if p.1 then m.CallBeforeUnlock (plain p.2) else m.CallAfterUnlock (plain p.2))
    simp only [Mutex.schedule, List.foldl_cons] at h ⊢
    rw [h]
    cases p.1 <;> rfl

theorem Mutex.call_plain (fuel a : Nat) (m : Mutex) :
    Mutex.call (fuel + 1) (plain a) m
      = .ok { m with mutex := m.mutex.note (.call a m.mutex.held) } := by
  simp [Mutex.call, plain]
  rfl

theorem Mutex.runBefore_done (fuel i : Nat) (m : Mutex) (h : m.bcbs.get? i = none) :
    Mutex.runBefore (fuel + 1) i m = .ok m := by
  rw [List.get?_eq_getElem?] at h
  simp [Mutex.runBefore, h]

theorem Mutex.runBefore_step (fuel i : Nat) (m m1 : Mutex) (f : Callback)
    (h : m.bcbs.get? i = some f) (hc : Mutex.call fuel f m = .ok m1) :
    Mutex.runBefore (fuel + 1) i m = Mutex.runBefore fuel (i + 1) m1 := by
  rw [List.get?_eq_getElem?] at h
  simp [Mutex.runBefore, h, hc]

theorem Mutex.runBefore_plain (ls : List Nat) :
    ∀ (pre post : List Callback) (m : Mutex) (fuel : Nat),
      m.bcbs = pre ++ ls.map plain ++ post →
      Mutex.runBefore (fuel + 1 + ls.length) pre.length m
        = Mutex.runBefore (fuel + 1) (pre.length + ls.length)
            (m.noted (calls m.mutex.held ls)) := by
  induction ls with
  | nil =>
    intro pre post m fuel _
    simp [Mutex.noted, calls]
  | cons a ls ih =>
    intro pre post m fuel h
    have hget : m.bcbs.get? pre.length = some (plain a) := by
      rw [h, List.get?_eq_getElem?, List.append_assoc,
        List.getElem?_append_right (Nat.le_refl _)]
      simp
    have hstep := Mutex.runBefore_step (fuel + 1 + ls.length) pre.length m _ (plain a) hget
      (Mutex.call_plain (fuel + ls.length) a m |> fun e => by
        rw [show fuel + 1 + ls.length = fuel + ls.length + 1 by omega]; exact e)
    rw [show fuel + 1 + (a :: ls).length = fuel + 1 + ls.length + 1 by simp; omega, hstep]
    have h2 := ih (pre ++ [plain a]) post
      { m with mutex := m.mutex.note (.call a m.mutex.held) } fuel
      (by simp [h])
    simp only [List.length_append, List.length_singleton] at h2
    rw [h2]
    simp [Mutex.noted, Locker.note, calls, Nat.add_assoc, Nat.add_comm 1]

theorem Mutex.foldlM_call_plain (fuel : Nat) (ls : List Nat) :
    ∀ m : Mutex, (ls.map plain).foldlM (fun m2 cb => Mutex.call (fuel + 1) cb m2) m
      = .ok (m.noted (calls m.mutex.held ls)) := by
  induction ls with
  | nil => intro m; simp [Mutex.noted, calls]; rfl
  | cons a ls ih =>
    intro m
    simp only [List.map_cons, List.foldlM_cons, Mutex.call_plain]
    show (ls.map plain).foldlM _ _ = _
    rw [ih]
    simp [Mutex.noted, Locker.note, calls]

theorem Mutex.Unlock_plain (fuel : Nat) (bs as : List Nat) (m : Mutex)
    (hheld : m.mutex.held = true) (hb : m.bcbs = bs.map plain) (ha : m.acbs = as.map plain) :
    Mutex.Unlock (fuel + bs.length + 2) m
      = .ok { mutex := ⟨false, m.mutex.events ++ calls true bs ++ [.unlock] ++ calls false as⟩
              bcbs := []
              acbs := [] } := by
  have h1 := Mutex.runBefore_plain bs [] [] m fuel (by simp [hb])
  have h2 := Mutex.runBefore_done fuel (bs.length) (m.noted (calls m.mutex.held bs))
    (by simp [Mutex.noted, hb])
  simp only [List.length_nil, Nat.zero_add] at h1
  rw [h2] at h1
  rw [show fuel + bs.length + 2 = fuel + 1 + bs.length + 1 by omega]
  simp only [Mutex.Unlock, h1]
  simp only [Mutex.noted, Locker.Unlock, hheld, if_true, ha]
  rw [show fuel + 1 + bs.length = fuel + bs.length + 1 by omega, Mutex.foldlM_call_plain]
  simp [Mutex.noted]

/-! ## The same for the auto-call locker -/

theorem AutoCallLocker.schedule_bcbs_autoCall (s : Schedule) (m : AutoCallLocker) :
    (m.schedule s).bcbs = m.bcbs ++ s.befores.map plain := by
  induction s generalizing m with
  | nil => simp [AutoCallLocker.schedule, Schedule.befores]
  | cons p s ih =>
    have h := ih (if p.1 then m.CallBeforeUnlock (plain p.2) else m.CallAfterUnlock (plain p.2))
    simp only [AutoCallLocker.schedule, List.foldl_cons] at h ⊢
    rw [h]
    cases hp : p.1 <;>
      simp [Schedule.befores, List.filter_cons, hp, AutoCallLocker.CallBeforeUnlock,
        AutoCallLocker.CallAfterUnlock]

theorem AutoCallLocker.schedule_acbs_autoCall (s : Schedule) (m : AutoCallLocker) :
    (m.schedule s).acbs = m.acbs ++ s.afters.map plain := by
  induction s generalizing m with
  | nil => simp [AutoCallLocker.schedule, Schedule.afters]
  | cons p s ih =>
    have h := ih (if p.1 then m.CallBeforeUnlock (plain p.2) else m.CallAfterUnlock (plain p.2))
    simp only [AutoCallLocker.schedule, List.foldl_cons] at h ⊢
    rw [h]
    cases hp : p.1 <;>
      simp [Schedule.afters, List.filter_cons, hp, AutoCallLocker.CallBeforeUnlock,
        AutoCallLocker.CallAfterUnlock]

theorem AutoCallLocker.schedule_locker (s : Schedule) (m : AutoCallLocker) :
    (m.schedule s).locker = m.locker := by
  induction s generalizing m with
  | nil => rfl
  | cons p s ih =>
    have h := ih (if p.1 then m.CallBeforeUnlock (plain p.2) else m.CallAfterUnlock (plain p.2))
    simp only [AutoCallLocker.schedule, List.foldl_cons] at h ⊢
    rw [h]
    cases p.1 <;> rfl

theorem AutoCallLocker.call_plain_autoCall (fuel a : Nat) (m : AutoCallLocker) :
    AutoCallLocker.call (fuel + 1) (plain a) m
      = .ok { m with locker := m.locker.note (.call a m.locker.held) } := by
  simp [AutoCallLocker.call, plain]
  rfl

theorem AutoCallLocker.runBefore_done_autoCall (fuel i : Nat) (m : AutoCallLocker) (h : m.bcbs.get? i = none) :
    AutoCallLocker.runBefore (fuel + 1) i m = .ok m := by
  rw [List.get?_eq_getElem?] at h
  simp [AutoCallLocker.runBefore, h]

theorem AutoCallLocker.runBefore_step_autoCall (fuel i : Nat) (m m1 : AutoCallLocker) (f : Callback)
    (h : m.bcbs.get? i = some f) (hc : AutoCallLocker.call fuel f m = .ok m1) :
    AutoCallLocker.runBefore (fuel + 1) i m = AutoCallLocker.runBefore fuel (i + 1) m1 := by
  rw [List.get?_eq_getElem?] at h
  simp [AutoCallLocker.runBefore, h, hc]

theorem AutoCallLocker.runBefore_plain_autoCall (ls : List Nat) :
    ∀ (pre post : List Callback) (m : AutoCallLocker) (fuel : Nat),
      m.bcbs = pre ++ ls.map plain ++ post →
      AutoCallLocker.runBefore (fuel + 1 + ls.length) pre.length m
        = AutoCallLocker.runBefore (fuel + 1) (pre.length + ls.length)
            (m.noted (calls m.locker.held ls)) := by
  induction ls with
  | nil =>
    intro pre post m fuel _
    simp [AutoCallLocker.noted, calls]
  | cons a ls ih =>
    intro pre post m fuel h
    have hget : m.bcbs.get? pre.length = some (plain a) := by
      rw [h, List.get?_eq_getElem?, List.append_assoc,
        List.getElem?_append_right (Nat.le_refl _)]
      simp
    have hstep := AutoCallLocker.runBefore_step_autoCall (fuel + 1 + ls.length) pre.length m _ (plain a) hget
      (AutoCallLocker.call_plain_autoCall (fuel + ls.length) a m |> fun e => by
        rw [show fuel + 1 + ls.length = fuel + ls.length + 1 by omega]; exact e)
    rw [show fuel + 1 + (a :: ls).length = fuel + 1 + ls.length + 1 by simp; omega, hstep]
    have h2 := ih (pre ++ [plain a]) post
      { m with locker := m.locker.note (.call a m.locker.held) } fuel
      (by simp [h])
    simp only [List.length_append, List.length_singleton] at h2
    rw [h2]
    simp [AutoCallLocker.noted, Locker.note, calls, Nat.add_assoc, Nat.add_comm 1]

theorem AutoCallLocker.foldlM_call_plain_autoCall (fuel : Nat) (ls : List Nat) :
    ∀ m : AutoCallLocker, (ls.map plain).foldlM (fun m2 cb => AutoCallLocker.call (fuel + 1) cb m2) m
      = .ok (m.noted (calls m.locker.held ls)) := by
  induction ls with
  | nil => intro m; simp [AutoCallLocker.noted, calls]; rfl
  | cons a ls ih =>
    intro m
    simp only [List.map_cons, List.foldlM_cons, AutoCallLocker.call_plain_autoCall]
    show (ls.map plain).foldlM _ _ = _
    rw [ih]
    simp [AutoCallLocker.noted, Locker.note, calls]

theorem AutoCallLocker.Unlock_plain_autoCall (fuel : Nat) (bs as : List Nat) (m : AutoCallLocker)
    (hheld : m.locker.held = true) (hb : m.bcbs = bs.map plain) (ha : m.acbs = as.map plain) :
    AutoCallLocker.Unlock (fuel + bs.length + 2) m
      = .ok { locker := ⟨false, m.locker.events ++ calls true bs ++ [.unlock] ++ calls false as⟩
              bcbs := []
              acbs := [] } := by
  have h1 := AutoCallLocker.runBefore_plain_autoCall bs [] [] m fuel (by simp [hb])
  have h2 := AutoCallLocker.runBefore_done_autoCall fuel (bs.length) (m.noted (calls m.locker.held bs))
    (by simp [AutoCallLocker.noted, hb])
  simp only [List.length_nil, Nat.zero_add] at h1
  rw [h2] at h1
  rw [show fuel + bs.length + 2 = fuel + 1 + bs.length + 1 by omega]
  simp only [AutoCallLocker.Unlock, h1]
  simp only [AutoCallLocker.noted, Locker.Unlock, hheld, if_true, ha]
  rw [show fuel + 1 + bs.length = fuel + bs.length + 1 by omega, AutoCallLocker.foldlM_call_plain_autoCall]
  simp [AutoCallLocker.noted]

/-! ## Callbacks that call the lock -/

theorem Mutex.Unlock_plain_of_le (fuel : Nat) (bs as : List Nat) (m : Mutex)
    (hf : bs.length + 2 ≤ fuel)
    (hheld : m.mutex.held = true) (hb : m.bcbs = bs.map plain) (ha : m.acbs = as.map plain) :
    Mutex.Unlock fuel m
      = .ok { mutex := ⟨false, m.mutex.events ++ calls true bs ++ [.unlock] ++ calls false as⟩
              bcbs := []
              acbs := [] } := by
  obtain ⟨f, rfl⟩ : ∃ f, fuel = f + bs.length + 2 := ⟨fuel - bs.length - 2, by omega⟩
  exact Mutex.Unlock_plain f bs as m hheld hb ha

theorem AutoCallLocker.Unlock_plain_of_le_autoCall (fuel : Nat) (bs as : List Nat) (m : AutoCallLocker)
    (hf : bs.length + 2 ≤ fuel)
    (hheld : m.locker.held = true) (hb : m.bcbs = bs.map plain) (ha : m.acbs = as.map plain) :
    AutoCallLocker.Unlock fuel m
      = .ok { locker := ⟨false, m.locker.events ++ calls true bs ++ [.unlock] ++ calls false as⟩
              bcbs := []
              acbs := [] } := by
  obtain ⟨f, rfl⟩ : ∃ f, fuel = f + bs.length + 2 := ⟨fuel - bs.length - 2, by omega⟩
  exact AutoCallLocker.Unlock_plain_autoCall f bs as m hheld hb ha

theorem Mutex.runBefore_plain_of_le (ls : List Nat) (pre post : List Callback) (m : Mutex)
    (fuel : Nat) (hf : ls.length + 1 ≤ fuel) (h : m.bcbs = pre ++ ls.map plain ++ post) :
    Mutex.runBefore fuel pre.length m
      = Mutex.runBefore (fuel - ls.length) (pre.length + ls.length)
          (m.noted (calls m.mutex.held ls)) := by
  obtain ⟨f, rfl⟩ : ∃ f, fuel = f + 1 + ls.length := ⟨fuel - ls.length - 1, by omega⟩
  rw [Mutex.runBefore_plain ls pre post m f h, Nat.add_sub_cancel]

theorem Mutex.foldlM_runOp_ops (fuel : Nat) (t : Schedule) :
    ∀ m : Mutex, t.ops.foldlM (fun m1 op => Mutex.runOp (fuel + 1) op m1) m
      = .ok (m.schedule t) := by
  induction t with
  | nil => intro m; rfl
  | cons p t ih =>
    intro m
    have h := ih (if p.1 then m.CallBeforeUnlock (plain p.2) else m.CallAfterUnlock (plain p.2))
    simp only [Schedule.ops, List.map_cons, List.foldlM_cons, Mutex.schedule,
      List.foldl_cons] at h ⊢
    rw [← h]
    cases p.1 <;> rfl

theorem Mutex.call_scheduler (fuel b : Nat) (t : Schedule) (m : Mutex) (hf : 2 ≤ fuel) :
    Mutex.call fuel ⟨b, t.ops⟩ m
      = .ok ((m.noted [.call b m.mutex.held]).schedule t) := by
  obtain ⟨f, rfl⟩ : ∃ f, fuel = f + 1 + 1 := ⟨fuel - 2, by omega⟩
  simp only [Mutex.call]
  rw [Mutex.foldlM_runOp_ops]
  rfl

theorem Mutex.runBefore_done_of_le (fuel i : Nat) (m : Mutex) (hf : 1 ≤ fuel)
    (h : m.bcbs.get? i = none) : Mutex.runBefore fuel i m = .ok m := by
  obtain ⟨f, rfl⟩ : ∃ f, fuel = f + 1 := ⟨fuel - 1, by omega⟩
  exact Mutex.runBefore_done f i m h

theorem Mutex.runBefore_step_of_le (fuel i : Nat) (m m1 : Mutex) (f : Callback)
    (hf : 1 ≤ fuel) (h : m.bcbs.get? i = some f) (hc : Mutex.call (fuel - 1) f m = .ok m1) :
    Mutex.runBefore fuel i m = Mutex.runBefore (fuel - 1) (i + 1) m1 := by
  obtain ⟨g, rfl⟩ : ∃ g, fuel = g + 1 := ⟨fuel - 1, by omega⟩
  exact Mutex.runBefore_step g i m m1 f h hc

theorem Mutex.foldlM_call_plain_of_le (fuel : Nat) (ls : List Nat) (m : Mutex)
    (hf : 1 ≤ fuel) :
    (ls.map plain).foldlM (fun m2 cb => Mutex.call fuel cb m2) m
      = .ok (m.noted (calls m.mutex.held ls)) := by
  obtain ⟨g, rfl⟩ : ∃ g, fuel = g + 1 := ⟨fuel - 1, by omega⟩
  exact Mutex.foldlM_call_plain g ls m

theorem Mutex.Unlock_before_scheduler (fuel b : Nat) (bs1 bs2 as : List Nat) (t : Schedule)
    (m : Mutex) (hf : bs1.length + bs2.length + t.befores.length + 4 ≤ fuel)
    (hheld : m.mutex.held = true)
    (hb : m.bcbs = bs1.map plain ++ [⟨b, t.ops⟩] ++ bs2.map plain)
    (ha : m.acbs = as.map plain) :
    Mutex.Unlock fuel m
      = .ok { mutex := ⟨false, m.mutex.events ++ calls true bs1 ++ [.call b true]
                ++ calls true (bs2 ++ t.befores) ++ [.unlock] ++ calls false (as ++ t.afters)⟩
              bcbs := []
              acbs := [] } := by
  obtain ⟨f, rfl⟩ : ∃ f, fuel = f + 1 := ⟨fuel - 1, by omega⟩
  -- the callbacks before the scheduling one
  have h1 := Mutex.runBefore_plain_of_le bs1 [] ([⟨b, t.ops⟩] ++ bs2.map plain) m f
    (by omega) (by rw [hb]; simp)
  simp only [List.length_nil, Nat.zero_add, hheld] at h1
  -- the scheduling one
  have hc := Mutex.call_scheduler (f - bs1.length - 1) b t (m.noted (calls true bs1))
    (by omega)
  have h2 := Mutex.runBefore_step_of_le (f - bs1.length) bs1.length
    (m.noted (calls true bs1)) _ ⟨b, t.ops⟩ (by omega)
    (by
      show m.bcbs.get? bs1.length = _
      rw [hb, List.get?_eq_getElem?, List.append_assoc,
        List.getElem?_append_right (by simp)]
      simp)
    hc
  -- the callbacks after it in the queue and the ones it scheduled
  have h3 := Mutex.runBefore_plain_of_le (bs2 ++ t.befores)
    (bs1.map plain ++ [⟨b, t.ops⟩]) []
    (((m.noted (calls true bs1)).noted
      [.call b (m.noted (calls true bs1)).mutex.held]).schedule t)
    (f - bs1.length - 1)
    (by simp only [List.length_append]; omega)
    (by rw [Mutex.schedule_bcbs]; simp [Mutex.noted, hb])
  simp only [List.length_append, List.length_map, List.length_singleton,
    Mutex.schedule_mutex] at h3
  have h4 := Mutex.runBefore_done_of_le
    (f - bs1.length - 1 - (bs2.length + t.befores.length))
    (bs1.length + 1 + (bs2.length + t.befores.length))
    ((((m.noted (calls true bs1)).noted
      [.call b (m.noted (calls true bs1)).mutex.held]).schedule t).noted
        (calls ((m.noted (calls true bs1)).noted
          [.call b (m.noted (calls true bs1)).mutex.held]).mutex.held (bs2 ++ t.befores)))
    (by omega)
    (by
      show (Mutex.schedule _ t).bcbs.get? _ = none
      rw [Mutex.schedule_bcbs]
      simp [Mutex.noted, hb]
      omega)
  have hrun := h1.trans (h2.trans (h3.trans h4))
  simp only [Mutex.Unlock, hrun]
  simp only [Mutex.noted, Locker.Unlock, Mutex.schedule_mutex, hheld, if_true]
  rw [Mutex.schedule_acbs]
  show List.foldlM _ _ (m.acbs ++ t.afters.map plain) = _
  rw [ha, ← List.map_append, Mutex.foldlM_call_plain_of_le f _ _ (by omega)]
  rfl

theorem Mutex.call_relocker (fuel c : Nat) (t : Schedule) (m : Mutex)
    (hf : t.befores.length + 4 ≤ fuel)
    (hheld : m.mutex.held = false) (hb : m.bcbs = []) (ha : m.acbs = []) :
    Mutex.call fuel ⟨c, [.Lock] ++ t.ops ++ [.Unlock]⟩ m
      = .ok { mutex := ⟨false, m.mutex.events ++ [.call c false, .lock]
                ++ calls true t.befores ++ [.unlock] ++ calls false t.afters⟩
              bcbs := []
              acbs := [] } := by
  obtain ⟨f, rfl⟩ : ∃ f, fuel = f + 1 + 1 + 1 := ⟨fuel - 3, by omega⟩
  have hLock : ∀ m1 : Mutex, Mutex.runOp (f + 1 + 1) .Lock m1 = m1.Lock := fun _ => by
    simp only [Mutex.runOp]
  have hUnlock : ∀ m1 : Mutex, Mutex.runOp (f + 1 + 1) .Unlock m1 = Mutex.Unlock (f + 1) m1 :=
    fun _ => by simp only [Mutex.runOp]
  simp only [Mutex.call, List.foldlM_append, List.foldlM_cons, List.foldlM_nil, hLock,
    hUnlock]
  simp only [Mutex.Lock, Locker.Lock, Locker.note, hheld, Bool.false_eq_true, if_false, bind,
    Except.bind, Mutex.foldlM_runOp_ops, pure, Except.pure]
  rw [Mutex.Unlock_plain_of_le (f + 1) t.befores t.afters _ (by omega)
    (by rw [Mutex.schedule_mutex]) (by rw [Mutex.schedule_bcbs, hb]; rfl)
    (by rw [Mutex.schedule_acbs, ha]; rfl)]
  simp [Mutex.schedule_mutex]

theorem Mutex.Unlock_after_relocker (fuel c : Nat) (bs as1 as2 : List Nat) (t : Schedule)
    (m : Mutex) (hf : bs.length + t.befores.length + 5 ≤ fuel)
    (hheld : m.mutex.held = true) (hb : m.bcbs = bs.map plain)
    (ha : m.acbs = as1.map plain ++ [⟨c, [.Lock] ++ t.ops ++ [.Unlock]⟩] ++ as2.map plain) :
    Mutex.Unlock fuel m
      = .ok { mutex := ⟨false, m.mutex.events ++ calls true bs ++ [.unlock]
                ++ calls false as1 ++ [.call c false, .lock] ++ calls true t.befores
                ++ [.unlock] ++ calls false t.afters ++ calls false as2⟩
              bcbs := []
              acbs := [] } := by
  obtain ⟨f, rfl⟩ : ∃ f, fuel = f + 1 := ⟨fuel - 1, by omega⟩
  have h1 := Mutex.runBefore_plain_of_le bs [] [] m f (by omega) (by rw [hb]; simp)
  simp only [List.length_nil, Nat.zero_add, hheld] at h1
  have h2 := Mutex.runBefore_done_of_le (f - bs.length) bs.length (m.noted (calls true bs))
    (by omega) (by simp [Mutex.noted, hb])
  simp only [Mutex.Unlock, h1.trans h2]
  simp only [Mutex.noted, Locker.Unlock, hheld, if_true, ha, List.foldlM_append,
    List.foldlM_cons, List.foldlM_nil]
  rw [Mutex.foldlM_call_plain_of_le f as1 _ (by omega)]
  simp only [bind, Except.bind, Mutex.noted]
  rw [Mutex.call_relocker f c t _ (by omega) rfl rfl rfl]
  simp only [pure, Except.pure]
  rw [Mutex.foldlM_call_plain_of_le f as2 _ (by omega)]
  simp [Mutex.noted]

/-! ## Auto-call lock: order of the calls -/

theorem ranLabels_append (es fs : List Event) :
    ranLabels (es ++ fs) = ranLabels es ++ ranLabels fs := by
  simp [ranLabels, List.filterMap_append]

theorem ranLabels_calls (held : Bool) (ls : List Nat) : ranLabels (calls held ls) = ls := by
  induction ls with
  | nil => rfl
  | cons a ls ih =>
    simp only [calls, List.map_cons] at ih ⊢
    simp only [ranLabels, List.filterMap_cons] at ih ⊢
    rw [ih]

theorem Schedule.befores_afters_perm (s : Schedule) :
    (s.befores ++ s.afters).Perm (s.map Prod.snd) := by
  simp only [Schedule.befores, Schedule.afters, ← List.map_append]
  exact (List.filter_append_perm _ s).map _

theorem Mutex.zero_Lock (l : Locker) (hl : l.held = false) :
    (Mutex.zero l).Lock = .ok { mutex := ⟨true, l.events ++ [.lock]⟩, bcbs := [], acbs := [] } := by
  simp [Mutex.zero, Mutex.Lock, Locker.Lock, hl]

theorem LockForAutoCall_ok (l : Locker) (hl : l.held = false) :
    LockForAutoCall l = .ok { locker := ⟨true, l.events ++ [.lock]⟩, bcbs := [], acbs := [] } := by
  simp [LockForAutoCall, Locker.Lock, hl]

/-- C26: a mutex is locked, or a locker is taken by `LockForAutoCall`, and callbacks that
leave the lock alone are given to `CallBeforeUnlock` and `CallAfterUnlock` in any order of
the calls. Then `Unlock` returns, for every bound on the depth of calls from the number of
the callbacks before plus two on, and the run has recorded after the lock: the callbacks
before in the order they were scheduled, each with the underlying locker held, the unlock of
the underlying locker, and the callbacks after in the order they were scheduled, each with
the underlying locker not held. -/
theorem Unlock_order (l : Locker) (hl : l.held = false) (s : Schedule) (fuel : Nat)
    (hf : s.befores.length + 2 ≤ fuel) :
    (∃ m m1, (Mutex.zero l).Lock = .ok m ∧ Mutex.Unlock fuel (m.schedule s) = .ok m1 ∧
      m1.mutex = ⟨false, l.events ++ [.lock] ++ calls true s.befores ++ [.unlock]
        ++ calls false s.afters⟩) ∧
    (∃ m m1, LockForAutoCall l = .ok m ∧ AutoCallLocker.Unlock fuel (m.schedule s) = .ok m1 ∧
      m1.locker = ⟨false, l.events ++ [.lock] ++ calls true s.befores ++ [.unlock]
        ++ calls false s.afters⟩) := by
  constructor
  · refine ⟨_, _, Mutex.zero_Lock l hl,
      Mutex.Unlock_plain_of_le fuel s.befores s.afters _ hf ?_ ?_ ?_, ?_⟩
    · rw [Mutex.schedule_mutex]
    · rw [Mutex.schedule_bcbs]; rfl
    · rw [Mutex.schedule_acbs]; rfl
    · simp only [Mutex.schedule_mutex]
  · refine ⟨_, _, LockForAutoCall_ok l hl,
      AutoCallLocker.Unlock_plain_of_le_autoCall fuel s.befores s.afters _ hf ?_ ?_ ?_, ?_⟩
    · rw [AutoCallLocker.schedule_locker]
    · rw [AutoCallLocker.schedule_bcbs_autoCall]; rfl
    · rw [AutoCallLocker.schedule_acbs_autoCall]; rfl
    · simp only [AutoCallLocker.schedule_locker]

/-- Witness of C26: two callbacks before and one after scheduled between them on a free
locker. -/
theorem Unlock_order_witness :
    freeLocker.held = false ∧
    (∃ m m1, (Mutex.zero freeLocker).Lock = .ok m ∧
      Mutex.Unlock 4 (m.schedule [(true, 1), (false, 3), (true, 2)]) = .ok m1 ∧
      m1.mutex = ⟨false, [.lock, .call 1 true, .call 2 true, .unlock, .call 3 false]⟩) ∧
    (∃ m m1, LockForAutoCall freeLocker = .ok m ∧
      AutoCallLocker.Unlock 4 (m.schedule [(true, 1), (false, 3), (true, 2)]) = .ok m1 ∧
      m1.locker = ⟨false, [.lock, .call 1 true, .call 2 true, .unlock, .call 3 false]⟩) :=
  ⟨rfl, Unlock_order freeLocker rfl [(true, 1), (false, 3), (true, 2)] 4 (by decide)⟩

/-! ## Auto-call lock: the queues after `Unlock` -/

/-- C27: a mutex is locked, or a locker is taken by `LockForAutoCall`, and callbacks that
leave the lock alone are scheduled in any order. After `Unlock` has returned both queues are
empty, the callbacks the record shows as called are, up to their order, the ones called
earlier and the scheduled ones, each as often as it was scheduled, and a following lock and
`Unlock` with nothing scheduled returns with the queues empty and only the lock and the
unlock of the underlying locker more in the record. -/
theorem Unlock_drains (l : Locker) (hl : l.held = false) (s : Schedule) (fuel : Nat)
    (hf : s.befores.length + 2 ≤ fuel) :
    (∃ m m1 m2 m3, (Mutex.zero l).Lock = .ok m ∧ Mutex.Unlock fuel (m.schedule s) = .ok m1 ∧
      m1.bcbs = [] ∧ m1.acbs = [] ∧
      (ranLabels m1.mutex.events).Perm (ranLabels l.events ++ s.map Prod.snd) ∧
      m1.Lock = .ok m2 ∧ Mutex.Unlock fuel m2 = .ok m3 ∧
      m3.bcbs = [] ∧ m3.acbs = [] ∧
      m3.mutex.events = m1.mutex.events ++ [.lock, .unlock]) ∧
    (∃ m m1 l2 m3, LockForAutoCall l = .ok m ∧
      AutoCallLocker.Unlock fuel (m.schedule s) = .ok m1 ∧
      m1.bcbs = [] ∧ m1.acbs = [] ∧
      (ranLabels m1.locker.events).Perm (ranLabels l.events ++ s.map Prod.snd) ∧
      m1.locker.Lock = .ok l2 ∧ AutoCallLocker.Unlock fuel { m1 with locker := l2 } = .ok m3 ∧
      m3.bcbs = [] ∧ m3.acbs = [] ∧
      m3.locker.events = m1.locker.events ++ [.lock, .unlock]) := by
  have hperm : (ranLabels (l.events ++ [.lock] ++ calls true s.befores ++ [.unlock]
      ++ calls false s.afters)).Perm (ranLabels l.events ++ s.map Prod.snd) := by
    simp only [ranLabels_append, ranLabels_calls, List.append_assoc]
    refine List.Perm.append_left _ ?_
    show (s.befores ++ s.afters).Perm _
    exact s.befores_afters_perm
  constructor
  · refine ⟨_, _, _, _, Mutex.zero_Lock l hl,
      Mutex.Unlock_plain_of_le fuel s.befores s.afters _ hf ?_ ?_ ?_, rfl, rfl, ?_, rfl,
      Mutex.Unlock_plain_of_le fuel [] [] _ (by simp only [List.length_nil]; omega)
        rfl rfl rfl, rfl, rfl, ?_⟩
    · rw [Mutex.schedule_mutex]
    · rw [Mutex.schedule_bcbs]; rfl
    · rw [Mutex.schedule_acbs]; rfl
    · simp only [Mutex.schedule_mutex]; exact hperm
    · simp [calls]
  · refine ⟨_, _, _, _, LockForAutoCall_ok l hl,
      AutoCallLocker.Unlock_plain_of_le_autoCall fuel s.befores s.afters _ hf ?_ ?_ ?_, rfl, rfl,
      ?_, rfl,
      AutoCallLocker.Unlock_plain_of_le_autoCall fuel [] [] _ (by simp only [List.length_nil]; omega)
        rfl rfl rfl, rfl, rfl, ?_⟩
    · rw [AutoCallLocker.schedule_locker]
    · rw [AutoCallLocker.schedule_bcbs_autoCall]; rfl
    · rw [AutoCallLocker.schedule_acbs_autoCall]; rfl
    · simp only [AutoCallLocker.schedule_locker]; exact hperm
    · simp [calls]

/-- Witness of C27: two callbacks before and one after scheduled between them on a free
locker. -/
theorem Unlock_drains_witness :
    freeLocker.held = false ∧
    (∃ m m1 m2 m3, (Mutex.zero freeLocker).Lock = .ok m ∧
      Mutex.Unlock 4 (m.schedule [(true, 1), (false, 3), (true, 2)]) = .ok m1 ∧
      m1.bcbs = [] ∧ m1.acbs = [] ∧
      (ranLabels m1.mutex.events).Perm [1, 3, 2] ∧
      m1.Lock = .ok m2 ∧ Mutex.Unlock 4 m2 = .ok m3 ∧
      m3.bcbs = [] ∧ m3.acbs = [] ∧
      m3.mutex.events = m1.mutex.events ++ [.lock, .unlock]) ∧
    (∃ m m1 l2 m3, LockForAutoCall freeLocker = .ok m ∧
      AutoCallLocker.Unlock 4 (m.schedule [(true, 1), (false, 3), (true, 2)]) = .ok m1 ∧
      m1.bcbs = [] ∧ m1.acbs = [] ∧
      (ranLabels m1.locker.events).Perm [1, 3, 2] ∧
      m1.locker.Lock = .ok l2 ∧ AutoCallLocker.Unlock 4 { m1 with locker := l2 } = .ok m3 ∧
      m3.bcbs = [] ∧ m3.acbs = [] ∧
      m3.locker.events = m1.locker.events ++ [.lock, .unlock]) :=
  ⟨rfl, Unlock_drains freeLocker rfl [(true, 1), (false, 3), (true, 2)] 4 (by decide)⟩

/-! ## Auto-call lock: callbacks that call the lock -/

/-- C28: a mutex is locked and callbacks are scheduled in any order, all leaving the lock
alone but one given to `CallAfterUnlock`, which locks the mutex, schedules callbacks of its
own in any order and unlocks. `Unlock` returns, for every bound on the depth of calls from
the number of all callbacks before plus five on. Every callback after of the outer `Unlock`
is called once, in the order of scheduling, with the underlying locker not held; the one
that locks is followed by the lock, the callbacks before it scheduled with the locker held,
the unlock, and the callbacks after it scheduled, and by nothing else before the next
callback after of the outer `Unlock`; both queues are empty in the end. -/
theorem Unlock_after_relocks (l : Locker) (hl : l.held = false) (s1 s2 t : Schedule)
    (c fuel : Nat)
    (hf : s1.befores.length + s2.befores.length + t.befores.length + 5 ≤ fuel) :
    ∃ m, (Mutex.zero l).Lock = .ok m ∧
      Mutex.Unlock fuel
          (((m.schedule s1).CallAfterUnlock ⟨c, [.Lock] ++ t.ops ++ [.Unlock]⟩).schedule s2)
        = .ok { mutex := ⟨false, l.events ++ [.lock]
                  ++ calls true (s1.befores ++ s2.befores) ++ [.unlock]
                  ++ calls false s1.afters
                  ++ [.call c false, .lock] ++ calls true t.befores ++ [.unlock]
                  ++ calls false t.afters
                  ++ calls false s2.afters⟩
                bcbs := []
                acbs := [] } := by
  refine ⟨_, Mutex.zero_Lock l hl, ?_⟩
  rw [Mutex.Unlock_after_relocker fuel c (s1.befores ++ s2.befores) s1.afters s2.afters t _
    (by simp only [List.length_append]; omega)
    (by simp only [Mutex.schedule_mutex, Mutex.CallAfterUnlock_mutex])
    (by simp [Mutex.schedule_bcbs, Mutex.CallAfterUnlock_bcbs])
    (by simp [Mutex.schedule_acbs, Mutex.CallAfterUnlock_acbs])]
  simp only [Mutex.schedule_mutex, Mutex.CallAfterUnlock_mutex]

/-- Witness of C28: on a free locker, the second of three callbacks after locks, schedules
one callback before and one after, and unlocks. -/
theorem Unlock_after_relocks_witness :
    freeLocker.held = false ∧
    ∃ m, (Mutex.zero freeLocker).Lock = .ok m ∧
      Mutex.Unlock 7
          (((m.schedule [(false, 1), (true, 2)]).CallAfterUnlock
            ⟨3, [.Lock] ++ Schedule.ops [(false, 4), (true, 5)] ++ [.Unlock]⟩).schedule
              [(false, 6)])
        = .ok { mutex := ⟨false, [.lock, .call 2 true, .unlock, .call 1 false,
                  .call 3 false, .lock, .call 5 true, .unlock, .call 4 false,
                  .call 6 false]⟩
                bcbs := []
                acbs := [] } :=
  ⟨rfl, Unlock_after_relocks freeLocker rfl [(false, 1), (true, 2)] [(false, 6)]
    [(false, 4), (true, 5)] 3 7 (by decide)⟩

/-- C30: a mutex is locked and callbacks are scheduled in any order, all leaving the lock
alone but one given to `CallBeforeUnlock`, which schedules callbacks of its own in any
order. `Unlock` returns, for every bound on the depth of calls from the number of all
callbacks before plus four on. The callbacks the one scheduled with `CallBeforeUnlock` are
called in this `Unlock` after the callbacks before that were in the queue, with the
underlying locker held and before its unlock; the ones it scheduled with `CallAfterUnlock`
are called in this `Unlock` after the unlock and after the callbacks after that were in the
queue; both queues are empty in the end. -/
theorem Unlock_before_schedules (l : Locker) (hl : l.held = false) (s1 s2 t : Schedule)
    (b fuel : Nat)
    (hf : s1.befores.length + s2.befores.length + t.befores.length + 4 ≤ fuel) :
    ∃ m, (Mutex.zero l).Lock = .ok m ∧
      Mutex.Unlock fuel (((m.schedule s1).CallBeforeUnlock ⟨b, t.ops⟩).schedule s2)
        = .ok { mutex := ⟨false, l.events ++ [.lock]
                  ++ calls true s1.befores ++ [.call b true]
                  ++ calls true (s2.befores ++ t.befores) ++ [.unlock]
                  ++ calls false ((s1.afters ++ s2.afters) ++ t.afters)⟩
                bcbs := []
                acbs := [] } := by
  refine ⟨_, Mutex.zero_Lock l hl, ?_⟩
  rw [Mutex.Unlock_before_scheduler fuel b s1.befores s2.befores (s1.afters ++ s2.afters) t _
    hf
    (by simp only [Mutex.schedule_mutex, Mutex.CallBeforeUnlock_mutex])
    (by simp [Mutex.schedule_bcbs, Mutex.CallBeforeUnlock_bcbs])
    (by simp [Mutex.schedule_acbs, Mutex.CallBeforeUnlock_acbs])]
  simp only [Mutex.schedule_mutex, Mutex.CallBeforeUnlock_mutex]

/-- Witness of C30: on a free locker, the first of two callbacks before schedules one
callback before and one after. -/
theorem Unlock_before_schedules_witness :
    freeLocker.held = false ∧
    ∃ m, (Mutex.zero freeLocker).Lock = .ok m ∧
      Mutex.Unlock 7
          (((m.schedule [(false, 1)]).CallBeforeUnlock
            ⟨2, Schedule.ops [(false, 3), (true, 4)]⟩).schedule [(true, 5), (false, 6)])
        = .ok { mutex := ⟨false, [.lock, .call 2 true, .call 5 true, .call 4 true, .unlock,
                  .call 1 false, .call 6 false, .call 3 false]⟩
                bcbs := []
                acbs := [] } :=
  ⟨rfl, Unlock_before_schedules freeLocker rfl [(false, 1)] [(true, 5), (false, 6)]
    [(false, 3), (true, 4)] 2 7 (by decide)⟩

/-! ## AutoLock -/

/-- C29: on a locker nobody holds `NewAutoLock` returns with the locker locked once; the
first `Unlock` unlocks the locker once and leaves the auto-lock not locked; and any number
of calls of `Unlock` on an auto-lock that is not locked, so any further calls without a
`Lock` between, return the auto-lock as it was, the record of the underlying locker
included. -/
theorem AutoLock_double_unlock (l : Locker) (hl : l.held = false) :
    NewAutoLock l = .ok { locker := ⟨true, l.events ++ [.lock]⟩, locked := true } ∧
    AutoLock.Unlock { locker := ⟨true, l.events ++ [.lock]⟩, locked := true }
      = .ok { locker := ⟨false, l.events ++ [.lock] ++ [.unlock]⟩, locked := false } ∧
    ∀ a : AutoLock, a.locked = false → ∀ n : Nat, AutoLock.UnlockTimes n a = .ok a := by
  refine ⟨?_, ?_, ?_⟩
  · simp [NewAutoLock, Locker.Lock, hl]
  · simp [AutoLock.Unlock, Locker.Unlock]
  · intro a ha n
    induction n with
    | zero => rfl
    | succ n ih => simp [AutoLock.UnlockTimes, AutoLock.Unlock, ha, ih]

/-- Witness of C29: a locker nobody holds, with an empty record. -/
theorem AutoLock_double_unlock_witness :
    freeLocker.held = false ∧
    NewAutoLock freeLocker = .ok { locker := ⟨true, [.lock]⟩, locked := true } ∧
    AutoLock.Unlock { locker := ⟨true, [.lock]⟩, locked := true }
      = .ok { locker := ⟨false, [.lock, .unlock]⟩, locked := false } ∧
    ∀ a : AutoLock, a.locked = false → ∀ n : Nat, AutoLock.UnlockTimes n a = .ok a :=
  ⟨rfl, AutoLock_double_unlock freeLocker rfl⟩

/-! ## Mutex and auto-call locker side by side -/

theorem map_foldlM_of_map {α β γ ε : Type} (t : α → β) (g : α → γ → Except ε α)
    (g' : β → γ → Except ε β) (h : ∀ m x, (g m x).map t = g' (t m) x) (xs : List γ) :
    ∀ m : α, (xs.foldlM g m).map t = xs.foldlM g' (t m) := by
  induction xs with
  | nil => intro m; rfl
  | cons x xs ih =>
    intro m
    simp only [List.foldlM_cons]
    have hx := h m x
    cases hg : g m x with
    | error e =>
      rw [hg] at hx
      rw [← hx]
      rfl
    | ok m1 =>
      rw [hg] at hx
      rw [← hx]
      exact ih m1

theorem Mutex.simulation (fuel : Nat) :
    (∀ f m, (Mutex.call fuel f m).map Mutex.toAutoCallLocker
      = AutoCallLocker.call fuel f m.toAutoCallLocker) ∧
    (∀ op m, (Mutex.runOp fuel op m).map Mutex.toAutoCallLocker
      = AutoCallLocker.runOp fuel op m.toAutoCallLocker) ∧
    (∀ i m, (Mutex.runBefore fuel i m).map Mutex.toAutoCallLocker
      = AutoCallLocker.runBefore fuel i m.toAutoCallLocker) ∧
    (∀ m, (Mutex.Unlock fuel m).map Mutex.toAutoCallLocker
      = AutoCallLocker.Unlock fuel m.toAutoCallLocker) := by
  induction fuel with
  | zero => exact ⟨fun _ _ => rfl, fun _ _ => rfl, fun _ _ => rfl, fun _ => rfl⟩
  | succ fuel ih =>
    obtain ⟨hcall, hop, hbefore, hunlock⟩ := ih
    refine ⟨?_, ?_, ?_, ?_⟩
    · intro f m
      simp only [Mutex.call, AutoCallLocker.call]
      exact map_foldlM_of_map Mutex.toAutoCallLocker _ _ (fun m1 op => hop op m1) f.body _
    · intro op m
      cases op with
      | CallBeforeUnlock label body => rfl
      | CallAfterUnlock label body => rfl
      | Lock =>
        simp only [Mutex.runOp, AutoCallLocker.runOp, Mutex.Lock, Mutex.toAutoCallLocker]
        cases m.mutex.Lock <;> rfl
      | Unlock =>
        simp only [Mutex.runOp, AutoCallLocker.runOp]
        exact hunlock m
    · intro i m
      simp only [Mutex.runBefore, AutoCallLocker.runBefore]
      show Except.map _ (match m.bcbs.get? i with
        | none => _
        | some f => _) = (match m.bcbs.get? i with
        | none => _
        | some f => _)
      cases m.bcbs.get? i with
      | none => rfl
      | some f =>
        have hf := hcall f m
        simp only
        cases hc : Mutex.call fuel f m with
        | error e => rw [hc] at hf; rw [← hf]; rfl
        | ok m1 => rw [hc] at hf; rw [← hf]; exact hbefore (i + 1) m1
    · intro m
      simp only [Mutex.Unlock, AutoCallLocker.Unlock]
      have hb := hbefore 0 m
      cases hr : Mutex.runBefore fuel 0 m with
      | error e => rw [hr] at hb; rw [← hb]; rfl
      | ok m1 =>
        rw [hr] at hb
        rw [← hb]
        show Except.map _ (match m1.mutex.Unlock with
          | .error e => _
          | .ok l => _) = (match m1.mutex.Unlock with
          | .error e => _
          | .ok l => _)
        cases m1.mutex.Unlock with
        | error e => rfl
        | ok l =>
          exact map_foldlM_of_map Mutex.toAutoCallLocker _ _ (fun m2 cb => hcall cb m2)
            m1.acbs _

/-- C31: the same calls made on a locked mutex and on the auto-call locker that
`LockForAutoCall` returns for the same underlying locker end alike. For every list of calls
(`CallBeforeUnlock`, `CallAfterUnlock`, `Unlock`, also a lock of the underlying locker, the
callbacks making any calls of their own) and every bound on the depth of calls, either both
runs return and the record of the underlying locker, callbacks called and releases in order,
and both queues are the same, or both runs fail to return in the same way. On a locker
nobody holds `LockForAutoCall` returns a locker that holds the lock, with both queues
empty. -/
theorem Mutex_AutoCallLocker_equivalent (l : Locker) (ops : List Op) (fuel : Nat) :
    (((Mutex.zero l).Lock.bind fun m => m.run fuel ops).map Mutex.toAutoCallLocker
      = (LockForAutoCall l).bind fun a => a.run fuel ops) ∧
    (l.held = false →
      LockForAutoCall l = .ok { locker := ⟨true, l.events ++ [.lock]⟩, bcbs := [], acbs := [] }) := by
  constructor
  · simp only [Mutex.zero, Mutex.Lock, LockForAutoCall]
    cases l.Lock with
    | error e => rfl
    | ok l1 =>
      exact map_foldlM_of_map Mutex.toAutoCallLocker _ _
        (fun m1 op => (Mutex.simulation fuel).2.1 op m1) ops _
  · intro hl
    simp [LockForAutoCall, Locker.Lock, hl]

/-- Witness of C31: on a free locker a callback before that schedules a callback after, a
plain callback after, and `Unlock`. -/
theorem Mutex_AutoCallLocker_equivalent_witness :
    (((Mutex.zero freeLocker).Lock.bind fun m =>
        m.run 6 [.CallBeforeUnlock 1 [.CallAfterUnlock 2 []], .CallAfterUnlock 3 [], .Unlock]).map
          Mutex.toAutoCallLocker
      = (LockForAutoCall freeLocker).bind fun a =>
        a.run 6 [.CallBeforeUnlock 1 [.CallAfterUnlock 2 []], .CallAfterUnlock 3 [], .Unlock]) ∧
    ((LockForAutoCall freeLocker).bind fun a =>
        a.run 6 [.CallBeforeUnlock 1 [.CallAfterUnlock 2 []], .CallAfterUnlock 3 [], .Unlock])
      = .ok { locker := ⟨false, [.lock, .call 1 true, .unlock, .call 3 false, .call 2 false]⟩
              bcbs := []
              acbs := [] } ∧
    freeLocker.held = false ∧
    LockForAutoCall freeLocker = .ok { locker := ⟨true, [.lock]⟩, bcbs := [], acbs := [] } :=
  ⟨(Mutex_AutoCallLocker_equivalent freeLocker
      [.CallBeforeUnlock 1 [.CallAfterUnlock 2 []], .CallAfterUnlock 3 [], .Unlock] 6).1,
    rfl, rfl,
    (Mutex_AutoCallLocker_equivalent freeLocker
      [.CallBeforeUnlock 1 [.CallAfterUnlock 2 []], .CallAfterUnlock 3 [], .Unlock] 6).2 rfl⟩

/-! ## AutoLock: the flag and the underlying locker -/

theorem AutoLock.run_invariant (cs : List AutoLockCall) :
    ∀ a : AutoLock, a.locker.held = a.locked → lockOnlyWhenFree a.locked cs = true →
      ∃ a1 es, a.run cs = .ok a1 ∧ a1.locker.held = a1.locked ∧
        a1.locker.events = a.locker.events ++ es ∧
        es.count .lock + (if a.locked then 1 else 0)
          = es.count .unlock + (if a1.locked then 1 else 0) := by
  induction cs with
  | nil =>
    intro a hh _
    exact ⟨a, [], rfl, hh, by simp, by simp⟩
  | cons c cs ih =>
    intro a hh hd
    cases c with
    | Lock =>
      simp only [lockOnlyWhenFree, Bool.and_eq_true, Bool.not_eq_true'] at hd
      have hheld : a.locker.held = false := hh.trans hd.1
      obtain ⟨a1, es, hrun, hh1, hev, hcount⟩ :=
        ih { locker := ⟨true, a.locker.events ++ [.lock]⟩, locked := true } rfl hd.2
      refine ⟨a1, .lock :: es, ?_, hh1, ?_, ?_⟩
      · simp only [AutoLock.run, List.foldlM_cons] at hrun ⊢
        simp only [AutoLock.Lock, Locker.Lock, hheld, Bool.false_eq_true, if_false]
        exact hrun
      · rw [hev]; simp
      · simp only [hd.1, Bool.false_eq_true, if_false, List.count_cons_self] at hcount ⊢
        simp only [if_true] at hcount
        rw [List.count_cons_of_ne (by decide)]
        omega
    | Unlock =>
      simp only [lockOnlyWhenFree] at hd
      cases hl : a.locked with
      | false =>
        rw [hl] at hh
        obtain ⟨a1, es, hrun, hh1, hev, hcount⟩ := ih a (hh.trans hl.symm) (by rw [hl]; exact hd)
        refine ⟨a1, es, ?_, hh1, hev, ?_⟩
        · simp only [AutoLock.run, List.foldlM_cons] at hrun ⊢
          simp only [AutoLock.Unlock, hl, Bool.false_eq_true, if_false]
          exact hrun
        · rw [hl] at hcount; exact hcount
      | true =>
        rw [hl] at hh
        obtain ⟨a1, es, hrun, hh1, hev, hcount⟩ :=
          ih { locker := ⟨false, a.locker.events ++ [.unlock]⟩, locked := false } rfl hd
        refine ⟨a1, .unlock :: es, ?_, hh1, ?_, ?_⟩
        · simp only [AutoLock.run, List.foldlM_cons] at hrun ⊢
          simp only [AutoLock.Unlock, hl, if_true, Locker.Unlock, hh]
          exact hrun
        · rw [hev]; simp
        · simp only [Bool.false_eq_true, if_false, List.count_cons_self, if_true] at hcount ⊢
          rw [List.count_cons_of_ne (by decide)]
          omega

theorem AutoLock.run_never_unlocks_free (cs : List AutoLockCall) :
    ∀ a : AutoLock, a.locker.held = a.locked →
      (∃ a1, a.run cs = .ok a1 ∧ a1.locker.held = a1.locked) ∨ a.run cs = .error .deadlock := by
  induction cs with
  | nil => intro a hh; exact Or.inl ⟨a, rfl, hh⟩
  | cons c cs ih =>
    intro a hh
    cases c with
    | Lock =>
      cases hheld : a.locker.held with
      | true =>
        refine Or.inr ?_
        simp only [AutoLock.run, List.foldlM_cons, AutoLock.Lock, Locker.Lock, hheld, if_true]
        rfl
      | false =>
        have h := ih { locker := ⟨true, a.locker.events ++ [.lock]⟩, locked := true } rfl
        simp only [AutoLock.run, List.foldlM_cons] at h ⊢
        simp only [AutoLock.Lock, Locker.Lock, hheld, Bool.false_eq_true, if_false]
        exact h
    | Unlock =>
      cases hl : a.locked with
      | false =>
        have h := ih a hh
        simp only [AutoLock.run, List.foldlM_cons] at h ⊢
        simp only [AutoLock.Unlock, hl, Bool.false_eq_true, if_false]
        exact h
      | true =>
        rw [hl] at hh
        have h := ih { locker := ⟨false, a.locker.events ++ [.unlock]⟩, locked := false } rfl
        simp only [AutoLock.run, List.foldlM_cons] at h ⊢
        simp only [AutoLock.Unlock, hl, if_true, Locker.Unlock, hh]
        exact h

/-- C32: `NewAutoLock` on a locker nobody holds, then any calls of `Lock` and `Unlock` in
which every `Lock` comes while the auto-lock is not locked. The run returns; among the
events it added to the record of the underlying locker, the flag `locked` is true exactly
when the locks are one more than the unlocks and false exactly when they are as many; the
underlying locker is held exactly when the flag is true. Whatever the calls are, the run
never ends in the unlock of a locker that is not held; and `Unlock`, `Lock`, `Unlock` after
`NewAutoLock` releases the locker twice. -/
theorem AutoLock_flag_counts (l : Locker) (hl : l.held = false) (cs : List AutoLockCall)
    (hcs : lockOnlyWhenFree true cs = true) :
    (∃ a es, ((NewAutoLock l).bind fun a0 => a0.run cs) = .ok a ∧
      a.locker.events = l.events ++ es ∧
      (a.locked = true ↔ es.count .lock = es.count .unlock + 1) ∧
      (a.locked = false ↔ es.count .lock = es.count .unlock) ∧
      a.locker.held = a.locked) ∧
    (∀ cs1 : List AutoLockCall,
      ((NewAutoLock l).bind fun a0 => a0.run cs1) ≠ .error .unlockOfUnlocked) ∧
    ((NewAutoLock l).bind fun a0 => a0.run [.Unlock, .Lock, .Unlock])
      = .ok { locker := ⟨false, l.events ++ [.lock, .unlock, .lock, .unlock]⟩
              locked := false } := by
  have hnew : NewAutoLock l = .ok { locker := ⟨true, l.events ++ [.lock]⟩, locked := true } := by
    simp [NewAutoLock, Locker.Lock, hl]
  refine ⟨?_, ?_, ?_⟩
  · obtain ⟨a, es, hrun, hh, hev, hcount⟩ :=
      AutoLock.run_invariant cs { locker := ⟨true, l.events ++ [.lock]⟩, locked := true }
        rfl hcs
    have hc : (Event.lock :: es).count .lock
        = (Event.lock :: es).count .unlock + (if a.locked then 1 else 0) := by
      rw [List.count_cons_self, List.count_cons_of_ne (by decide)]
      simp only [if_true] at hcount
      omega
    refine ⟨a, .lock :: es, ?_, ?_, ?_, ?_, hh⟩
    · rw [hnew]; exact hrun
    · rw [hev]; simp
    · cases hlk : a.locked with
      | false =>
        rw [hlk] at hc
        simp only [Bool.false_eq_true, if_false, Nat.add_zero] at hc
        simp only [Bool.false_eq_true, false_iff]
        omega
      | true =>
        rw [hlk] at hc
        simp only [if_true] at hc
        simp only [true_iff]
        exact hc
    · cases hlk : a.locked with
      | false =>
        rw [hlk] at hc
        simp only [Bool.false_eq_true, if_false, Nat.add_zero] at hc
        simp only [true_iff]
        exact hc
      | true =>
        rw [hlk] at hc
        simp only [if_true] at hc
        simp only [Bool.true_eq_false, false_iff]
        omega
  · intro cs1
    rw [hnew]
    rcases AutoLock.run_never_unlocks_free cs1
      { locker := ⟨true, l.events ++ [.lock]⟩, locked := true } rfl with ⟨a1, h, _⟩ | h
    · show AutoLock.run _ cs1 ≠ _
      rw [h]; intro hc; cases hc
    · show AutoLock.run _ cs1 ≠ _
      rw [h]; intro hc; cases hc
  · rw [hnew]
    simp [Except.bind, AutoLock.run, AutoLock.Unlock, AutoLock.Lock, Locker.Lock, Locker.Unlock,
      bind, pure, Except.pure]

/-- Witness of C32: on a locker nobody holds, `Unlock`, `Unlock`, `Lock`. -/
theorem AutoLock_flag_counts_witness :
    freeLocker.held = false ∧ lockOnlyWhenFree true [.Unlock, .Unlock, .Lock] = true ∧
    (∃ a es, ((NewAutoLock freeLocker).bind fun a0 => a0.run [.Unlock, .Unlock, .Lock]) = .ok a ∧
      a.locker.events = freeLocker.events ++ es ∧
      (a.locked = true ↔ es.count .lock = es.count .unlock + 1) ∧
      (a.locked = false ↔ es.count .lock = es.count .unlock) ∧
      a.locker.held = a.locked) ∧
    (∀ cs1 : List AutoLockCall,
      ((NewAutoLock freeLocker).bind fun a0 => a0.run cs1) ≠ .error .unlockOfUnlocked) ∧
    ((NewAutoLock freeLocker).bind fun a0 => a0.run [.Unlock, .Lock, .Unlock])
      = .ok { locker := ⟨false, [.lock, .unlock, .lock, .unlock]⟩
              locked := false } :=
  ⟨rfl, rfl, AutoLock_flag_counts freeLocker rfl [.Unlock, .Unlock, .Lock] rfl⟩

end Common

namespace Icstage

/-! ## The map of validator indices -/

theorem AddressMap.get?_set_self (m : AddressMap) (a : Address) (i : Int) :
    (m.set a i).get? a = some i := by
  induction m with
  | nil => simp [AddressMap.set, AddressMap.get?]
  | cons p rest ih =>
    obtain ⟨k, v⟩ := p
    by_cases h : k = a
    · simp [AddressMap.set, AddressMap.get?, h]
    · simp [AddressMap.set, AddressMap.get?, h, ih]

theorem AddressMap.get?_set_ne (m : AddressMap) (a b : Address) (i : Int) (h : b ≠ a) :
    (m.set a i).get? b = m.get? b := by
  induction m with
  | nil => simp [AddressMap.set, AddressMap.get?, Ne.symm h]
  | cons p rest ih =>
    obtain ⟨k, v⟩ := p
    by_cases hk : k = a
    · subst hk
      simp [AddressMap.set, AddressMap.get?, Ne.symm h]
    · by_cases hb : k = b
      · subst hb
        simp [AddressMap.set, AddressMap.get?, h]
      · simp [AddressMap.set, AddressMap.get?, hk, hb, ih]

theorem AddressMap.set_of_absent (m : AddressMap) (a : Address) (i : Int)
    (h : m.get? a = none) : m.set a i = m ++ [(a, i)] := by
  induction m with
  | nil => rfl
  | cons p rest ih =>
    obtain ⟨k, v⟩ := p
    by_cases hk : k = a
    · simp [AddressMap.get?, hk] at h
    · simp only [AddressMap.get?, hk, if_false] at h
      simp [AddressMap.set, hk, ih h]

theorem State.indexFor_validators (s : State) (a : Address) :
    (s.indexFor a).1.validators = s.validators ∨
      (s.validators.get? a = none ∧
        (s.indexFor a).1.validators = s.validators.set a s.validators.len) := by
  unfold State.indexFor
  cases hg : s.validators.get? a with
  | some idx => exact Or.inl rfl
  | none =>
    refine Or.inr ⟨rfl, ?_⟩
    simp only [State.addValidator]
    cases (s.trie.Set (.Validator s.validators.len) (.Validator a)).2 <;> rfl

theorem State.indexFor_keeps (s : State) (a b : Address) (j : Int)
    (h : s.validators.get? b = some j) : (s.indexFor a).1.validators.get? b = some j := by
  rcases s.indexFor_validators a with hv | ⟨hn, hv⟩
  · rw [hv]; exact h
  · rw [hv, AddressMap.get?_set_ne _ _ _ _ (by rintro rfl; rw [hn] at h; cases h)]
    exact h

theorem State.indexFor_ok (s s1 : State) (a : Address) (idx : Int)
    (h : s.indexFor a = (s1, .ok idx)) : s1.validators.get? a = some idx := by
  unfold State.indexFor at h
  cases hg : s.validators.get? a with
  | some i =>
    simp only [hg, Prod.mk.injEq, Except.ok.injEq] at h
    rw [← h.1, ← h.2]
    exact hg
  | none =>
    simp only [hg, State.addValidator] at h
    cases he : (s.trie.Set (.Validator s.validators.len) (.Validator a)).2 with
    | some err =>
      simp only [he] at h
      cases h
    | none =>
      simp only [he, Prod.mk.injEq, Except.ok.injEq] at h
      rw [← h.1, ← h.2]
      exact AddressMap.get?_set_self _ _ _

theorem SetBit_testBit (x x1 : Nat) (i : Int) (h : SetBit x i = some x1) (k : Nat) :
    0 ≤ i ∧ (x1.testBit k = true ↔ x.testBit k = true ∨ i = (k : Int)) := by
  unfold SetBit at h
  by_cases hi : i < 0
  · simp [hi] at h
  · simp only [hi, if_false, Option.some.injEq] at h
    subst h
    refine ⟨by omega, ?_⟩
    rw [Nat.testBit_or, Nat.one_shiftLeft, Nat.testBit_two_pow, Bool.or_eq_true,
      decide_eq_true_eq]
    constructor
    · rintro (h1 | h1)
      · exact Or.inl h1
      · exact Or.inr (by omega)
    · rintro (h1 | h1)
      · exact Or.inl h1
      · exact Or.inr (by omega)

theorem State.voteLoop_keeps (voters : List Address) :
    ∀ (s : State) (mask : Nat) (b : Address) (j : Int), s.validators.get? b = some j →
      (State.voteLoop voters s mask).1.validators.get? b = some j := by
  induction voters with
  | nil => intro s mask b j h; exact h
  | cons v rest ih =>
    intro s mask b j h
    have hk := s.indexFor_keeps v b j h
    simp only [State.voteLoop]
    cases hr : s.indexFor v with
    | mk s1 r =>
      rw [hr] at hk
      cases r with
      | error err => exact hk
      | ok idx =>
        simp only
        cases hs : SetBit mask idx with
        | none => exact hk
        | some mask1 => exact ih s1 mask1 b j hk

theorem State.voteLoop_mask (voters : List Address) :
    ∀ (s s1 : State) (mask mask1 : Nat), State.voteLoop voters s mask = (s1, .ok mask1) →
      ∀ k : Nat, mask1.testBit k = true ↔
        mask.testBit k = true ∨ ∃ v ∈ voters, s1.validators.get? v = some (k : Int) := by
  induction voters with
  | nil =>
    intro s s1 mask mask1 h k
    simp only [State.voteLoop, Prod.mk.injEq, Except.ok.injEq] at h
    rw [← h.2]
    simp
  | cons v rest ih =>
    intro s s1 mask mask1 h k
    simp only [State.voteLoop] at h
    cases hr : s.indexFor v with
    | mk s2 r =>
      rw [hr] at h
      cases r with
      | error err => simp only [Prod.mk.injEq] at h; cases h.2
      | ok idx =>
        simp only at h
        cases hs : SetBit mask idx with
        | none => rw [hs] at h; simp only [Prod.mk.injEq] at h; cases h.2
        | some mask2 =>
          rw [hs] at h
          simp only at h
          have hv : s1.validators.get? v = some idx := by
            have h2 := State.voteLoop_keeps rest s2 mask2 v idx (s.indexFor_ok s2 v idx hr)
            rw [h] at h2
            exact h2
          rw [ih s2 s1 mask2 mask1 h k, (SetBit_testBit mask mask2 idx hs k).2]
          constructor
          · rintro ((h1 | h1) | ⟨w, hw, h1⟩)
            · exact Or.inl h1
            · exact Or.inr ⟨v, List.mem_cons_self _ _, by rw [hv, h1]⟩
            · exact Or.inr ⟨w, List.mem_cons_of_mem _ hw, h1⟩
          · rintro (h1 | ⟨w, hw, h1⟩)
            · exact Or.inl (Or.inl h1)
            · rcases List.mem_cons.mp hw with rfl | hw2
              · rw [hv] at h1
                exact Or.inl (Or.inr (Option.some.inj h1))
              · exact Or.inr ⟨w, hw2, h1⟩

/-! ## First appearances -/

theorem firstAppearances_cons (seen : List Address) (x : Address) (l : List Address) :
    firstAppearances seen (x :: l)
      = firstAppearances (if x ∈ seen then seen else seen ++ [x]) l := rfl

theorem firstAppearances_append (seen l1 l2 : List Address) :
    firstAppearances seen (l1 ++ l2) = firstAppearances (firstAppearances seen l1) l2 := by
  simp [firstAppearances, List.foldl_append]

theorem firstAppearances_nodup (l : List Address) :
    ∀ seen : List Address, seen.Nodup → (firstAppearances seen l).Nodup := by
  induction l with
  | nil => intro seen h; exact h
  | cons x l ih =>
    intro seen h
    rw [firstAppearances_cons]
    by_cases hx : x ∈ seen
    · rw [if_pos hx]; exact ih seen h
    · rw [if_neg hx]
      refine ih _ ?_
      rw [List.nodup_append]
      refine ⟨h, List.nodup_singleton x, ?_⟩
      intro a ha hb
      rw [List.mem_singleton] at hb
      exact hx (hb ▸ ha)

theorem mem_firstAppearances (l : List Address) :
    ∀ (seen : List Address) (a : Address),
      a ∈ firstAppearances seen l ↔ a ∈ seen ∨ a ∈ l := by
  induction l with
  | nil => intro seen a; simp [firstAppearances]
  | cons x l ih =>
    intro seen a
    rw [firstAppearances_cons, ih]
    by_cases hx : x ∈ seen
    · rw [if_pos hx, List.mem_cons]
      constructor
      · rintro (h | h)
        · exact Or.inl h
        · exact Or.inr (Or.inr h)
      · rintro (h | h | h)
        · exact Or.inl h
        · exact Or.inl (h ▸ hx)
        · exact Or.inr h
    · rw [if_neg hx, List.mem_append, List.mem_singleton, List.mem_cons]
      tauto

theorem indexOf_append_cons_of_mem (seen l : List Address) (x a : Address) (hx : x ∈ seen) :
    (a ∈ seen ∧ List.indexOf a (seen ++ x :: l) = List.indexOf a seen ∧
      List.indexOf a (seen ++ l) = List.indexOf a seen ∧ List.indexOf a seen < seen.length) ∨
    (a ∉ seen ∧ List.indexOf a (seen ++ x :: l) = seen.length + (List.indexOf a l + 1) ∧
      List.indexOf a (seen ++ l) = seen.length + List.indexOf a l) := by
  by_cases ha : a ∈ seen
  · exact Or.inl ⟨ha, List.indexOf_append_of_mem ha, List.indexOf_append_of_mem ha,
      List.indexOf_lt_length.mpr ha⟩
  · refine Or.inr ⟨ha, ?_, List.indexOf_append_of_not_mem ha⟩
    rw [List.indexOf_append_of_not_mem ha, List.indexOf_cons_ne]
    rintro rfl
    exact ha hx

theorem firstAppearances_order (l : List Address) :
    ∀ (seen : List Address) (a b : Address), a ∈ seen ++ l → b ∈ seen ++ l →
      (List.indexOf a (firstAppearances seen l) < List.indexOf b (firstAppearances seen l) ↔
        List.indexOf a (seen ++ l) < List.indexOf b (seen ++ l)) := by
  induction l with
  | nil => intro seen a b _ _; simp [firstAppearances]
  | cons x l ih =>
    intro seen a b ha hb
    rw [firstAppearances_cons]
    by_cases hx : x ∈ seen
    · rw [if_pos hx]
      have hmem : ∀ c, c ∈ seen ++ x :: l → c ∈ seen ++ l := by
        intro c hc
        rcases List.mem_append.mp hc with h | h
        · exact List.mem_append_left _ h
        · rcases List.mem_cons.mp h with rfl | h2
          · exact List.mem_append_left _ hx
          · exact List.mem_append_right _ h2
      rw [ih seen a b (hmem a ha) (hmem b hb)]
      rcases indexOf_append_cons_of_mem seen l x a hx with ⟨-, a1, a2, a3⟩ | ⟨-, a1, a2⟩ <;>
        rcases indexOf_append_cons_of_mem seen l x b hx with ⟨-, b1, b2, b3⟩ | ⟨-, b1, b2⟩ <;>
        rw [a1, a2, b1, b2] <;> omega
    · rw [if_neg hx]
      have e : seen ++ [x] ++ l = seen ++ x :: l := by simp
      have h := ih (seen ++ [x]) a b (by rw [e]; exact ha) (by rw [e]; exact hb)
      rw [e] at h
      exact h

/-! ## The map that numbers a list -/

theorem indexedFrom_length (fs : List Address) :
    ∀ n : Nat, (indexedFrom n fs).length = fs.length := by
  induction fs with
  | nil => intro n; rfl
  | cons a fs ih => intro n; simp [indexedFrom, ih]

theorem indexedFrom_append (fs : List Address) (a : Address) :
    ∀ n : Nat, indexedFrom n (fs ++ [a])
      = indexedFrom n fs ++ [(a, ((n + fs.length : Nat) : Int))] := by
  induction fs with
  | nil => intro n; rfl
  | cons b fs ih =>
    intro n
    show (b, (n : Int)) :: indexedFrom (n + 1) (fs ++ [a]) = _
    rw [ih (n + 1)]
    simp only [indexedFrom, List.cons_append, List.length_cons]
    rw [show n + 1 + fs.length = n + (fs.length + 1) by omega]

theorem indexedFrom_get?_of_not_mem (fs : List Address) (a : Address) (h : a ∉ fs) :
    ∀ n : Nat, (indexedFrom n fs).get? a = none := by
  induction fs with
  | nil => intro n; rfl
  | cons b fs ih =>
    intro n
    rw [List.mem_cons, not_or] at h
    simp only [indexedFrom, AddressMap.get?, if_neg (Ne.symm h.1)]
    exact ih h.2 (n + 1)

theorem indexedFrom_get?_of_mem (fs : List Address) (a : Address) (h : a ∈ fs) :
    ∀ n : Nat, (indexedFrom n fs).get? a = some ((n + List.indexOf a fs : Nat) : Int) := by
  induction fs with
  | nil => cases h
  | cons b fs ih =>
    intro n
    by_cases hb : b = a
    · subst hb
      simp [indexedFrom, AddressMap.get?, List.indexOf_cons_self]
    · simp only [indexedFrom, AddressMap.get?, if_neg hb]
      rcases List.mem_cons.mp h with rfl | h2
      · exact absurd rfl hb
      · rw [ih h2 (n + 1), List.indexOf_cons_ne _ hb]
        congr 2
        omega

theorem indexedFrom_get?_iff (fs : List Address) (hnd : fs.Nodup) (a : Address) (k : Nat) :
    (indexedFrom 0 fs).get? a = some (k : Int) ↔ fs.get? k = some a := by
  by_cases ha : a ∈ fs
  · rw [indexedFrom_get?_of_mem fs a ha 0]
    simp only [Nat.zero_add, Option.some.injEq, Int.natCast_inj]
    constructor
    · rintro rfl
      exact List.indexOf_get? ha
    · intro h
      rw [List.get?_eq_some] at h
      obtain ⟨hk, hget⟩ := h
      rw [← hget]
      exact List.indexOf_getElem hnd k hk
  · rw [indexedFrom_get?_of_not_mem fs a ha 0]
    constructor
    · intro h; cases h
    · intro h
      exact absurd (List.get?_mem h) ha

/-! ## AddBlockProduce: the indices of the validators -/

theorem State.indexFor_numbered (s : State) (fs : List Address) (a : Address)
    (hv : s.validators = indexedFrom 0 fs) (ht : ∀ k o, s.trie.setError k o = none) :
    ∃ s1 idx, s.indexFor a = (s1, .ok idx) ∧ 0 ≤ idx ∧
      s1.validators = indexedFrom 0 (if a ∈ fs then fs else fs ++ [a]) ∧
      ∀ k o, s1.trie.setError k o = none := by
  unfold State.indexFor
  by_cases ha : a ∈ fs
  · rw [hv, indexedFrom_get?_of_mem fs a ha 0, if_pos ha]
    exact ⟨s, _, rfl, Int.natCast_nonneg _, hv, ht⟩
  · rw [if_neg ha]
    have hn : s.validators.get? a = none := by
      rw [hv]; exact indexedFrom_get?_of_not_mem fs a ha 0
    rw [hn]
    simp only [State.addValidator, Trie.Set, ht]
    refine ⟨_, _, rfl, ?_, ?_, ht⟩
    · exact Int.natCast_nonneg _
    · show s.validators.set a s.validators.len = _
      rw [AddressMap.set_of_absent _ _ _ hn, indexedFrom_append, hv]
      simp [AddressMap.len, indexedFrom_length]

theorem State.voteLoop_numbered (voters : List Address) :
    ∀ (s : State) (fs : List Address) (mask : Nat),
      s.validators = indexedFrom 0 fs → (∀ k o, s.trie.setError k o = none) →
      ∃ s1 mask1, State.voteLoop voters s mask = (s1, .ok mask1) ∧
        s1.validators = indexedFrom 0 (firstAppearances fs voters) ∧
        ∀ k o, s1.trie.setError k o = none := by
  induction voters with
  | nil => intro s fs mask hv ht; exact ⟨s, mask, rfl, hv, ht⟩
  | cons v rest ih =>
    intro s fs mask hv ht
    obtain ⟨s1, idx, hi, hidx, hv1, ht1⟩ := s.indexFor_numbered fs v hv ht
    simp only [State.voteLoop, hi]
    have hs : SetBit mask idx = some (mask ||| 1 <<< idx.toNat) := by
      simp [SetBit, not_lt.mpr hidx]
    rw [hs]
    exact ih s1 _ _ hv1 ht1

theorem State.AddBlockProduce_numbered (s : State) (fs : List Address) (offset : Int)
    (proposer : Address) (voters : List Address)
    (hv : s.validators = indexedFrom 0 fs) (ht : ∀ k o, s.trie.setError k o = none) :
    ∃ s1, s.AddBlockProduce offset proposer voters = (s1, .returned none) ∧
      s1.validators = indexedFrom 0 (firstAppearances fs (proposer :: voters)) ∧
      ∀ k o, s1.trie.setError k o = none := by
  obtain ⟨s1, idx, hi, -, hv1, ht1⟩ := s.indexFor_numbered fs proposer hv ht
  obtain ⟨s2, mask, hl, hv2, ht2⟩ := State.voteLoop_numbered voters s1 _ 0 hv1 ht1
  simp only [State.AddBlockProduce, hi, hl, Trie.Set, ht2]
  exact ⟨_, rfl, hv2, ht2⟩

theorem State.addAll_numbered (calls : List BlockVotes) :
    ∀ (s : State) (fs : List Address),
      s.validators = indexedFrom 0 fs → (∀ k o, s.trie.setError k o = none) →
      ∃ s1, s.addAll calls = (s1, .returned none) ∧
        s1.validators = indexedFrom 0 (firstAppearances fs (appearances calls)) := by
  induction calls with
  | nil => intro s fs hv _; exact ⟨s, rfl, hv⟩
  | cons c rest ih =>
    intro s fs hv ht
    obtain ⟨s1, h1, hv1, ht1⟩ := s.AddBlockProduce_numbered fs c.offset c.proposer c.voters hv ht
    obtain ⟨s2, h2, hv2⟩ := ih s1 _ hv1 ht1
    refine ⟨s2, ?_, ?_⟩
    · simp only [State.addAll, h1]
      exact h2
    · rw [hv2]
      simp only [appearances, List.flatMap_cons]
      rw [firstAppearances_append]

theorem State.AddBlockProduce_keeps (s : State) (offset : Int) (proposer : Address)
    (voters : List Address) (b : Address) (j : Int) (h : s.validators.get? b = some j) :
    (s.AddBlockProduce offset proposer voters).1.validators.get? b = some j := by
  have h1 := s.indexFor_keeps proposer b j h
  unfold State.AddBlockProduce
  cases hp : s.indexFor proposer with
  | mk s1 r =>
    rw [hp] at h1
    cases r with
    | error err => exact h1
    | ok idx =>
      have h2 := State.voteLoop_keeps voters s1 0 b j h1
      simp only
      cases hl : State.voteLoop voters s1 0 with
      | mk s2 r2 =>
        rw [hl] at h2
        cases r2 with
        | error out => exact h2
        | ok mask => exact h2

theorem State.addAll_keeps (calls : List BlockVotes) :
    ∀ (s : State) (b : Address) (j : Int), s.validators.get? b = some j →
      (s.addAll calls).1.validators.get? b = some j := by
  induction calls with
  | nil => intro s b j h; exact h
  | cons c rest ih =>
    intro s b j h
    have h1 := s.AddBlockProduce_keeps c.offset c.proposer c.voters b j h
    simp only [State.addAll]
    cases hr : s.AddBlockProduce c.offset c.proposer c.voters with
    | mk s1 out =>
      rw [hr] at h1
      cases out with
      | panic => exact h1
      | returned err =>
        cases err with
        | some e => exact h1
        | none => exact ih s1 b j h1

/-- C34: a state is set up by `NewState` over a trie in which no write fails, and
`AddBlockProduce` is called any number of times. Every call returns `nil`, and with `fs` the
addresses of all calls, of each call the proposer and then the voters in their order, listed
without repetition in the order of their first appearance, the map of validators has `n`
entries for the `n` addresses of `fs` and gives the address at place `k` of `fs` the index
`k` and no other, so the indices are `0` to `n - 1`, none twice. In every state, with any
trie, an address that has an index has the same index after further calls. -/
theorem validators_numbered_by_first_appearance (trie : Trie)
    (htrie : ∀ k o, trie.setError k o = none) (calls : List BlockVotes) :
    ((NewState trie).addAll calls).2 = .returned none ∧
    ∃ fs : List Address,
      fs.Nodup ∧
      (∀ a, a ∈ fs ↔ a ∈ appearances calls) ∧
      (∀ a ∈ appearances calls, ∀ b ∈ appearances calls,
        (List.indexOf a fs < List.indexOf b fs ↔
          List.indexOf a (appearances calls) < List.indexOf b (appearances calls))) ∧
      ((NewState trie).addAll calls).1.validators.len = (fs.length : Int) ∧
      (∀ (a : Address) (k : Nat),
        ((NewState trie).addAll calls).1.validators.get? a = some (k : Int) ↔
          fs.get? k = some a) ∧
      (∀ (a : Address) (i : Int),
        ((NewState trie).addAll calls).1.validators.get? a = some i →
          ∃ k : Nat, k < fs.length ∧ i = (k : Int)) ∧
      (∀ (s : State) (more : List BlockVotes) (a : Address) (i : Int),
        s.validators.get? a = some i → (s.addAll more).1.validators.get? a = some i) := by
  obtain ⟨s1, hrun, hv⟩ := State.addAll_numbered calls (NewState trie) [] rfl htrie
  have hnd := firstAppearances_nodup (appearances calls) [] List.nodup_nil
  rw [hrun]
  refine ⟨rfl, firstAppearances [] (appearances calls), hnd, ?_, ?_, ?_, ?_, ?_, ?_⟩
  · intro a
    rw [mem_firstAppearances]
    simp
  · intro a ha b hb
    have h := firstAppearances_order (appearances calls) [] a b (by simpa using ha)
      (by simpa using hb)
    simpa using h
  · show s1.validators.len = _
    rw [hv, AddressMap.len, indexedFrom_length]
  · intro a k
    show s1.validators.get? a = _ ↔ _
    rw [hv]
    exact indexedFrom_get?_iff _ hnd a k
  · intro a i h
    have h1 : s1.validators.get? a = some i := h
    rw [hv] at h1
    by_cases ha : a ∈ firstAppearances [] (appearances calls)
    · rw [indexedFrom_get?_of_mem _ a ha 0] at h1
      refine ⟨List.indexOf a (firstAppearances [] (appearances calls)),
        List.indexOf_lt_length.mpr ha, ?_⟩
      rw [Nat.zero_add] at h1
      exact (Option.some.inj h1).symm
    · rw [indexedFrom_get?_of_not_mem _ a ha 0] at h1
      cases h1
  · intro s more a i h
    exact State.addAll_keeps more s a i h

/-- Witness of C34: two calls on a new state over the empty trie; the three addresses get
the indices 0, 1 and 2 in the order of their first appearance. -/
theorem validators_numbered_by_first_appearance_witness :
    (∀ k o, emptyTrie.setError k o = none) ∧
    ((NewState emptyTrie).addAll sampleCalls).1.validators
      = [(⟨[1]⟩, 0), (⟨[2]⟩, 1), (⟨[3]⟩, 2)] ∧
    ((NewState emptyTrie).addAll sampleCalls).2 = .returned none ∧
    ∃ fs : List Address,
      fs.Nodup ∧
      (∀ a, a ∈ fs ↔ a ∈ appearances sampleCalls) ∧
      (∀ a ∈ appearances sampleCalls, ∀ b ∈ appearances sampleCalls,
        (List.indexOf a fs < List.indexOf b fs ↔
          List.indexOf a (appearances sampleCalls) < List.indexOf b (appearances sampleCalls))) ∧
      ((NewState emptyTrie).addAll sampleCalls).1.validators.len = (fs.length : Int) ∧
      (∀ (a : Address) (k : Nat),
        ((NewState emptyTrie).addAll sampleCalls).1.validators.get? a = some (k : Int) ↔
          fs.get? k = some a) ∧
      (∀ (a : Address) (i : Int),
        ((NewState emptyTrie).addAll sampleCalls).1.validators.get? a = some i →
          ∃ k : Nat, k < fs.length ∧ i = (k : Int)) ∧
      (∀ (s : State) (more : List BlockVotes) (a : Address) (i : Int),
        s.validators.get? a = some i → (s.addAll more).1.validators.get? a = some i) :=
  ⟨fun _ _ => rfl, by decide,
    validators_numbered_by_first_appearance emptyTrie (fun _ _ => rfl) sampleCalls⟩

/-! ## AddBlockProduce: the object written -/

theorem length_setBits_lt (mask : Nat) (voters : List Address) (m : AddressMap)
    (hmask : ∀ k : Nat, mask.testBit k = true → ∃ v ∈ voters, m.get? v = some (k : Int))
    (hdup : ¬voters.Nodup) (n : Nat) :
    ((List.range n).filter fun k => mask.testBit k).length < voters.length := by
  have hsub : ((List.range n).filter fun k => mask.testBit k)
      ⊆ voters.dedup.filterMap fun v => (m.get? v).map Int.toNat := by
    intro k hk
    obtain ⟨v, hv, hg⟩ := hmask k (List.mem_filter.mp hk).2
    exact List.mem_filterMap.mpr ⟨v, List.mem_dedup.mpr hv, by simp [hg]⟩
  have h1 := ((List.nodup_range n).filter _).subperm hsub |>.length_le
  have h2 := List.length_filterMap_le (fun v => (m.get? v).map Int.toNat) voters.dedup
  have h3 : voters.dedup.length < voters.length := by
    rcases Nat.lt_or_ge voters.dedup.length voters.length with h | h
    · exact h
    · exact absurd (List.dedup_eq_self.mp ((List.dedup_sublist voters).eq_of_length
        (Nat.le_antisymm (List.dedup_sublist voters).length_le h))) hdup
  omega

theorem State.voteLoop_error (voters : List Address) :
    ∀ (s s1 : State) (mask : Nat) (out : Outcome),
      State.voteLoop voters s mask = (s1, .error out) → out ≠ .returned none := by
  induction voters with
  | nil =>
    intro s s1 mask out h
    simp only [State.voteLoop, Prod.mk.injEq] at h
    cases h.2
  | cons v rest ih =>
    intro s s1 mask out h
    simp only [State.voteLoop] at h
    cases hr : s.indexFor v with
    | mk s2 r =>
      rw [hr] at h
      cases r with
      | error err =>
        simp only [Prod.mk.injEq, Except.error.injEq] at h
        rw [← h.2]
        intro hc
        cases hc
      | ok idx =>
        simp only at h
        cases hs : SetBit mask idx with
        | none =>
          rw [hs] at h
          simp only [Prod.mk.injEq, Except.error.injEq] at h
          rw [← h.2]
          intro hc
          cases hc
        | some mask2 =>
          rw [hs] at h
          exact ih s2 s1 mask2 out h

/-- C35: when `AddBlockProduce(offset, proposer, voters)` returns `nil`, in whatever state
it was called, the trie holds at the key of the offset a block produce whose
`ProposerIndex` is the index the map of validators has for the proposer, whose `VoteCount`
is the number of voters, and whose `VoteMask` has bit `k` set exactly when the map has the
index `k` for one of the voters; so when a voter is repeated, the set bits, counted below
any bound, are fewer than `VoteCount`. -/
theorem AddBlockProduce_stores (s s1 : State) (offset : Int) (proposer : Address)
    (voters : List Address)
    (h : s.AddBlockProduce offset proposer voters = (s1, .returned none)) :
    ∃ obj : BlockProduce,
      s1.trie.entries (.BlockProduce offset) = some (.BlockProduce obj) ∧
      s1.validators.get? proposer = some obj.ProposerIndex ∧
      obj.VoteCount = (voters.length : Int) ∧
      (∀ k : Nat, obj.VoteMask.testBit k = true ↔
        ∃ v ∈ voters, s1.validators.get? v = some (k : Int)) ∧
      (¬voters.Nodup → ∀ n : Nat,
        ((((List.range n).filter fun k => obj.VoteMask.testBit k).length : Nat) : Int)
          < obj.VoteCount) := by
  unfold State.AddBlockProduce at h
  cases hp : s.indexFor proposer with
  | mk s2 r =>
    rw [hp] at h
    cases r with
    | error err => simp only [Prod.mk.injEq, Outcome.returned.injEq] at h; cases h.2
    | ok proposerIndex =>
      simp only at h
      cases hl : State.voteLoop voters s2 0 with
      | mk s3 r2 =>
        rw [hl] at h
        cases r2 with
        | error out =>
          simp only [Prod.mk.injEq] at h
          exact absurd h.2 (State.voteLoop_error voters s2 s3 0 out hl)
        | ok voteMask =>
          simp only [Trie.Set] at h
          cases he : s3.trie.setError (.BlockProduce offset)
              (.BlockProduce ⟨proposerIndex, (voters.length : Int), voteMask⟩) with
          | some err =>
            rw [he] at h
            simp only [Prod.mk.injEq, Outcome.returned.injEq] at h
            cases h.2
          | none =>
            rw [he] at h
            simp only [Prod.mk.injEq] at h
            have hs1 : s1.validators = s3.validators := by rw [← h.1]
            have hmask := State.voteLoop_mask voters s2 s3 0 voteMask hl
            have hprop : s3.validators.get? proposer = some proposerIndex := by
              have h2 := State.voteLoop_keeps voters s2 0 proposer proposerIndex
                (s.indexFor_ok s2 proposer proposerIndex hp)
              rw [hl] at h2
              exact h2
            have hbits : ∀ k : Nat, voteMask.testBit k = true ↔
                ∃ v ∈ voters, s1.validators.get? v = some (k : Int) := by
              intro k
              rw [hmask k, hs1]
              simp
            refine ⟨⟨proposerIndex, (voters.length : Int), voteMask⟩, ?_, ?_, rfl, hbits, ?_⟩
            · rw [← h.1]
              simp
            · rw [hs1]
              exact hprop
            · intro hdup n
              exact Int.ofNat_lt.mpr
                (length_setBits_lt voteMask voters s1.validators
                  (fun k hk => (hbits k).mp hk) hdup n)

/-- Witness of C35: on a new state with an empty trie, a proposer and the same voter
twice. -/
theorem AddBlockProduce_stores_witness :
    ((NewState emptyTrie).AddBlockProduce 10 ⟨[1]⟩ [⟨[2]⟩, ⟨[2]⟩]).2 = .returned none ∧
    ∃ obj : BlockProduce,
      ((NewState emptyTrie).AddBlockProduce 10 ⟨[1]⟩ [⟨[2]⟩, ⟨[2]⟩]).1.trie.entries
        (.BlockProduce 10) = some (.BlockProduce obj) ∧
      ((NewState emptyTrie).AddBlockProduce 10 ⟨[1]⟩ [⟨[2]⟩, ⟨[2]⟩]).1.validators.get? ⟨[1]⟩
        = some obj.ProposerIndex ∧
      obj.VoteCount = 2 ∧
      (∀ k : Nat, obj.VoteMask.testBit k = true ↔
        ∃ v ∈ [(⟨[2]⟩ : Address), ⟨[2]⟩],
          ((NewState emptyTrie).AddBlockProduce 10 ⟨[1]⟩ [⟨[2]⟩, ⟨[2]⟩]).1.validators.get? v
            = some (k : Int)) ∧
      (¬[(⟨[2]⟩ : Address), ⟨[2]⟩].Nodup → ∀ n : Nat,
        ((((List.range n).filter fun k => obj.VoteMask.testBit k).length : Nat) : Int)
          < obj.VoteCount) :=
  ⟨rfl, AddBlockProduce_stores (NewState emptyTrie) _ 10 ⟨[1]⟩ [⟨[2]⟩, ⟨[2]⟩] (Prod.ext rfl rfl)⟩

end Icstage
